import Mathlib

/-!
tree_malloc: a buddy allocator over sharded arenas and a global page pool

Shallow embedding of `src/tree_malloc.c`.

Memory is a map from byte addresses to cell values.  Every field of the
in-place records lives at the byte offset the C structs give it on the 64-bit
target:

* `mem_tree`  : `bsize` +0, `bucket` +1, `used` +2, `left` +3   (4 bytes)
* `mem_page`  : `next` +0, `prev` +8, `tree` +16
* `free_page` : `next` +0, `prev` +8, `pages` +16

so `free_page.pages` and `mem_page.tree.bsize` are the same cell, as in the
source.  A pointer-sized field is held whole in the cell at its first byte;
booleans are 0 / 1; the null pointer is 0.  Functions that can abort (a failed
`assert`, `abort()`), run into undefined behaviour (null dereference, shift by
a negative amount) or exhaust the fuel of a loop return `none`.
-/

namespace TreeMalloc

/-! ## Constants -/

abbrev PAGE_SIZE : Nat := 4096
abbrev PAGE_BSIZE : Int := 12
abbrev MEM_PAGE_PAGES : Nat := 5
abbrev MEM_PAGE_TREE_DEF_SIZE : Int := PAGE_BSIZE + 2
abbrev MEM_PAGE_HEADER_SIZE : Nat := 16
abbrev NUM_BUCKETS : Nat := 64
/-- The value of `sizeof(mem_tree)`: two chars and two bools. -/
abbrev SIZEOF_MEM_TREE : Nat := 4
/-- The modulus of `size_t` arithmetic on the 64-bit target. -/
abbrev SIZE_MOD : Nat := 2 ^ 64

/-! ## Memory and state -/

abbrev Mem := Nat → Int

/-- Store `v` in the cell at address `a`. -/
def wr (m : Mem) (a : Nat) (v : Int) : Mem := fun x => if x = a then v else m x

/-- Read a pointer-valued cell. -/
def ptr (m : Mem) (a : Nat) : Nat := (m a).toNat

/-- Conversion of an integer value to `char` (signed, 8 bits). -/
def to_char (x : Int) : Int := (x + 128) % 256 - 128

/-- Conversion of a `char` to `size_t` (through `int`). -/
def to_size_t (x : Int) : Nat := (x % (SIZE_MOD : Int)).toNat

/-- The C expression `1 << b` on `int`; undefined outside `0..30`. -/
def shl1 (b : Int) : Option Nat := if 0 ≤ b ∧ b < 31 then some (2 ^ b.toNat) else none

/-- Observable events of one thread: lock operations and the calls between
the components, newest first in `State.trace`. -/
inductive Event where
  | pool_lock : Event
  | pool_unlock : Event
  | bucket_trylock (i : Int) (ok : Bool) : Event
  | bucket_lock (i : Int) : Event
  | bucket_unlock (i : Int) : Event
  | map_pages (pages : Nat) : Event
  | global_request_page : Event
  | global_request_pages (pages : Nat) : Event
  | global_return_page (element : Nat) (pages : Nat) : Event
  | bucket_get (bsize : Int) : Event
  | bucket_return (elt : Nat) : Event
  deriving DecidableEq, Repr

/-- The record `global_freelist` without its mutex. -/
structure global_freelist where
  head : Nat
  sorted : Bool
  allocated : Int
  large_allocated : Int
  freed : Int
  deriving DecidableEq, Repr

/-- The whole state one thread sees: the heap, `buckets[i].head`, the
global `free_pages`, the thread-local `preferred_bucket`, the Page Source
(`brk` is the address of the next fresh mapping) and the event trace. -/
structure State where
  mem : Mem
  buckets : Nat → Nat
  free_pages : global_freelist
  preferred_bucket : Int
  brk : Nat
  trace : List Event

/-- The state at program start: zeroed statics, `preferred_bucket = -1`,
nothing mapped yet; the first mapping will be at `base`. -/
def init_state (base : Nat) : State :=
  { mem := fun _ => 0
    buckets := fun _ => 0
    free_pages := { head := 0, sorted := false, allocated := 0, large_allocated := 0, freed := 0 }
    preferred_bucket := -1
    brk := base
    trace := [] }

def State.log (s : State) (e : Event) : State := { s with trace := e :: s.trace }

def State.setMem (s : State) (m : Mem) : State := { s with mem := m }

/-- Index into `buckets[NUM_BUCKETS]`; out of range is undefined. -/
def bucket_idx (i : Int) : Option Nat :=
  if 0 ≤ i ∧ i < (NUM_BUCKETS : Int) then some i.toNat else none

/-! ## Utility functions -/

def div_up (xx yy : Nat) : Nat :=
  let zz := xx / yy
  if zz * yy = xx then zz else zz + 1

/-- The least `t` at or above the start value with `x ≤ 2 ^ t`, searched upwards. -/
def ceil_log2_from : Nat → Nat → Nat → Nat
  | 0, _, t => t
  | fuel + 1, x, t => if x ≤ 2 ^ t then t else ceil_log2_from fuel x (t + 1)

/-- The conversion `(double)x` of a `size_t` value, implicit in the call
`log2(size)`: the nearest number with a significand of 53 bits, ties to even.
The result is an integer again; values below `2 ^ 53` are exact. -/
def to_double (x : Nat) : Nat :=
  if x < 2 ^ 53 then x
  else
    let e := ceil_log2_from 65 (x + 1) 0 - 53
    let q := x / 2 ^ e
    let r := x % 2 ^ e
    if 2 * r > 2 ^ e ∨ (2 * r = 2 ^ e ∧ q % 2 = 1) then (q + 1) * 2 ^ e else q * 2 ^ e

/-- The value of `ceil(log2((double)x))` for `1 ≤ x < 2 ^ 64`, with `log2`
returning the double nearest to the real logarithm.  Let `d = (double)x` and
`t` the least number with `d ≤ 2 ^ t`.  For `d` above `2 ^ (t - 1)` the real
logarithm is `t - 1 + log2(1 + r)` with `r = (d - 2 ^ (t - 1)) / 2 ^ (t - 1)`.
The doubles from 32 up to 64 are `2 ^ -47` apart, so for `33 ≤ t` the
logarithm rounds down to `t - 1` exactly when `log2(1 + r) < 2 ^ -48`, that is
`r * 2 ^ 52 ≤ 11` (`2 ^ (2 ^ -48) - 1` is `11.09 * 2 ^ -52`), and `ceil` then
gives `t - 1`.  Below `2 ^ 32` the integer `d` is too far from the power of
two for that. -/
def ceil_log2 (x : Nat) : Nat :=
  let d := to_double x
  let t := ceil_log2_from 65 d 0
  if 33 ≤ t ∧ (d - 2 ^ (t - 1)) * 2 ^ 52 ≤ 11 * 2 ^ (t - 1) then t - 1 else t

/-- Source `tree_size`: `size += sizeof(mem_tree)` in `size_t`, then
`(char)ceil(log2(size))` in double precision.  `log2(0)` is minus infinity,
whose conversion to `char` is undefined. -/
def tree_size (size : Nat) : Option Int :=
  let sz := (size + SIZEOF_MEM_TREE) % SIZE_MOD
  if sz = 0 then none else some (to_char (ceil_log2 sz))

/-- Source `page_size`: aborts above 127 pages. -/
def page_size (size header : Nat) : Option Int :=
  let sz := (size + header) % SIZE_MOD
  let ret := div_up sz PAGE_SIZE
  if ret > 127 then none else some (to_char ret)

/-! ## Global freelist functions and helpers -/

/-- Source `shave_free_page`: split the leading `pages` pages off `page`,
leaving the remainder linked right behind it. -/
def shave_free_page (m : Mem) (page pages : Nat) : Mem :=
  let temp := m page
  let m1 := wr m page ((page + pages * PAGE_SIZE : Nat) : Int)
  let m2 := wr m1 (ptr m1 page) temp
  let m3 := wr m2 (ptr m2 page + 8) (page : Int)
  let m4 := if temp ≠ 0 then wr m3 (temp.toNat + 8) (m3 page) else m3
  let m5 := wr m4 (ptr m4 page + 16) (to_char (m4 (page + 16) - (pages : Int)))
  wr m5 (page + 16) (to_char pages)

/-- Source `remove_free_page`: unlink `page` from the list of `free_pages`. -/
def remove_free_page (s : State) (page : Nat) : State :=
  let m := s.mem
  let s1 : State :=
    if m (page + 8) ≠ 0 then s.setMem (wr m (ptr m (page + 8)) (m page))
    else { s with free_pages := { s.free_pages with head := ptr m page } }
  let m1 := s1.mem
  if m1 page ≠ 0 then s1.setMem (wr m1 (ptr m1 page + 8) (m1 (page + 8))) else s1

/-- Source `search_free_list_r`: the first region from `head` on with at least
`pages` pages, `some 0` when there is none; `none` when the fuel runs out. -/
def search_free_list_r : Nat → Mem → Nat → Nat → Option Nat
  | 0, _, _, _ => none
  | fuel + 1, m, head, pages =>
    if head = 0 then some 0
    else if to_size_t (m (head + 16)) ≥ pages then some head
    else search_free_list_r fuel m (ptr m head) pages

/-- Source `map_pages`: the Page Source.  A fresh, zeroed mapping of `pages`
pages at `brk`; `assert(ret)` fails on a null result. -/
def map_pages (pages : Nat) (s : State) : Option (Nat × State) :=
  let ret := s.brk
  if ret = 0 then none
  else
    let m : Mem := fun x => if ret ≤ x ∧ x < ret + pages * PAGE_SIZE then 0 else s.mem x
    some (ret, { s with mem := m, brk := ret + pages * PAGE_SIZE, trace := Event.map_pages pages :: s.trace })

/-- Source `global_request_page`: a 5-page slab with an initialised root
header (everything but `bucket`). -/
def global_request_page (s : State) : Option (Nat × State) :=
  let s0 := (s.log Event.global_request_page).log Event.pool_lock
  let r : Option (Nat × State) :=
    if s0.free_pages.head ≠ 0 then
      let h := s0.free_pages.head
      if s0.mem (h + 16) ≥ (MEM_PAGE_PAGES : Int) then
        let s1 :=
          if s0.mem (h + 16) > (MEM_PAGE_PAGES : Int) then
            s0.setMem (shave_free_page s0.mem h MEM_PAGE_PAGES)
          else s0
        let fret := s1.free_pages.head
        some (fret, remove_free_page s1 fret)
      else none
    else map_pages MEM_PAGE_PAGES s0
  match r with
  | none => none
  | some (fret, s2) =>
    let s3 := s2.log Event.pool_unlock
    let m := s3.mem
    let m1 := wr m fret 0
    let m2 := wr m1 (fret + 8) 0
    let m3 := wr m2 (fret + 16) MEM_PAGE_TREE_DEF_SIZE
    let m4 := wr m3 (fret + 18) 0
    let m5 := wr m4 (fret + 19) 1
    some (fret, { s3 with mem := m5,
                          free_pages := { s3.free_pages with allocated := s3.free_pages.allocated + 1 } })

/-- Source `global_request_pages`: a region of `pages` pages for the large-block
path.  The result is the returned pointer, which is 0 when the source leaves
`ret` null. -/
def global_request_pages (fuel : Nat) (pages : Nat) (s : State) : Option (Nat × State) :=
  let s0 := (s.log (Event.global_request_pages pages)).log Event.pool_lock
  let r : Option (Nat × State) :=
    if s0.free_pages.head ≠ 0 then
      let h := s0.free_pages.head
      if to_size_t (s0.mem (h + 16)) ≥ pages then
        let s1 :=
          if to_size_t (s0.mem (h + 16)) > pages then s0.setMem (shave_free_page s0.mem h pages)
          else s0
        let ret := s1.free_pages.head
        some (ret, remove_free_page s1 ret)
      else
        match search_free_list_r fuel s0.mem s0.free_pages.head pages with
        | none => none
        | some found =>
          let r1 : Option (Nat × State) := if found = 0 then map_pages pages s0 else some (found, s0)
          match r1 with
          | none => none
          | some (ret, s1) => some (ret, s1.setMem (wr s1.mem (ret + 16) (to_char pages)))
    else some (0, s0)
  match r with
  | none => none
  | some (ret, s2) =>
    some (ret, { s2 with free_pages := { s2.free_pages with large_allocated := s2.free_pages.large_allocated + 1 },
                         trace := Event.pool_unlock :: s2.trace })

/-- Source `global_return_page`: hand the region at `element` to the pool.
Every call site passes a block header address minus 16, never null. -/
def global_return_page (element pages : Nat) (s : State) : State :=
  let s0 := (s.log (Event.global_return_page element pages)).log Event.pool_lock
  let fp := element
  let m := s0.mem
  let m1 := wr m (fp + 16) (to_char pages)
  let m2 := wr m1 fp (s0.free_pages.head : Int)
  let m3 := if s0.free_pages.head ≠ 0 then wr m2 (s0.free_pages.head + 8) (fp : Int) else m2
  let m4 := wr m3 (fp + 8) 0
  { s0 with mem := m4,
            free_pages := { s0.free_pages with head := ptr m4 fp, sorted := false,
                                               freed := s0.free_pages.freed + 1 },
            trace := Event.pool_unlock :: s0.trace }

/-! ## Bucket functions and helpers -/

/-- The loop of source `bucket_lock`: probe from `i` until `stop`. -/
def bucket_lock_loop (tl : Int → Bool) (stop : Int) : Nat → Int → State → Option State
  | 0, _, _ => none
  | fuel + 1, i, s =>
    if i ≠ stop then
      match bucket_idx i with
      | none => none
      | some _ =>
        if tl i then
          some { s with preferred_bucket := to_char i, trace := Event.bucket_trylock i true :: s.trace }
        else
          bucket_lock_loop tl stop fuel ((i + 1).tmod NUM_BUCKETS) (s.log (Event.bucket_trylock i false))
    else
      match bucket_idx stop with
      | none => none
      | some _ => some { s with preferred_bucket := to_char stop, trace := Event.bucket_lock stop :: s.trace }

/-- Source `bucket_lock`.  `rnd` is the value `rand()` gives on first use,
`tl i` tells whether `pthread_mutex_trylock` on `buckets[i]` succeeds. -/
def bucket_lock (rnd : Nat) (tl : Int → Bool) (s : State) : Option State :=
  let TRYNUM : Int := 3
  let s0 : State :=
    if s.preferred_bucket = -1 then { s with preferred_bucket := to_char ((rnd % NUM_BUCKETS : Nat) : Int) }
    else s
  let stop := (s0.preferred_bucket + TRYNUM).tmod NUM_BUCKETS
  bucket_lock_loop tl stop (NUM_BUCKETS + 1) s0.preferred_bucket s0

/-- Source `bucket_unlock`. -/
def bucket_unlock (s : State) : Option State :=
  match bucket_idx s.preferred_bucket with
  | none => none
  | some _ => some (s.log (Event.bucket_unlock s.preferred_bucket))

/-- Source `split_tree_r`, by recursion on the number of splits left
(`splits <= 0` returns at once). -/
def split_tree_r (tree : Nat) : Nat → Mem → Option Mem
  | 0, m => some m
  | splits + 1, m =>
    let m1 := wr m tree (to_char (m tree - 1))
    let m2 := wr m1 (tree + 3) 1
    match shl1 (m2 tree) with
    | none => none
    | some off =>
      let right := tree + off
      let m3 := wr m2 right (m2 tree)
      let m4 := wr m3 (right + 1) (m3 (tree + 1))
      let m5 := wr m4 (right + 2) 0
      let m6 := wr m5 (right + 3) 0
      split_tree_r tree splits m6

/-- The inner `while` of source `bucket_get`: walk the block headers of one
slab from `working_tree`.  `some (some t)` is the free block found, `some none`
means the walk passed `stop`.  The walk moves up by one byte at least per step,
so `2 ^ 14 + 1` units of fuel never run out inside a slab (`walk_slab_fuel`). -/
def walk_slab (m : Mem) (bsize : Int) (size stop : Nat) : Nat → Nat → Option (Option Nat)
  | 0, _ => none
  | fuel + 1, working_tree =>
    if working_tree ≤ stop then
      if m working_tree < bsize then walk_slab m bsize size stop fuel (working_tree + size)
      else if m (working_tree + 2) ≠ 0 then
        match shl1 (m working_tree) with
        | none => none
        | some off => walk_slab m bsize size stop fuel (working_tree + off)
      else some (some working_tree)
    else some none

/-- The outer `while(true)` of source `bucket_get`, over the slabs from
`working` on. -/
def bucket_get_loop (bsize : Int) (size : Nat) : Nat → Nat → State → Option (Nat × State)
  | 0, _, _ => none
  | fuel + 1, working, s =>
    if working = 0 then none
    else
      let working_tree := working + MEM_PAGE_HEADER_SIZE
      let stop := working_tree + 2 ^ 14 - size
      match walk_slab s.mem bsize size stop (2 ^ 14 + 1) working_tree with
      | none => none
      | some (some wt) =>
        match split_tree_r wt (s.mem wt - bsize).toNat s.mem with
        | none => none
        | some m1 =>
          if m1 wt = bsize then some (wt, s.setMem (wr m1 (wt + 2) 1)) else none
      | some none =>
        if s.mem working = 0 then
          match global_request_page s with
          | none => none
          | some (page, s1) =>
            let m1 := wr s1.mem working (page : Int)
            let m2 := wr m1 (ptr m1 working + 17) (s1.preferred_bucket)
            let m3 := wr m2 (ptr m2 working + 8) (working : Int)
            bucket_get_loop bsize size fuel (ptr m3 working) (s1.setMem m3)
        else bucket_get_loop bsize size fuel (ptr s.mem working) s

/-- Source `bucket_get`; `fuel` bounds the number of slabs visited.  A class
outside `0..14` makes `stop` wrap around, which is undefined. -/
def bucket_get (fuel : Nat) (bsize : Int) (s : State) : Option (Nat × State) :=
  match bucket_idx s.preferred_bucket with
  | none => none
  | some pb =>
    if 0 ≤ bsize ∧ bsize ≤ MEM_PAGE_TREE_DEF_SIZE then
      let s0 := s.log (Event.bucket_get bsize)
      let r : Option (Nat × State) :=
        if s0.buckets pb = 0 then
          match global_request_page s0 with
          | none => none
          | some (page, s1) =>
            some (page, { s1 with mem := wr s1.mem (page + 17) s1.preferred_bucket,
                                  buckets := fun i => if i = pb then page else s1.buckets i })
        else some (s0.buckets pb, s0)
      match r with
      | none => none
      | some (working, s2) => bucket_get_loop bsize (2 ^ bsize.toNat) fuel working s2
    else none

/-- Source `bucket_return`; every recursive call works on a block one class
larger, so 15 levels of fuel cover classes 0 to 14 (`bucket_return_r_fuel`). -/
def bucket_return_r : Nat → Nat → State → Option State
  | 0, _, _ => none
  | fuel + 1, elt, s =>
    let s0 := (s.log (Event.bucket_return elt)).setMem (wr s.mem (elt + 2) 0)
    let m := s0.mem
    if m elt ≥ MEM_PAGE_TREE_DEF_SIZE then
      if elt < MEM_PAGE_HEADER_SIZE then none
      else some (global_return_page (elt - MEM_PAGE_HEADER_SIZE) MEM_PAGE_PAGES s0)
    else
      match shl1 (m elt) with
      | none => none
      | some off =>
        if m (elt + 3) ≠ 0 then
          let right := elt + off
          if m (right + 2) = 0 ∧ m right = m elt then
            bucket_return_r fuel elt (s0.setMem (wr m elt (to_char (m elt + 1))))
          else some s0
        else
          if elt < off then none
          else
            let left := elt - off
            if m left = m elt then
              let m1 := wr m left (to_char (m left + 1))
              if m1 (left + 2) = 0 then bucket_return_r fuel left (s0.setMem m1)
              else some (s0.setMem m1)
            else some s0

def bucket_return (elt : Nat) (s : State) : Option State := bucket_return_r 15 elt s

/-! ## Internal malloc/free -/

/-- The large-block branch of source `internal_malloc` (`tsize` above the
slab root class). -/
def internal_malloc_large (fuel : Nat) (size : Nat) (s : State) : Option (Nat × State) :=
  match page_size size SIZEOF_MEM_TREE with
  | none => none
  | some pg =>
    match global_request_pages fuel (to_size_t pg) s with
    | none => none
    | some (page, s1) =>
      if page = 0 then none
      else
        let m := s1.mem
        let m1 := wr m page (to_char (- m (page + 16)))
        let m2 := wr m1 (page + 1) s1.preferred_bucket
        let m3 := wr m2 (page + 2) 1
        let m4 := wr m3 (page + 3) 1
        some (page + SIZEOF_MEM_TREE, s1.setMem m4)

/-- The arena branch of source `internal_malloc`. -/
def internal_malloc_arena (fuel : Nat) (tsize : Int) (s : State) : Option (Nat × State) :=
  match bucket_get fuel tsize s with
  | none => none
  | some (element, s1) => some (element + SIZEOF_MEM_TREE, s1)

/-- Source `internal_malloc`; the result is the payload pointer. -/
def internal_malloc (fuel : Nat) (size : Nat) (s : State) : Option (Nat × State) :=
  match tree_size size with
  | none => none
  | some tsize =>
    if tsize > MEM_PAGE_TREE_DEF_SIZE then internal_malloc_large fuel size s
    else internal_malloc_arena fuel tsize s

/-- Source `internal_free`. -/
def internal_free (p : Nat) (s : State) : Option State :=
  if p < SIZEOF_MEM_TREE then none
  else
    let element := p - SIZEOF_MEM_TREE
    if s.mem element > MEM_PAGE_TREE_DEF_SIZE then
      if element < MEM_PAGE_HEADER_SIZE then none
      else some (global_return_page (element - MEM_PAGE_HEADER_SIZE) (to_size_t (- s.mem element)) s)
    else
      match bucket_idx (s.mem (element + 1)) with
      | none => none
      | some _ =>
        match bucket_return element (s.log (Event.bucket_lock (s.mem (element + 1)))) with
        | none => none
        | some s1 =>
          match bucket_idx (s1.mem (element + 1)) with
          | none => none
          | some _ => some (s1.log (Event.bucket_unlock (s1.mem (element + 1))))

/-! ## Public malloc/free -/

/-- Source `tree_malloc`. -/
def tree_malloc (rnd : Nat) (tl : Int → Bool) (fuel : Nat) (size : Nat) (s : State) :
    Option (Nat × State) :=
  match bucket_lock rnd tl s with
  | none => none
  | some s1 =>
    match internal_malloc fuel size s1 with
    | none => none
    | some (ret, s2) =>
      match bucket_unlock s2 with
      | none => none
      | some s3 => some (ret, s3)

/-- Source `tree_free`; `assert(p)` rejects the null pointer. -/
def tree_free (p : Nat) (s : State) : Option State :=
  if p = 0 then none else internal_free p s

/-! ## Sequential runs

One thread, every trylock succeeds, the first `rand()` gives arena 0. -/

/-- A call of the public interface: allocate `size` bytes, or free the
pointer that the `k`-th allocation of the run returned (counted from 0). -/
inductive Op where
  | malloc (size : Nat) : Op
  | free (k : Nat) : Op
  deriving DecidableEq, Repr

/-- Run the calls in order; the second component lists the pointers returned
by the allocations so far, oldest first. -/
def run : List Op → State × List Nat → Option (State × List Nat)
  | [], r => some r
  | Op.malloc size :: ops, (s, ps) =>
    match tree_malloc 0 (fun _ => true) 16 size s with
    | none => none
    | some (p, s1) => run ops (s1, ps ++ [p])
  | Op.free k :: ops, (s, ps) =>
    match ps.get? k with
    | none => none
    | some p =>
      match tree_free p s with
      | none => none
      | some s1 => run ops (s1, ps)


/-! ## Well-formed arenas -/

/-- The region of `2 ^ c` bytes at offset `o` of the buddy tree based at `b`
(the address of a slab's root header) is tiled by buddy blocks of arena `pb`:
it is one block of class `c`, or its two halves are tiled in turn.  Blocks have
class 2 at least, so that the 4-byte headers do not overlap. -/
def tiled (m : Mem) (pb : Int) (b : Nat) : Nat → Nat → Bool
  | 0, _ => false
  | c + 1, o =>
    (decide (m (b + o) = ((c + 1 : Nat) : Int)) && decide (2 ≤ c + 1) &&
      decide (m (b + o + 1) = pb))
    || (tiled m pb b c o && tiled m pb b c (o + 2 ^ c))

/-- The cells `next` of the slabs in `slabs` link them in this order from
`head` on, and the last `next` is null. -/
def slab_chain (m : Mem) : Nat → List Nat → Prop
  | head, [] => head = 0
  | head, S :: rest => head = S ∧ S ≠ 0 ∧ 0 ≤ m S ∧ slab_chain m (ptr m S) rest

instance (m : Mem) (head : Nat) (slabs : List Nat) : Decidable (slab_chain m head slabs) := by
  induction slabs generalizing head with
  | nil => unfold slab_chain; infer_instance
  | cons S rest ih => unfold slab_chain; infer_instance

/-- The arena of the thread (`buckets[preferred_bucket]`) is well formed: its
list is made of the slabs `slabs`, and every slab is tiled by buddy blocks of
this arena. -/
def arena_tiled (s : State) (slabs : List Nat) : Prop :=
  0 ≤ s.preferred_bucket ∧ s.preferred_bucket < 64 ∧
  slab_chain s.mem (s.buckets s.preferred_bucket.toNat) slabs ∧
  (∀ S ∈ slabs, tiled s.mem s.preferred_bucket (S + MEM_PAGE_HEADER_SIZE) 14 0 = true)

instance (s : State) (slabs : List Nat) : Decidable (arena_tiled s slabs) := by
  unfold arena_tiled; infer_instance

/-- The pool can supply a slab: it is empty and the Page Source has a mapping
to give (`brk` is not null), or its head region has 5 pages at least (the
assertion of `global_request_page`); and the 5 pages handed out lie apart from
the slabs of the arena, below or above them. -/
def pool_ok (s : State) (slabs : List Nat) : Prop :=
  (s.free_pages.head = 0 ∧ s.brk ≠ 0 ∧
    ∀ S ∈ slabs, S + 20480 ≤ s.brk ∨ s.brk + 20480 ≤ S) ∨
  (s.free_pages.head ≠ 0 ∧ (MEM_PAGE_PAGES : Int) ≤ s.mem (s.free_pages.head + 16) ∧
    ∀ S ∈ slabs, S + 20480 ≤ s.free_pages.head ∨ s.free_pages.head + 20480 ≤ S)

instance (s : State) (slabs : List Nat) : Decidable (pool_ok s slabs) := by
  unfold pool_ok; infer_instance

/-- The region `global_request_page` hands out: the head of the pool, or a
fresh mapping at `brk` when the pool is empty. -/
def next_slab (s : State) : Nat :=
  if s.free_pages.head = 0 then s.brk else s.free_pages.head

/-- The state a sequential run from the initial state (first mapping at
65536) ends in. -/
def state_after (ops : List Op) : State :=
  match run ops (init_state 65536, []) with
  | some r => r.1
  | none => init_state 65536

/-- Offset `q` is the start of one of the blocks that tile the region of class
`c` at offset `o` (see `tiled`). -/
def block_at (m : Mem) (b : Nat) : Nat → Nat → Nat → Bool
  | 0, _, _ => false
  | c + 1, o, q =>
    if m (b + o) = ((c + 1 : Nat) : Int) then decide (q = o)
    else block_at m b c o q || block_at m b c (o + 2 ^ c) q

/-- The slabs are pairwise disjoint 5-page regions. -/
def slabs_disjoint (slabs : List Nat) : Prop :=
  ∀ S ∈ slabs, ∀ W ∈ slabs, S = W ∨ S + MEM_PAGE_PAGES * PAGE_SIZE ≤ W ∨
    W + MEM_PAGE_PAGES * PAGE_SIZE ≤ S

instance (slabs : List Nat) : Decidable (slabs_disjoint slabs) := by
  unfold slabs_disjoint; infer_instance

/-- A heap holding one large block as `internal_malloc` lays it out for a
region of 10 pages at address 65536: `bsize = -10`, `bucket = 0`, `used`,
`left`.  Its payload pointer is 65540. -/
def large_block_state : State :=
  { init_state 106496 with
    mem := wr (wr (wr (wr (fun _ => 0) 65536 (-10)) 65537 0) 65538 1) 65539 1
    preferred_bucket := 0 }


/-- A pool whose list holds one free region of 7 pages at 65536 (`next = prev =
null`, `pages = 7`); nothing else is mapped. -/
def pool_7_state : State :=
  { init_state 94208 with
    mem := wr (fun _ => 0) (65536 + 16) 7
    free_pages := { head := 65536, sorted := false, allocated := 0, large_allocated := 0,
                    freed := 1 } }

/-- The arena after `malloc(16380)` from the initial state, whose only slab,
at 65536, is taken up by one block of class 14 in use; the pool is empty and
the Page Source maps next at 20480, below the slab. -/
def full_slab_state : State := { state_after [Op.malloc 16380] with brk := 20480 }

/-- The initial state of a thread whose preferred arena is 62. -/
def arena_62_state : State := { init_state 65536 with preferred_bucket := 62 }

/-- A call of one of the three entry points of the global page pool. -/
inductive PoolCall where
  | request_page : PoolCall
  | request_pages (fuel pages : Nat) : PoolCall
  | return_page (element pages : Nat) : PoolCall
  deriving DecidableEq, Repr

/-- Run a sequence of pool calls; the returned pointers are dropped. -/
def run_pool : List PoolCall → State → Option State
  | [], s => some s
  | PoolCall.request_page :: cs, s =>
    match global_request_page s with
    | none => none
    | some (_, s1) => run_pool cs s1
  | PoolCall.request_pages fuel pages :: cs, s =>
    match global_request_pages fuel pages s with
    | none => none
    | some (_, s1) => run_pool cs s1
  | PoolCall.return_page element pages :: cs, s =>
    run_pool cs (global_return_page element pages s)

/-- The addresses at which the inner `while` of source `bucket_get` runs its
body, i.e. the block headers it reads, in order (see `walk_slab`). -/
def walk_visits (m : Mem) (bsize : Int) (size stop : Nat) : Nat → Nat → List Nat
  | 0, _ => []
  | fuel + 1, working_tree =>
    if working_tree ≤ stop then
      working_tree ::
        (if m working_tree < bsize then walk_visits m bsize size stop fuel (working_tree + size)
         else if m (working_tree + 2) ≠ 0 then
           match shl1 (m working_tree) with
           | none => []
           | some off => walk_visits m bsize size stop fuel (working_tree + off)
         else [])
    else []

/-- No slab of the list has a free block of class `t` at least among the
blocks of its tiling. -/
def no_free_block (s : State) (slabs : List Nat) (t : Nat) : Prop :=
  ∀ S ∈ slabs, ∀ q, block_at s.mem (S + 16) 14 0 q = true →
    ¬ ((t : Int) ≤ s.mem (S + 16 + q) ∧ s.mem (S + 16 + q + 2) = 0)

/-- The number of calls of `global_request_page` recorded in a trace. -/
def pool_requests (tr : List Event) : Nat := tr.count Event.global_request_page

/-- The mutexes one thread holds: whether it holds the mutex of `free_pages`,
and the index of the arena mutex it holds, if any. -/
structure LockState where
  pool : Bool
  bucket : Option Int
  deriving DecidableEq, Repr

/-- The effect of one event on the held mutexes; `none` when the event breaks
the lock discipline: an arena mutex is tried or taken while the pool mutex or
an arena mutex is held, a mutex is taken twice, or a mutex is released that is
not held. -/
def lock_step (st : LockState) : Event → Option LockState
  | Event.pool_lock => if st.pool then none else some { st with pool := true }
  | Event.pool_unlock => if st.pool then some { st with pool := false } else none
  | Event.bucket_trylock i ok =>
    if st.pool ∨ st.bucket ≠ none then none
    else if ok then some { st with bucket := some i } else some st
  | Event.bucket_lock i =>
    if st.pool ∨ st.bucket ≠ none then none else some { st with bucket := some i }
  | Event.bucket_unlock i => if st.bucket = some i then some { st with bucket := none } else none
  | _ => some st

/-- Replay a trace (newest event first, as in `State.trace`) from the lock
state `st`. -/
def lock_trace (st : LockState) : List Event → Option LockState
  | [] => some st
  | e :: older =>
    match lock_trace st older with
    | none => none
    | some st1 => lock_step st1 e

/-- No mutex is held. -/
def no_locks : LockState := { pool := false, bucket := none }

/-- A trace segment that takes and releases the pool mutex only, whatever
arena mutex is held meanwhile. -/
def pool_neutral (seg : List Event) : Prop :=
  ∀ b, lock_trace { pool := false, bucket := b } seg = some { pool := false, bucket := b }

/-- A call of the public interface with everything it depends on: for
`tree_malloc` the value of `rand()`, the outcome of the trylocks, the fuel of
the slab loop and the size; for `tree_free` the pointer. -/
inductive Call where
  | malloc (rnd : Nat) (tl : Int → Bool) (fuel : Nat) (size : Nat) : Call
  | free (p : Nat) : Call

/-- Run the calls in order; the returned pointers are dropped. -/
def run_calls : List Call → State → Option State
  | [], s => some s
  | Call.malloc rnd tl fuel size :: cs, s =>
    match tree_malloc rnd tl fuel size s with
    | none => none
    | some (_, s1) => run_calls cs s1
  | Call.free p :: cs, s =>
    match tree_free p s with
    | none => none
    | some s1 => run_calls cs s1

/-! ## Basic facts about memory cells -/

@[simp]
theorem wr_same (m : Mem) (a : Nat) (v : Int) : wr m a v a = v := by simp [wr]

theorem wr_other (m : Mem) (a : Nat) (v : Int) (x : Nat) (h : x ≠ a) : wr m a v x = m x := by
  simp [wr, h]

theorem shl1_nat (c : Nat) (h : c ≤ 30) : shl1 (c : Int) = some (2 ^ c) := by
  unfold shl1
  rw [if_pos (by omega)]
  simp

theorem to_char_id (x : Int) (h1 : -128 ≤ x) (h2 : x ≤ 127) : to_char x = x := by
  unfold to_char; omega

/-! ## Size classes (C2) -/

theorem ceil_log2_from_le (fuel x t : Nat) (h : x ≤ 2 ^ (t + fuel)) :
    x ≤ 2 ^ ceil_log2_from fuel x t := by
  induction fuel generalizing t with
  | zero => simpa [ceil_log2_from] using h
  | succ n ih =>
    unfold ceil_log2_from
    split
    · assumption
    · apply ih
      have : t + 1 + n = t + (n + 1) := by omega
      rw [this]; exact h

theorem ceil_log2_from_least (fuel x t : Nat) (h : ∀ u, u < t → 2 ^ u < x) :
    ∀ u, u < ceil_log2_from fuel x t → 2 ^ u < x := by
  induction fuel generalizing t with
  | zero => simpa [ceil_log2_from] using h
  | succ n ih =>
    unfold ceil_log2_from
    split
    · exact h
    · rename_i hx
      apply ih
      intro u hu
      rcases Nat.lt_succ_iff_lt_or_eq.mp hu with h1 | h1
      · exact h u h1
      · subst h1; omega

theorem ceil_log2_from_bound (fuel x t : Nat) : ceil_log2_from fuel x t ≤ t + fuel := by
  induction fuel generalizing t with
  | zero => simp [ceil_log2_from]
  | succ n ih =>
    unfold ceil_log2_from
    split
    · omega
    · have := ih (t + 1); omega

theorem to_double_small (x : Nat) (h : x < 2 ^ 53) : to_double x = x := by
  unfold to_double
  rw [if_pos h]

/-- Up to `2 ^ 49` the double-precision computation gives the exact ceiling
logarithm: the least `t` with `x ≤ 2 ^ t`. -/
theorem ceil_log2_exact (x : Nat) (h : x ≤ 2 ^ 49) :
    ceil_log2 x = ceil_log2_from 65 x 0 := by
  have h1 : x ≤ 2 ^ ceil_log2_from 65 x 0 :=
    ceil_log2_from_le 65 x 0 (by simp only [Nat.zero_add]; omega)
  have h2 := ceil_log2_from_least 65 x 0 (by intro u hu; omega)
  unfold ceil_log2
  simp only [to_double_small x (by omega)]
  generalize ceil_log2_from 65 x 0 = t at h1 h2 ⊢
  rw [if_neg]
  rintro ⟨h33, hc⟩
  have hlt : 2 ^ (t - 1) < x := h2 (t - 1) (by omega)
  have ht : t - 1 ≤ 48 := by
    by_contra hcon
    have : 2 ^ 49 ≤ 2 ^ (t - 1) := Nat.pow_le_pow_right (by norm_num) (by omega)
    omega
  have hp : 2 ^ (t - 1) ≤ 2 ^ 48 := Nat.pow_le_pow_right (by norm_num) ht
  have hd : 1 ≤ x - 2 ^ (t - 1) := by omega
  have : 1 * 2 ^ 52 ≤ (x - 2 ^ (t - 1)) * 2 ^ 52 := Nat.mul_le_mul_right _ hd
  omega

theorem ceil_log2_eq_clog (x : Nat) (h : x ≤ 2 ^ 49) : ceil_log2 x = Nat.clog 2 x := by
  have h1 : x ≤ 2 ^ ceil_log2_from 65 x 0 :=
    ceil_log2_from_le 65 x 0 (by simp only [Nat.zero_add]; omega)
  have h2 := ceil_log2_from_least 65 x 0 (by intro u hu; omega)
  rw [ceil_log2_exact x h]
  apply le_antisymm
  · by_contra hc
    push_neg at hc
    have := h2 _ hc
    have h3 : x ≤ 2 ^ Nat.clog 2 x := Nat.le_pow_clog (by norm_num) x
    omega
  · exact (Nat.le_pow_iff_clog_le (by norm_num)).mp h1

theorem to_char_small (t : Nat) (h : t ≤ 127) : to_char (t : Int) = (t : Int) := by
  unfold to_char; omega

theorem tree_size_eq (size : Nat) (h : size + 4 ≤ 2 ^ 49) :
    tree_size size = some ((ceil_log2 (size + 4) : Nat) : Int) := by
  have hb : ceil_log2 (size + 4) ≤ 65 := by
    rw [ceil_log2_exact _ h]
    have := ceil_log2_from_bound 65 (size + 4) 0
    omega
  have hm : (size + 4) % 2 ^ 64 = size + 4 := Nat.mod_eq_of_lt (by omega)
  unfold tree_size
  simp only [SIZEOF_MEM_TREE, SIZE_MOD, hm]
  rw [if_neg (by omega), to_char_small _ (by omega)]

/-- Where `tree_size` does what the specification says: for `size + 4` up to
`2 ^ 49` (no wrap-around in `size_t`, and the double-precision logarithm is
still exact), `tree_size` returns the least `t` with `2 ^ t ≥ size + 4`; a sum
that is exactly `2 ^ k` gets class `k`, one byte more gets class `k + 1`; and
`internal_malloc` takes the arena branch exactly when `size + 4 ≤ 2 ^ 14`, the
large-block branch otherwise. -/
theorem tree_size_class (size : Nat) (h : size + 4 ≤ 2 ^ 49) :
    ∃ t : Nat, tree_size size = some (t : Int) ∧
      size + 4 ≤ 2 ^ t ∧ (∀ u, u < t → 2 ^ u < size + 4) ∧
      (∀ k, size + 4 = 2 ^ k → t = k) ∧
      (∀ k, size + 4 = 2 ^ k + 1 → t = k + 1) ∧
      (size + 4 ≤ 2 ^ 14 →
        ∀ fuel s, internal_malloc fuel size s = internal_malloc_arena fuel t s) ∧
      (2 ^ 14 < size + 4 →
        ∀ fuel s, internal_malloc fuel size s = internal_malloc_large fuel size s) := by
  have hle : size + 4 ≤ 2 ^ ceil_log2 (size + 4) := by
    rw [ceil_log2_exact _ h]
    exact ceil_log2_from_le 65 (size + 4) 0 (by simp only [Nat.zero_add]; omega)
  have hleast : ∀ u, u < ceil_log2 (size + 4) → 2 ^ u < size + 4 := by
    rw [ceil_log2_exact _ h]
    exact ceil_log2_from_least 65 (size + 4) 0 (by intro u hu; omega)
  have hts := tree_size_eq size h
  refine ⟨ceil_log2 (size + 4), hts, hle, hleast, ?_, ?_, ?_, ?_⟩
  · intro k hk
    rcases Nat.lt_trichotomy (ceil_log2 (size + 4)) k with h1 | h1 | h1
    · have : 2 ^ ceil_log2 (size + 4) < 2 ^ k := Nat.pow_lt_pow_right (by norm_num) h1
      omega
    · exact h1
    · have := hleast k h1; omega
  · intro k hk
    rcases Nat.lt_trichotomy (ceil_log2 (size + 4)) (k + 1) with h1 | h1 | h1
    · have : 2 ^ ceil_log2 (size + 4) ≤ 2 ^ k :=
        Nat.pow_le_pow_right (by norm_num) (by omega)
      omega
    · exact h1
    · have := hleast (k + 1) h1
      have h2 : 2 ^ (k + 1) = 2 * 2 ^ k := by ring
      have h3 : 0 < 2 ^ k := by positivity
      omega
  · intro hs fuel s
    have ht : ceil_log2 (size + 4) ≤ 14 := by
      by_contra hc
      have := hleast 14 (by omega)
      omega
    unfold internal_malloc
    rw [hts]
    simp only [MEM_PAGE_TREE_DEF_SIZE, PAGE_BSIZE]
    rw [if_neg (by omega)]
  · intro hs fuel s
    have ht : 14 < ceil_log2 (size + 4) := by
      by_contra hc
      have : 2 ^ ceil_log2 (size + 4) ≤ 2 ^ 14 := Nat.pow_le_pow_right (by norm_num) (by omega)
      omega
    unfold internal_malloc
    rw [hts]
    simp only [MEM_PAGE_TREE_DEF_SIZE, PAGE_BSIZE]
    rw [if_pos (by omega)]

/-- The boundary size 16380 (`16380 + 4 = 2 ^ 14`) as an instance of
`tree_size_class`. -/
theorem tree_size_class_witness :
    16380 + 4 ≤ 2 ^ 49 ∧
    ∃ t : Nat, tree_size 16380 = some (t : Int) ∧
      16380 + 4 ≤ 2 ^ t ∧ (∀ u, u < t → 2 ^ u < 16380 + 4) ∧
      (∀ k, 16380 + 4 = 2 ^ k → t = k) ∧
      (∀ k, 16380 + 4 = 2 ^ k + 1 → t = k + 1) ∧
      (16380 + 4 ≤ 2 ^ 14 →
        ∀ fuel s, internal_malloc fuel 16380 s = internal_malloc_arena fuel t s) ∧
      (2 ^ 14 < 16380 + 4 →
        ∀ fuel s, internal_malloc fuel 16380 s = internal_malloc_large fuel 16380 s) :=
  ⟨by decide, tree_size_class 16380 (by decide)⟩

/-- Claim C2 (`tree_size(size)` is the least `t` with `2 ^ t ≥ size + 4`, and
the arena path is taken exactly when `size + 4 ≤ 2 ^ 14`), evaluated at two
failing inputs.  At `size = 2 ^ 64 - 3` the sum `size + 4` wraps around to 1 in
`size_t` and the class is 0, a block of one byte for a request of
`2 ^ 64 - 3` bytes; the public
`tree_malloc(2 ^ 64 - 3)` goes through the arena and returns the pointer 65556
to such a block (the header cell at 65552 holds class 0).  At
`size = 2 ^ 49 - 3` the sum is `2 ^ 49 + 1`, whose logarithm rounds to 49 in
double precision, and the class is 49 although `2 ^ 49 < size + 4`.  In both
the class is not the least `t` with `2 ^ t ≥ size + 4`. -/
theorem tree_size_wraps :
    tree_size (2 ^ 64 - 3) = some 0 ∧ ¬ (2 ^ 64 - 3 + 4 ≤ 2 ^ 0) ∧
      (run [Op.malloc (2 ^ 64 - 3)] (init_state 65536, [])).map
          (fun r => (r.2, r.1.mem 65552)) = some ([65556], 0) ∧
      tree_size (2 ^ 49 - 3) = some 49 ∧ ¬ (2 ^ 49 - 3 + 4 ≤ 2 ^ 49) := by
  refine ⟨by decide!, by decide, by decide!, by decide!, by decide⟩

/-! ## The pool on concrete states (C3 to C6) -/

/-- Every header with `bsize ≤ 14`, negative ones included, is sent down the
arena branch of `internal_free`. -/
theorem internal_free_arena_branch (p : Nat) (s : State) (hp : 4 ≤ p)
    (h : s.mem (p - 4) ≤ 14) :
    internal_free p s =
      match bucket_idx (s.mem (p - 4 + 1)) with
      | none => none
      | some _ =>
        match bucket_return (p - 4) (s.log (Event.bucket_lock (s.mem (p - 4 + 1)))) with
        | none => none
        | some s1 =>
          match bucket_idx (s1.mem (p - 4 + 1)) with
          | none => none
          | some _ => some (s1.log (Event.bucket_unlock (s1.mem (p - 4 + 1)))) := by
  unfold internal_free
  simp only [SIZEOF_MEM_TREE, MEM_PAGE_TREE_DEF_SIZE, PAGE_BSIZE]
  rw [if_neg (by omega), if_neg (by omega)]

/-- Claim C3, evaluated at the failing input: freeing the large block of
`large_block_state` (header `bsize = -10`) does not hand the region to the pool.
The test `bsize > 14` is false, so `internal_free` takes the arena branch, where
`bucket_return` shifts by the negative class and the call has no defined
result. -/
theorem internal_free_large_block :
    large_block_state.mem 65536 = -10 ∧
    (internal_free 65540 large_block_state).isSome = false ∧
    (bucket_return 65536 (large_block_state.log (Event.bucket_lock 0))).isSome = false := by
  decide!

/-- On the empty pool `global_request_pages` returns the null pointer, whatever
the page count, and does not call the Page Source. -/
theorem global_request_pages_null (fuel pages : Nat) (s : State) (h : s.free_pages.head = 0) :
    ∃ s1, global_request_pages fuel pages s = some (0, s1) ∧ s1.brk = s.brk ∧
      s1.mem = s.mem ∧ s1.free_pages.head = 0 := by
  unfold global_request_pages
  simp only [State.log, h, ne_eq, not_true_eq_false, if_false]
  exact ⟨_, rfl, rfl, rfl, rfl⟩

/-- After `global_return_page` the head of the pool is the old head, not the
returned region (apart from the degenerate overlap `element = head + 8`). -/
theorem global_return_page_head (element pages : Nat) (s : State)
    (h : s.free_pages.head = 0 ∨ element ≠ s.free_pages.head + 8) :
    (global_return_page element pages s).free_pages.head = s.free_pages.head := by
  unfold global_return_page
  simp only [State.log, ptr]
  rw [wr_other _ _ _ _ (by omega)]
  by_cases h0 : s.free_pages.head = 0
  · simp [h0, wr]
  · rcases h with h | h
    · exact absurd h h0
    · simp only [ne_eq, h0, not_false_eq_true, if_true]
      rw [wr_other _ _ _ _ h, wr_same]
      simp

/-- Claim C4, evaluated at the failing input: on the empty pool
`global_request_pages(10)` returns the null pointer and never calls
`map_pages` (the trace has the lock events only and `brk` has not moved); the
first `tree_malloc(40000)` of a program, which needs 10 pages, therefore has no
result (it dereferences the null pointer). -/
theorem global_request_pages_empty_pool :
    (global_request_pages 1 10 (init_state 65536)).map (fun r => (r.1, r.2.trace, r.2.brk)) =
      some (0, [Event.pool_unlock, Event.pool_lock, Event.global_request_pages 10], 65536) ∧
    page_size 40000 SIZEOF_MEM_TREE = some 10 ∧
    (tree_malloc 0 (fun _ => true) 16 40000 (init_state 65536)).isSome = false := by
  decide!

/-- Claim C5, evaluated at the failing input: returning the 5-page region at
65536 to the empty pool leaves `free_pages.head` null.  The region records 5
pages, has `next = prev = null`, `sorted` is false and `freed` went up by one,
but the region is not the head of the list. -/
theorem global_return_page_empty_pool :
    (global_return_page 65536 5 (init_state 86016)).free_pages.head = 0 ∧
    (global_return_page 65536 5 (init_state 86016)).mem (65536 + 16) = 5 ∧
    (global_return_page 65536 5 (init_state 86016)).mem 65536 = 0 ∧
    (global_return_page 65536 5 (init_state 86016)).mem (65536 + 8) = 0 ∧
    (global_return_page 65536 5 (init_state 86016)).free_pages.sorted = false ∧
    (global_return_page 65536 5 (init_state 86016)).free_pages.freed = 1 := by
  decide!

/-- Claim C6, evaluated at the failing input: after the 10-page region at 65536
is returned to the empty pool, `global_request_pages(10)` yields the null
pointer, not the region. -/
theorem return_then_request_pages :
    (global_request_pages 1 10 (global_return_page 65536 10 (init_state 106496))).map
        (fun r => (r.1, r.2.free_pages.head)) = some (0, 0) := by
  decide!

/-! ## Sequential runs from the initial state (C1, C7, C9) -/

/-- Claim C1, evaluated at the failing input: of the seven allocations of this
run only the ones numbered 1, 2 and 3 are freed, yet allocation 6
(`malloc 100`) returns 65812, the pointer of allocation 4 (`malloc 200`), which
is still live. -/
theorem live_allocations_collide :
    (run [Op.malloc 100, Op.malloc 60, Op.malloc 100, Op.malloc 100,
          Op.free 2, Op.free 1, Op.free 3,
          Op.malloc 200, Op.malloc 100, Op.malloc 100] (init_state 65536, [])).map
        (fun r => r.2) =
      some [65556, 65684, 65812, 65940, 65812, 65684, 65812] := by
  decide!

/-- Claim C7, evaluated at the failing input: after both allocations are freed
the slab at 65536 is still split (root block at 65552 of class 7, its
neighbour at 65680 of class 7, both unused), `global_return_page` was never
called and the counters are `allocated = 1`, `freed = 0`. -/
theorem emptied_slab_not_returned :
    (run [Op.malloc 100, Op.malloc 60, Op.free 0, Op.free 1] (init_state 65536, [])).map
        (fun r => [r.1.free_pages.allocated, r.1.free_pages.freed,
                   r.1.mem 65552, r.1.mem 65554, r.1.mem 65680, r.1.mem 65682]) =
      some [1, 0, 7, 0, 7, 0] ∧
    (run [Op.malloc 100, Op.malloc 60, Op.free 0, Op.free 1] (init_state 65536, [])).map
        (fun r => r.1.trace.any (fun e => match e with
            | Event.global_return_page _ _ => true
            | _ => false)) =
      some false := by
  decide!

/-- Claim C9, evaluated at the failing input: with `size = 100` the second
allocation returns 65684, 128 bytes above the first pointer 65556. -/
theorem alloc_free_alloc_moves :
    (run [Op.malloc 100, Op.free 0, Op.malloc 100] (init_state 65536, [])).map (fun r => r.2) =
      some [65556, 65684] := by
  decide!

/-! ## The slab walk on a tiled arena -/

/-- Splitting a block of class `t + n` exactly `n` times leaves it with class
`t` and keeps its `bucket` and `used` cells. -/
theorem split_tree_r_head (t : Nat) (ht : 2 ≤ t) (wt : Nat) :
    ∀ (n : Nat) (m : Mem), m wt = ((t + n : Nat) : Int) → t + n ≤ 30 →
      ∃ m', split_tree_r wt n m = some m' ∧ m' wt = (t : Int) ∧
        m' (wt + 1) = m (wt + 1) ∧ m' (wt + 2) = m (wt + 2) := by
  intro n
  induction n with
  | zero =>
    intro m hm _
    exact ⟨m, rfl, by simpa using hm, rfl, rfl⟩
  | succ n ih =>
    intro m hm hb
    have h4 : 4 ≤ 2 ^ (t + n) := by
      calc 4 = 2 ^ 2 := by norm_num
        _ ≤ 2 ^ (t + n) := Nat.pow_le_pow_right (by norm_num) (by omega)
    have hc : to_char (m wt - 1) = ((t + n : Nat) : Int) := by
      rw [hm, to_char_id _ (by omega) (by omega)]; push_cast; ring
    unfold split_tree_r
    simp only []
    have e1 : wr (wr m wt (to_char (m wt - 1))) (wt + 3) 1 wt = ((t + n : Nat) : Int) := by
      rw [wr_other _ _ _ _ (by omega), wr_same, hc]
    rw [e1, shl1_nat _ (by omega)]
    simp only []
    obtain ⟨m', h1, h2, h3, h4'⟩ := ih
      (wr (wr (wr (wr (wr (wr m wt (to_char (m wt - 1))) (wt + 3) 1) (wt + 2 ^ (t + n))
        ((t + n : Nat) : Int)) (wt + 2 ^ (t + n) + 1)
        (wr (wr (wr m wt (to_char (m wt - 1))) (wt + 3) 1) (wt + 2 ^ (t + n))
          ((t + n : Nat) : Int) (wt + 1))) (wt + 2 ^ (t + n) + 2) 0) (wt + 2 ^ (t + n) + 3) 0)
      (by
        rw [wr_other _ _ _ _ (by omega), wr_other _ _ _ _ (by omega),
          wr_other _ _ _ _ (by omega), wr_other _ _ _ _ (by omega),
          wr_other _ _ _ _ (by omega), wr_same, hc])
      (by omega)
    refine ⟨m', h1, h2, ?_, ?_⟩
    · rw [h3]
      rw [wr_other _ _ _ _ (by omega), wr_other _ _ _ _ (by omega),
        wr_other _ _ _ _ (by omega), wr_other _ _ _ _ (by omega),
        wr_other _ _ _ _ (by omega), wr_other _ _ _ _ (by omega)]
    · rw [h4']
      rw [wr_other _ _ _ _ (by omega), wr_other _ _ _ _ (by omega),
        wr_other _ _ _ _ (by omega), wr_other _ _ _ _ (by omega),
        wr_other _ _ _ _ (by omega), wr_other _ _ _ _ (by omega)]
theorem tiled_head (m : Mem) (pb : Int) (b : Nat) :
    ∀ (c o : Nat), tiled m pb b c o = true →
      ∃ ce : Nat, m (b + o) = (ce : Int) ∧ 2 ≤ ce ∧ ce ≤ c ∧ (ce = c → m (b + o + 1) = pb) := by
  intro c
  induction c with
  | zero => intro o h; simp [tiled] at h
  | succ c ih =>
    intro o h
    unfold tiled at h
    simp only [Bool.or_eq_true, Bool.and_eq_true, decide_eq_true_eq] at h
    rcases h with ⟨⟨h1, h2⟩, h3⟩ | ⟨hl, _⟩
    · exact ⟨c + 1, h1, h2, le_refl _, fun _ => h3⟩
    · obtain ⟨ce, h1, h2, h3, _⟩ := ih o hl
      exact ⟨ce, h1, h2, by omega, fun h => by omega⟩

theorem walk_slab_succ (m : Mem) (bsize : Int) (size stop fuel wt : Nat) :
    walk_slab m bsize size stop (fuel + 1) wt =
      if wt ≤ stop then
        if m wt < bsize then walk_slab m bsize size stop fuel (wt + size)
        else if m (wt + 2) ≠ 0 then
          match shl1 (m wt) with
          | none => none
          | some off => walk_slab m bsize size stop fuel (wt + off)
        else some (some wt)
      else some none := rfl

/-- The walk of `bucket_get` over a tiled region that starts on a block
header: it either stops at a free block of class `t` at least inside the
region, or leaves the region at its end after at most `2 ^ (c - t)` steps. -/
theorem walk_region (m : Mem) (pb : Int) (b t : Nat) :
    ∀ (c o : Nat), tiled m pb b c o = true → t ≤ c → o + 2 ^ c ≤ 2 ^ 14 →
      (∃ e ce : Nat, m e = (ce : Int) ∧ t ≤ ce ∧ ce ≤ c ∧ m (e + 2) = 0 ∧ m (e + 1) = pb ∧
          b + o ≤ e ∧ e + 2 ^ ce ≤ b + o + 2 ^ c ∧
          ∀ f, 2 ^ (c - t) ≤ f →
            walk_slab m t (2 ^ t) (b + 2 ^ 14 - 2 ^ t) f (b + o) = some (some e))
      ∨ (∃ k, 1 ≤ k ∧ k ≤ 2 ^ (c - t) ∧
          ∀ f, walk_slab m t (2 ^ t) (b + 2 ^ 14 - 2 ^ t) (f + k) (b + o) =
            walk_slab m t (2 ^ t) (b + 2 ^ 14 - 2 ^ t) f (b + o + 2 ^ c)) := by
  intro c
  induction c with
  | zero => intro o h; simp [tiled] at h
  | succ c ih =>
    intro o h htc hb
    have hpos : 1 ≤ 2 ^ (c + 1 - t) := Nat.one_le_two_pow
    have hsz : 2 ^ t ≤ 2 ^ (c + 1) := Nat.pow_le_pow_right (by norm_num) htc
    have hstop : b + o ≤ b + 2 ^ 14 - 2 ^ t := by omega
    unfold tiled at h
    simp only [Bool.or_eq_true, Bool.and_eq_true, decide_eq_true_eq] at h
    rcases h with ⟨⟨h1, h2⟩, h3⟩ | ⟨hl, hr⟩
    · -- a single block of class c + 1
      by_cases hu : m (b + o + 2) = 0
      · left
        refine ⟨b + o, c + 1, h1, htc, le_refl _, hu, h3, le_refl _, le_refl _, ?_⟩
        intro f hf
        obtain ⟨f', rfl⟩ : ∃ f', f = f' + 1 := ⟨f - 1, by omega⟩
        rw [walk_slab_succ, if_pos hstop, if_neg (by rw [h1]; omega), if_neg (by simp [hu])]
      · right
        refine ⟨1, le_refl _, hpos, ?_⟩
        intro f
        rw [walk_slab_succ, if_pos hstop, if_neg (by rw [h1]; omega), if_pos hu, h1,
          shl1_nat _ (by
            have : c + 1 ≤ 14 := by
              by_contra hc
              have : 2 ^ 15 ≤ 2 ^ (c + 1) := Nat.pow_le_pow_right (by norm_num) (by omega)
              omega
            omega)]
    · -- two tiled halves
      have h2c : 2 ^ (c + 1) = 2 ^ c + 2 ^ c := by ring
      have hpc : 0 < 2 ^ c := by positivity
      by_cases htc' : t ≤ c
      · have hN : 2 ^ (c + 1 - t) = 2 ^ (c - t) + 2 ^ (c - t) := by
          have : c + 1 - t = (c - t) + 1 := by omega
          rw [this]; ring
        rcases ih o hl htc' (by omega) with ⟨e, ce, a1, a2, a3, a4, a5, a6, a7, a8⟩ | ⟨k1, k1a, k1b, k1c⟩
        · left
          exact ⟨e, ce, a1, a2, by omega, a4, a5, a6, by omega, fun f hf => a8 f (by omega)⟩
        · rcases ih (o + 2 ^ c) hr htc' (by omega) with
            ⟨e, ce, a1, a2, a3, a4, a5, a6, a7, a8⟩ | ⟨k2, k2a, k2b, k2c⟩
          · left
            refine ⟨e, ce, a1, a2, by omega, a4, a5, by omega, by omega, ?_⟩
            intro f hf
            obtain ⟨f', rfl⟩ : ∃ f', f = f' + k1 := ⟨f - k1, by omega⟩
            have h8 := a8 f' (by omega)
            rw [← Nat.add_assoc] at h8
            rw [k1c, h8]
          · right
            refine ⟨k2 + k1, by omega, by omega, ?_⟩
            intro f
            have h9 := k2c f
            rw [← Nat.add_assoc] at h9
            rw [← Nat.add_assoc, k1c, h9]
            congr 1
            omega
      · have ht : t = c + 1 := by omega
        obtain ⟨ce, c1, c2, c3, _⟩ := tiled_head m pb b c o hl
        right
        refine ⟨1, le_refl _, hpos, ?_⟩
        intro f
        rw [walk_slab_succ, if_pos hstop, if_pos (by rw [c1]; omega), ht, Nat.add_assoc]
theorem walk_whole_slab (m : Mem) (pb : Int) (b t : Nat) (ht : t ≤ 14)
    (h : tiled m pb b 14 0 = true) :
    (∃ e ce : Nat, m e = (ce : Int) ∧ t ≤ ce ∧ ce ≤ 14 ∧ m (e + 2) = 0 ∧ m (e + 1) = pb ∧
        b ≤ e ∧ e + 2 ^ ce ≤ b + 2 ^ 14 ∧
        walk_slab m t (2 ^ t) (b + 2 ^ 14 - 2 ^ t) (2 ^ 14 + 1) b = some (some e))
    ∨ walk_slab m t (2 ^ t) (b + 2 ^ 14 - 2 ^ t) (2 ^ 14 + 1) b = some none := by
  have hN : 2 ^ (14 - t) ≤ 2 ^ 14 := Nat.pow_le_pow_right (by norm_num) (by omega)
  have hpt : 0 < 2 ^ t := by positivity
  have htt : 2 ^ t ≤ 2 ^ 14 := Nat.pow_le_pow_right (by norm_num) ht
  rcases walk_region m pb b t 14 0 h ht (by omega) with
    ⟨e, ce, a1, a2, a3, a4, a5, a6, a7, a8⟩ | ⟨k, k1, k2, k3⟩
  · left
    exact ⟨e, ce, a1, a2, a3, a4, a5, by omega, by omega, by simpa using a8 (2 ^ 14 + 1) (by omega)⟩
  · right
    obtain ⟨f, hf⟩ : ∃ f, 2 ^ 14 + 1 = (f + 1) + k := ⟨2 ^ 14 - k, by omega⟩
    have h3 := k3 (f + 1)
    simp only [Nat.add_zero] at h3
    rw [hf, h3, walk_slab_succ, if_neg (by omega)]

/-- With `pool_ok`, `global_request_page` returns a slab (the head region of
the pool, or a fresh mapping at `brk` when the pool is empty) whose root header
is initialised and whose header cells are not the `next` cell of any listed
slab. -/
theorem global_request_page_ok (s : State) (slabs : List Nat) (hp : pool_ok s slabs) :
    ∃ s1, global_request_page s =
        some (next_slab s, s1) ∧
      next_slab s ≠ 0 ∧
      s1.mem (next_slab s + 16) = 14 ∧
      s1.mem (next_slab s + 18) = 0 ∧
      (∀ S ∈ slabs,
        S + 20480 ≤ next_slab s ∨
        next_slab s + 20480 ≤ S) ∧
      s1.preferred_bucket = s.preferred_bucket ∧ s1.buckets = s.buckets ∧
      s1.free_pages.allocated = s.free_pages.allocated + 1 := by
  unfold next_slab
  rcases hp with ⟨h0, hb, hall⟩ | ⟨h0, h5, hall⟩
  · rw [if_pos h0]
    unfold global_request_page
    simp only [State.log, h0, ne_eq, not_true_eq_false, if_false, map_pages, hb]
    refine ⟨_, rfl, not_false, ?_, ?_, hall, rfl, rfl, rfl⟩
    · simp [wr, MEM_PAGE_TREE_DEF_SIZE, PAGE_BSIZE]
    · simp [wr]
  · rw [if_neg h0]
    unfold global_request_page
    simp only [State.log, h0, ne_eq, not_false_eq_true, if_true, ge_iff_le, h5]
    by_cases hgt : s.mem (s.free_pages.head + 16) > (MEM_PAGE_PAGES : Int)
    · simp only [hgt, if_true, State.setMem]
      refine ⟨_, rfl, trivial, ?_, ?_, hall, ?_, ?_, ?_⟩
      · simp [wr, MEM_PAGE_TREE_DEF_SIZE, PAGE_BSIZE]
      · simp [wr]
      · simp only [remove_free_page, State.setMem]; split <;> split <;> rfl
      · simp only [remove_free_page, State.setMem]; split <;> split <;> rfl
      · simp only [remove_free_page, State.setMem]; split <;> split <;> rfl
    · simp only [hgt, if_false]
      refine ⟨_, rfl, trivial, ?_, ?_, hall, ?_, ?_, ?_⟩
      · simp [wr, MEM_PAGE_TREE_DEF_SIZE, PAGE_BSIZE]
      · simp [wr]
      · simp only [remove_free_page, State.setMem]; split <;> split <;> rfl
      · simp only [remove_free_page, State.setMem]; split <;> split <;> rfl
      · simp only [remove_free_page, State.setMem]; split <;> split <;> rfl

theorem bucket_get_loop_succ (bsize : Int) (size fuel working : Nat) (s : State) :
    bucket_get_loop bsize size (fuel + 1) working s =
      if working = 0 then none
      else
        match walk_slab s.mem bsize size (working + MEM_PAGE_HEADER_SIZE + 2 ^ 14 - size)
            (2 ^ 14 + 1) (working + MEM_PAGE_HEADER_SIZE) with
        | none => none
        | some (some wt) =>
          match split_tree_r wt (s.mem wt - bsize).toNat s.mem with
          | none => none
          | some m1 =>
            if m1 wt = bsize then some (wt, s.setMem (wr m1 (wt + 2) 1)) else none
        | some none =>
          if s.mem working = 0 then
            match global_request_page s with
            | none => none
            | some (page, s1) =>
              let m1 := wr s1.mem working (page : Int)
              let m2 := wr m1 (ptr m1 working + 17) (s1.preferred_bucket)
              let m3 := wr m2 (ptr m2 working + 8) (working : Int)
              bucket_get_loop bsize size fuel (ptr m3 working) (s1.setMem m3)
          else bucket_get_loop bsize size fuel (ptr s.mem working) s := rfl

/-- Once the walk has stopped at a free block `e` of class `ce ≥ t`, the block
is split down to class `t`, the assertion holds and `e` is returned used. -/
theorem bucket_get_loop_found (t : Nat) (ht : 2 ≤ t) (s : State) (working e ce fuel : Nat)
    (hw : working ≠ 0)
    (hwalk : walk_slab s.mem t (2 ^ t) (working + 16 + 2 ^ 14 - 2 ^ t) (2 ^ 14 + 1)
      (working + 16) = some (some e))
    (hce : s.mem e = (ce : Int)) (h1 : t ≤ ce) (h2 : ce ≤ 14) :
    ∃ s', bucket_get_loop t (2 ^ t) (fuel + 1) working s = some (e, s') ∧
      s'.mem e = (t : Int) ∧ s'.mem (e + 1) = s.mem (e + 1) ∧ s'.mem (e + 2) = 1 ∧
      s'.free_pages = s.free_pages ∧ s'.brk = s.brk ∧
      s'.preferred_bucket = s.preferred_bucket := by
  obtain ⟨m', e1, e2, e3, _⟩ := split_tree_r_head t ht e (ce - t) s.mem
    (by rw [hce]; congr 1; omega) (by omega)
  have hn : (s.mem e - (t : Int)).toNat = ce - t := by rw [hce]; omega
  rw [bucket_get_loop_succ, if_neg hw]
  simp only [MEM_PAGE_HEADER_SIZE, hwalk, hn, e1, e2, if_true]
  refine ⟨_, rfl, ?_, ?_, ?_, rfl, rfl, rfl⟩
  · simp only [State.setMem]; rw [wr_other _ _ _ _ (by omega), e2]
  · simp only [State.setMem]; rw [wr_other _ _ _ _ (by omega), e3]
  · simp only [State.setMem, wr_same]
/-- The root of a slab whose root header is free with class 14 is found at
once, split down to class `t` and returned. -/
theorem bucket_get_loop_fresh (t : Nat) (ht : 2 ≤ t) (ht' : t ≤ 14) (s : State) (P fuel : Nat)
    (hP : P ≠ 0) (h14 : s.mem (P + 16) = 14) (hu : s.mem (P + 18) = 0) :
    ∃ s', bucket_get_loop t (2 ^ t) (fuel + 1) P s = some (P + 16, s') ∧
      s'.mem (P + 16) = (t : Int) ∧ s'.mem (P + 16 + 1) = s.mem (P + 16 + 1) ∧
      s'.mem (P + 16 + 2) = 1 ∧
      s'.free_pages = s.free_pages ∧ s'.brk = s.brk ∧
      s'.preferred_bucket = s.preferred_bucket := by
  have htt : 2 ^ t ≤ 2 ^ 14 := Nat.pow_le_pow_right (by norm_num) ht'
  apply bucket_get_loop_found t ht s P (P + 16) 14 fuel hP _ (by simpa using h14) ht' (le_refl _)
  rw [walk_slab_succ, if_pos (by omega), if_neg (by rw [h14]; omega),
    if_neg (by simp [hu])]


/-! ## Blocks of a tiled region -/

/-- The first block of a tiled region starts at the region's offset. -/
theorem tiled_block_head (m : Mem) (pb : Int) (b : Nat) :
    ∀ (c o : Nat), tiled m pb b c o = true → block_at m b c o o = true := by
  intro c
  induction c with
  | zero => intro o h; simp [tiled] at h
  | succ c ih =>
    intro o h
    unfold tiled at h
    simp only [Bool.or_eq_true, Bool.and_eq_true, decide_eq_true_eq] at h
    unfold block_at
    rcases h with ⟨⟨h1, _⟩, _⟩ | ⟨hl, _⟩
    · rw [if_pos h1]; simp
    · obtain ⟨ce, c1, _, c3, _⟩ := tiled_head m pb b c o hl
      rw [if_neg (by rw [c1]; omega)]
      simp only [Bool.or_eq_true]
      exact Or.inl (ih o hl)

/-- The blocks of a split region are the blocks of its two halves. -/
theorem block_at_split (m : Mem) (pb : Int) (b c o q : Nat) (hl : tiled m pb b c o = true) :
    block_at m b (c + 1) o q = (block_at m b c o q || block_at m b c (o + 2 ^ c) q) := by
  obtain ⟨ce, c1, _, c3, _⟩ := tiled_head m pb b c o hl
  conv => lhs; unfold block_at
  rw [if_neg (by rw [c1]; omega)]


/-! ## Reuse of a freed block (C8) -/

theorem tiled_congr (m m' : Mem) (pb : Int) (b : Nat) :
    ∀ (c o : Nat), (∀ x, b + o ≤ x → x < b + o + 2 ^ c → m' x = m x) →
      tiled m' pb b c o = tiled m pb b c o := by
  intro c
  induction c with
  | zero => intro o _; rfl
  | succ c ih =>
    intro o h
    have hpc : 0 < 2 ^ c := by positivity
    have h2c : 2 ^ (c + 1) = 2 ^ c + 2 ^ c := by ring
    unfold tiled
    rw [h (b + o) (by omega) (by omega), h (b + o + 1) (by omega) (by omega),
      ih o (fun x h1 h2 => h x h1 (by omega)),
      ih (o + 2 ^ c) (fun x h1 h2 => h x (by omega) (by omega))]

/-- A block start of a tiled region lies inside the region, and its header
carries a class between 2 and the class of the region. -/
theorem block_at_range (m : Mem) (pb : Int) (b : Nat) :
    ∀ (c o q : Nat), tiled m pb b c o = true → block_at m b c o q = true →
      o ≤ q ∧ ∃ cq : Nat, m (b + q) = (cq : Int) ∧ 2 ≤ cq ∧ cq ≤ c ∧ q + 2 ^ cq ≤ o + 2 ^ c := by
  intro c
  induction c with
  | zero => intro o q h; simp [tiled] at h
  | succ c ih =>
    intro o q h hq
    have h2c : 2 ^ (c + 1) = 2 ^ c + 2 ^ c := by ring
    have hpc : 0 < 2 ^ c := by positivity
    unfold tiled at h
    simp only [Bool.or_eq_true, Bool.and_eq_true, decide_eq_true_eq] at h
    unfold block_at at hq
    rcases h with ⟨⟨h1, h2⟩, _⟩ | ⟨hl, hr⟩
    · rw [if_pos h1] at hq
      simp only [decide_eq_true_eq] at hq
      subst hq
      exact ⟨le_refl _, c + 1, h1, h2, le_refl _, le_refl _⟩
    · obtain ⟨ce, c1, _, c3, _⟩ := tiled_head m pb b c o hl
      rw [if_neg (by rw [c1]; omega)] at hq
      simp only [Bool.or_eq_true] at hq
      rcases hq with hq | hq
      · obtain ⟨r1, cq, r2, r3, r4, r5⟩ := ih o q hl hq
        have hpq : 0 < 2 ^ cq := by positivity
        exact ⟨r1, cq, r2, r3, by omega, by omega⟩
      · obtain ⟨r1, cq, r2, r3, r4, r5⟩ := ih (o + 2 ^ c) q hr hq
        have hpq : 0 < 2 ^ cq := by positivity
        exact ⟨by omega, cq, r2, r3, by omega, by omega⟩
/-- The walk over a tiled region in which the header of block `q` has been
changed to "free, class `tq ≥ t`" (nothing below that header differs from the
tiled memory `m`): it stops at a free block of class `t` at least inside the
region, at `q` or before it. -/
theorem walk_region_hit (m m' : Mem) (pb : Int) (b t q tq : Nat)
    (hagree : ∀ x, x < b + q → m' x = m x)
    (hq1 : m' (b + q) = (tq : Int)) (hq2 : t ≤ tq) (hq3 : tq ≤ 14) (hq4 : m' (b + q + 2) = 0)
    (hold : (t : Int) ≤ m (b + q)) :
    ∀ (c o : Nat), tiled m pb b c o = true → block_at m b c o q = true → t ≤ c →
      o + 2 ^ c ≤ 2 ^ 14 →
      ∃ e ce : Nat, m' e = (ce : Int) ∧ t ≤ ce ∧ ce ≤ 14 ∧ b + o ≤ e ∧
        e + 2 ^ t ≤ b + o + 2 ^ c ∧
        ∀ f, 2 ^ (c - t) ≤ f →
          walk_slab m' t (2 ^ t) (b + 2 ^ 14 - 2 ^ t) f (b + o) = some (some e) := by
  intro c
  induction c with
  | zero => intro o h; simp [tiled] at h
  | succ c ih =>
    intro o h hq htc hb
    have hpos : 1 ≤ 2 ^ (c + 1 - t) := Nat.one_le_two_pow
    have hsz : 2 ^ t ≤ 2 ^ (c + 1) := Nat.pow_le_pow_right (by norm_num) htc
    have hstop : b + o ≤ b + 2 ^ 14 - 2 ^ t := by omega
    have h2c : 2 ^ (c + 1) = 2 ^ c + 2 ^ c := by ring
    have hpc : 0 < 2 ^ c := by positivity
    have hc14 : c + 1 ≤ 14 := by
      by_contra hc
      have : 2 ^ 15 ≤ 2 ^ (c + 1) := Nat.pow_le_pow_right (by norm_num) (by omega)
      omega
    unfold tiled at h
    simp only [Bool.or_eq_true, Bool.and_eq_true, decide_eq_true_eq] at h
    have hq' := hq
    unfold block_at at hq'
    rcases h with ⟨⟨h1, h2⟩, _⟩ | ⟨hl, hr⟩
    · rw [if_pos h1] at hq'
      simp only [decide_eq_true_eq] at hq'
      subst hq'
      refine ⟨b + q, tq, hq1, hq2, hq3, le_refl _, by omega, ?_⟩
      intro f hf
      obtain ⟨f', rfl⟩ : ∃ f', f = f' + 1 := ⟨f - 1, by omega⟩
      rw [walk_slab_succ, if_pos hstop, if_neg (by rw [hq1]; omega), if_neg (by simp [hq4])]
    · obtain ⟨ce, c1, _, c3, _⟩ := tiled_head m pb b c o hl
      rw [if_neg (by rw [c1]; omega)] at hq'
      simp only [Bool.or_eq_true] at hq'
      have htc' : t ≤ c := by
        rcases hq' with hq' | hq'
        · obtain ⟨_, cq, r2, _, r4, _⟩ := block_at_range m pb b c o q hl hq'
          rw [r2] at hold; omega
        · obtain ⟨_, cq, r2, _, r4, _⟩ := block_at_range m pb b c (o + 2 ^ c) q hr hq'
          rw [r2] at hold; omega
      have hN : 2 ^ (c + 1 - t) = 2 ^ (c - t) + 2 ^ (c - t) := by
        have : c + 1 - t = (c - t) + 1 := by omega
        rw [this]; ring
      rcases hq' with hq' | hq'
      · obtain ⟨e, ce', a1, a2, a3, a4, a5, a6⟩ := ih o hl hq' htc' (by omega)
        exact ⟨e, ce', a1, a2, a3, a4, by omega, fun f hf => a6 f (by omega)⟩
      · obtain ⟨r1, _⟩ := block_at_range m pb b c (o + 2 ^ c) q hr hq'
        have hl' : tiled m' pb b c o = true := by
          rw [tiled_congr m m' pb b c o (fun x x1 x2 => hagree x (by omega))]
          exact hl
        obtain ⟨e2, ce2, d1, d2, d3, d4, d5, d6⟩ := ih (o + 2 ^ c) hr hq' htc' (by omega)
        rcases walk_region m' pb b t c o hl' htc' (by omega) with
          ⟨e, ce', a1, a2, a3, a4, a5, a6, a7, a8⟩ | ⟨k1, k1a, k1b, k1c⟩
        · have : 2 ^ t ≤ 2 ^ ce' := Nat.pow_le_pow_right (by norm_num) a2
          exact ⟨e, ce', a1, a2, by omega, a6, by omega, fun f hf => a8 f (by omega)⟩
        · refine ⟨e2, ce2, d1, d2, d3, by omega, by omega, ?_⟩
          intro f hf
          obtain ⟨f', rfl⟩ : ∃ f', f = f' + k1 := ⟨f - k1, by omega⟩
          have h8 := d6 f' (by omega)
          rw [← Nat.add_assoc] at h8
          rw [k1c, h8]
theorem bucket_return_r_succ (fuel elt : Nat) (s : State) :
    bucket_return_r (fuel + 1) elt s =
      (let s0 := (s.log (Event.bucket_return elt)).setMem (wr s.mem (elt + 2) 0)
       let m := s0.mem
       if m elt ≥ MEM_PAGE_TREE_DEF_SIZE then
         if elt < MEM_PAGE_HEADER_SIZE then none
         else some (global_return_page (elt - MEM_PAGE_HEADER_SIZE) MEM_PAGE_PAGES s0)
       else
         match shl1 (m elt) with
         | none => none
         | some off =>
           if m (elt + 3) ≠ 0 then
             let right := elt + off
             if m (right + 2) = 0 ∧ m right = m elt then
               bucket_return_r fuel elt (s0.setMem (wr m elt (to_char (m elt + 1))))
             else some s0
           else
             if elt < off then none
             else
               let left := elt - off
               if m left = m elt then
                 let m1 := wr m left (to_char (m left + 1))
                 if m1 (left + 2) = 0 then bucket_return_r fuel left (s0.setMem m1)
                 else some (s0.setMem m1)
               else some s0) := rfl

/-- Freeing a block whose `left` flag is set: `bucket_return` terminates, and
either the coalescing reached class 14 and the slab went to the pool (`freed`
is one larger), or only the header of the block changed: it is unused now and
its class has not decreased. -/
theorem bucket_return_left :
    ∀ (fuel c elt : Nat) (s : State), s.mem elt = (c : Int) → 2 ≤ c → c ≤ 14 →
      s.mem (elt + 3) ≠ 0 → 16 ≤ elt → 15 ≤ fuel + c →
      ∃ s1, bucket_return_r fuel elt s = some s1 ∧ s1.buckets = s.buckets ∧
        s1.preferred_bucket = s.preferred_bucket ∧
        (s1.free_pages.freed = s.free_pages.freed + 1 ∨
          (s1.free_pages = s.free_pages ∧ s1.brk = s.brk ∧
            (∀ x, x ≠ elt → x ≠ elt + 2 → s1.mem x = s.mem x) ∧ s1.mem (elt + 2) = 0 ∧
            ∃ tq : Nat, s1.mem elt = (tq : Int) ∧ c ≤ tq ∧ tq ≤ 13)) := by
  intro fuel
  induction fuel with
  | zero => intro c elt s _ _ h14 _ _ hf; omega
  | succ fuel ih =>
    intro c elt s hc h2 h14 hleft h16 hf
    rw [bucket_return_r_succ]
    have hm : wr s.mem (elt + 2) 0 elt = (c : Int) := by
      rw [wr_other _ _ _ _ (by omega), hc]
    have hl : wr s.mem (elt + 2) 0 (elt + 3) ≠ 0 := by
      rw [wr_other _ _ _ _ (by omega)]; exact hleft
    simp only [State.setMem, State.log, MEM_PAGE_TREE_DEF_SIZE, PAGE_BSIZE, MEM_PAGE_HEADER_SIZE,
      hm]
    by_cases hc14 : c = 14
    · subst hc14
      rw [if_pos (by norm_num), if_neg (by omega)]
      refine ⟨_, rfl, rfl, rfl, Or.inl ?_⟩
      simp [global_return_page, State.log]
    · rw [if_neg (by omega), shl1_nat _ (by omega)]
      simp only [hl, ne_eq, not_false_eq_true, if_true]
      by_cases hr : wr s.mem (elt + 2) 0 (elt + 2 ^ c + 2) = 0 ∧
          wr s.mem (elt + 2) 0 (elt + 2 ^ c) = (c : Int)
      · rw [if_pos hr]
        have htc : to_char ((c : Int) + 1) = ((c + 1 : Nat) : Int) := by
          rw [to_char_id _ (by omega) (by omega)]; push_cast; ring
        obtain ⟨s1, r1, r2, r3, r4⟩ := ih (c + 1) elt
          { mem := wr (wr s.mem (elt + 2) 0) elt (to_char ((c : Int) + 1)),
            buckets := s.buckets, free_pages := s.free_pages,
            preferred_bucket := s.preferred_bucket, brk := s.brk,
            trace := Event.bucket_return elt :: s.trace }
          (by simp only [wr_same, htc]) (by omega) (by omega)
          (by
            simp only []
            rw [wr_other _ _ _ _ (by omega), wr_other _ _ _ _ (by omega)]; exact hleft)
          h16 (by omega)
        refine ⟨s1, r1, r2, r3, ?_⟩
        rcases r4 with r4 | ⟨q1, q2, q3, q4, tq, q5, q6, q7⟩
        · exact Or.inl r4
        · refine Or.inr ⟨q1, q2, ?_, q4, tq, q5, by omega, q7⟩
          intro x hx1 hx2
          rw [q3 x hx1 hx2]
          simp only []
          rw [wr_other _ _ _ _ hx1, wr_other _ _ _ _ hx2]
      · rw [if_neg hr]
        refine ⟨_, rfl, rfl, rfl, Or.inr ⟨rfl, rfl, ?_, by simp, c, hm, le_refl _, by omega⟩⟩
        intro x _ hx2
        simp only []
        rw [wr_other _ _ _ _ hx2]
/-- Freeing a block whose `left` flag is clear while the header `2 ^ c` bytes
below it carries another class: nothing is merged, only the `used` cell of the
block changes. -/
theorem bucket_return_right (fuel c elt : Nat) (s : State) (hc : s.mem elt = (c : Int))
    (h2 : 2 ≤ c) (h13 : c ≤ 13) (hleft : s.mem (elt + 3) = 0) (hpos : 2 ^ c ≤ elt)
    (hne : s.mem (elt - 2 ^ c) ≠ (c : Int)) :
    ∃ s1, bucket_return_r (fuel + 1) elt s = some s1 ∧ s1.buckets = s.buckets ∧
      s1.preferred_bucket = s.preferred_bucket ∧
      s1.free_pages = s.free_pages ∧ s1.brk = s.brk ∧
      (∀ x, x ≠ elt → x ≠ elt + 2 → s1.mem x = s.mem x) ∧ s1.mem (elt + 2) = 0 ∧
      s1.mem elt = (c : Int) := by
  rw [bucket_return_r_succ]
  have hm : wr s.mem (elt + 2) 0 elt = (c : Int) := by
    rw [wr_other _ _ _ _ (by omega), hc]
  have hl : wr s.mem (elt + 2) 0 (elt + 3) = 0 := by
    rw [wr_other _ _ _ _ (by omega)]; exact hleft
  have hx : elt - 2 ^ c ≠ elt + 2 := by
    have : elt - 2 ^ c ≤ elt := Nat.sub_le _ _
    omega
  have hn : wr s.mem (elt + 2) 0 (elt - 2 ^ c) ≠ (c : Int) := by
    rw [wr_other _ _ _ _ hx]; exact hne
  simp only [State.setMem, State.log, MEM_PAGE_TREE_DEF_SIZE, PAGE_BSIZE, hm]
  rw [if_neg (by omega), shl1_nat _ (by omega)]
  simp only [hl, ne_eq, not_true_eq_false, if_false]
  rw [if_neg (show ¬ elt < 2 ^ c by omega), if_neg hn]
  refine ⟨_, rfl, rfl, rfl, rfl, rfl, ?_, by simp, hm⟩
  intro x _ hx2
  simp only []
  rw [wr_other _ _ _ _ hx2]

/-- The slab loop of `bucket_get` after the header of block `q` of slab `S` has
become "free, class `tq ≥ t`", with changes to the tree of `S` from that header
on only: a block of one of the listed slabs is returned, no slab is
requested. -/
theorem bucket_get_loop_hit (t : Nat) (ht : 2 ≤ t) (m : Mem) (s1 : State) (pb : Int)
    (S q tq : Nat)
    (hagree : ∀ x, x < S + 16 + q ∨ S + 16 + 2 ^ 14 ≤ x → s1.mem x = m x)
    (hq1 : s1.mem (S + 16 + q) = (tq : Int)) (hq2 : t ≤ tq) (hq3 : tq ≤ 14)
    (hq4 : s1.mem (S + 16 + q + 2) = 0) (hold : (t : Int) ≤ m (S + 16 + q))
    (hblock : block_at m (S + 16) 14 0 q = true) :
    ∀ (rest : List Nat) (working : Nat), working ≠ 0 → slab_chain m working rest → S ∈ rest →
      (∀ W ∈ rest, tiled m pb (W + 16) 14 0 = true ∧
        (W = S ∨ W + MEM_PAGE_PAGES * PAGE_SIZE ≤ S ∨ S + MEM_PAGE_PAGES * PAGE_SIZE ≤ W)) →
      ∀ fuel, rest.length ≤ fuel →
        ∃ e s2, bucket_get_loop t (2 ^ t) fuel working s1 = some (e, s2) ∧
          s2.mem e = (t : Int) ∧ s2.mem (e + 2) = 1 ∧
          (∃ W ∈ rest, W + 16 ≤ e ∧ e + 2 ^ t ≤ W + 16 + 2 ^ 14) ∧
          s2.free_pages = s1.free_pages ∧ s2.brk = s1.brk := by
  intro rest
  induction rest with
  | nil => intro working _ _ hS; simp at hS
  | cons W rest ih =>
    intro working hw hc hS hall fuel hfuel
    simp only [slab_chain] at hc
    obtain ⟨rfl, hW, hnext, hrest⟩ := hc
    obtain ⟨f, rfl⟩ : ∃ f, fuel = f + 1 := ⟨fuel - 1, by simp at hfuel; omega⟩
    have hWok := hall working (List.mem_cons_self _ _)
    have ht14 : t ≤ 14 := by omega
    have hSt := (hall S hS).1
    obtain ⟨_, cq, b1, b2, b3, b4⟩ := block_at_range m pb (S + 16) 14 0 q hSt hblock
    have hpq : 4 ≤ 2 ^ cq := by
      calc 4 = 2 ^ 2 := by norm_num
        _ ≤ 2 ^ cq := Nat.pow_le_pow_right (by norm_num) b2
    by_cases hWS : working = S
    · subst hWS
      obtain ⟨e, ce, a1, a2, a3, a4, a5, a6⟩ := walk_region_hit m s1.mem pb (working + 16) t q tq
        (fun x hx => hagree x (Or.inl hx)) hq1 hq2 hq3 hq4 hold 14 0 hSt hblock ht14 (by omega)
      have a6' := a6 (2 ^ 14 + 1)
        (by have : 2 ^ (14 - t) ≤ 2 ^ 14 := Nat.pow_le_pow_right (by norm_num) (by omega)
            omega)
      simp only [Nat.add_zero] at a6' a4 a5
      obtain ⟨s2, r1, r2, _, r4, r5, r6, _⟩ :=
        bucket_get_loop_found t ht s1 working e ce f hw a6' a1 a2 a3
      exact ⟨e, s2, r1, r2, r4, ⟨working, List.mem_cons_self _ _, a4, a5⟩, r5, r6⟩
    · have hdis : working = S ∨ working + 20480 ≤ S ∨ S + 20480 ≤ working := hWok.2
      have hin : ∀ x, working ≤ x → x < working + 20480 → s1.mem x = m x := by
        intro x x1 x2
        apply hagree
        omega
      have hWt : tiled s1.mem pb (working + 16) 14 0 = true := by
        rw [tiled_congr m s1.mem pb (working + 16) 14 0 (fun x x1 x2 => hin x (by omega) (by omega))]
        exact hWok.1
      rcases walk_whole_slab s1.mem pb (working + 16) t ht14 hWt with
        ⟨e, ce, a1, a2, a3, a4, a5, a6, a7, a8⟩ | hnone
      · obtain ⟨s2, r1, r2, _, r4, r5, r6, _⟩ :=
          bucket_get_loop_found t ht s1 working e ce f hw a8 a1 a2 a3
        have : 2 ^ t ≤ 2 ^ ce := Nat.pow_le_pow_right (by norm_num) a2
        exact ⟨e, s2, r1, r2, r4, ⟨working, List.mem_cons_self _ _, a6, by omega⟩, r5, r6⟩
      · have hSrest : S ∈ rest := by
          rcases List.mem_cons.mp hS with h | h
          · exact absurd h.symm hWS
          · exact h
        rw [bucket_get_loop_succ, if_neg hw]
        simp only [MEM_PAGE_HEADER_SIZE, hnone]
        have hmW : s1.mem working = m working := hin working (le_refl _) (by omega)
        cases rest with
        | nil => simp at hSrest
        | cons S2 rest2 =>
          have hS2 : ptr m working = S2 := by
            simp only [slab_chain] at hrest; exact hrest.1
          have hS2' : S2 ≠ 0 := by
            simp only [slab_chain] at hrest; exact hrest.2.1
          have hz : s1.mem working ≠ 0 := by
            rw [hmW]; intro h0
            apply hS2'
            rw [← hS2]; simp [ptr, h0]
          rw [if_neg hz]
          have hp : ptr s1.mem working = ptr m working := by simp only [ptr, hmW]
          rw [hp]
          obtain ⟨e, s2, r1, r2, r3, ⟨W', w1, w2⟩, r5, r6⟩ := ih (ptr m working)
            (by rw [hS2]; exact hS2') hrest hSrest
            (fun W' hW' => hall W' (List.mem_cons_of_mem _ hW')) f (by simp at hfuel ⊢; omega)
          exact ⟨e, s2, r1, r2, r3, ⟨W', List.mem_cons_of_mem _ w1, w2⟩, r5, r6⟩
/-- Freeing a right-hand block (`left` clear) whose left buddy is free, has
the same class and is a left-hand block itself: the buddy absorbs the block
and goes on coalescing to its right.  `bucket_return` terminates, and either
the coalescing reached class 14 and the slab went to the pool, or the buddy is
left free with a larger class; apart from its header only the `used` cell of
the block has changed. -/
theorem bucket_return_merge_left (fuel c elt : Nat) (s : State) (hc : s.mem elt = (c : Int))
    (h2 : 2 ≤ c) (h13 : c ≤ 13) (hleft : s.mem (elt + 3) = 0) (hpos : 2 ^ c + 16 ≤ elt)
    (hsame : s.mem (elt - 2 ^ c) = (c : Int)) (hfree : s.mem (elt - 2 ^ c + 2) = 0)
    (hflag : s.mem (elt - 2 ^ c + 3) ≠ 0) (hf : 14 ≤ fuel + c) :
    ∃ s1, bucket_return_r (fuel + 1) elt s = some s1 ∧ s1.buckets = s.buckets ∧
      s1.preferred_bucket = s.preferred_bucket ∧
      (s1.free_pages.freed = s.free_pages.freed + 1 ∨
        (s1.free_pages = s.free_pages ∧ s1.brk = s.brk ∧
          (∀ x, x ≠ elt - 2 ^ c → x ≠ elt - 2 ^ c + 2 → x ≠ elt + 2 → s1.mem x = s.mem x) ∧
          s1.mem (elt - 2 ^ c + 2) = 0 ∧
          ∃ tq : Nat, s1.mem (elt - 2 ^ c) = (tq : Int) ∧ c + 1 ≤ tq ∧ tq ≤ 13)) := by
  have hp4 : 4 ≤ 2 ^ c := by
    calc 4 = 2 ^ 2 := by norm_num
      _ ≤ 2 ^ c := Nat.pow_le_pow_right (by norm_num) h2
  rw [bucket_return_r_succ]
  have hm : wr s.mem (elt + 2) 0 elt = (c : Int) := by
    rw [wr_other _ _ _ _ (by omega), hc]
  have hl : wr s.mem (elt + 2) 0 (elt + 3) = 0 := by
    rw [wr_other _ _ _ _ (by omega)]; exact hleft
  have hn : wr s.mem (elt + 2) 0 (elt - 2 ^ c) = (c : Int) := by
    rw [wr_other _ _ _ _ (by omega)]; exact hsame
  have htc : to_char ((c : Int) + 1) = ((c + 1 : Nat) : Int) := by
    rw [to_char_id _ (by omega) (by omega)]; push_cast; ring
  simp only [State.setMem, State.log, MEM_PAGE_TREE_DEF_SIZE, PAGE_BSIZE, hm]
  rw [if_neg (by omega), shl1_nat _ (by omega)]
  simp only [hl, ne_eq, not_true_eq_false, if_false]
  rw [if_neg (show ¬ elt < 2 ^ c by omega), if_pos hn]
  simp only [hn]
  rw [if_pos (by
    rw [wr_other _ _ _ _ (by omega), wr_other _ _ _ _ (by omega)]; exact hfree)]
  obtain ⟨s1, r1, r2, r3, r4⟩ := bucket_return_left fuel (c + 1) (elt - 2 ^ c)
    { mem := wr (wr s.mem (elt + 2) 0) (elt - 2 ^ c) (to_char ((c : Int) + 1)),
      buckets := s.buckets, free_pages := s.free_pages,
      preferred_bucket := s.preferred_bucket, brk := s.brk,
      trace := Event.bucket_return elt :: s.trace }
    (by simp only [wr_same, htc]) (by omega) (by omega)
    (by
      simp only []
      rw [wr_other _ _ _ _ (by omega), wr_other _ _ _ _ (by omega)]; exact hflag)
    (by omega) (by omega)
  refine ⟨s1, r1, r2, r3, ?_⟩
  rcases r4 with r4 | ⟨q1, q2, q3, q4, tq, q5, q6, q7⟩
  · exact Or.inl r4
  · refine Or.inr ⟨q1, q2, ?_, q4, tq, q5, q6, q7⟩
    intro x hx1 hx2 hx3
    rw [q3 x hx1 hx2]
    simp only []
    rw [wr_other _ _ _ _ hx1, wr_other _ _ _ _ hx3]

/-- In a tiled region that is aligned to its size, a block of class `t` whose
offset is an odd multiple of `2 ^ t` has the header of a block of the tiling
`2 ^ t` bytes below it: the first block of its left buddy region. -/
theorem left_buddy_block (m : Mem) (pb : Int) (b t : Nat) :
    ∀ (c o q : Nat), tiled m pb b c o = true → block_at m b c o q = true →
      m (b + q) = (t : Int) → o % 2 ^ (c) = 0 → (q / 2 ^ t) % 2 = 1 → q ≠ o →
      2 ^ t ≤ q ∧ block_at m b c o (q - 2 ^ t) = true := by
  intro c
  induction c with
  | zero => intro o q h; simp [tiled] at h
  | succ c ih =>
    intro o q h hq hcl ho hodd hne
    have h2c : 2 ^ (c + 1) = 2 ^ c * 2 := by ring
    have hpc : 0 < 2 ^ c := by positivity
    have hpt : 0 < 2 ^ t := by positivity
    have hdvd : 2 ^ c ∣ o := by
      have : 2 ^ (c + 1) ∣ o := Nat.dvd_of_mod_eq_zero ho
      exact Dvd.dvd.trans ⟨2, h2c⟩ this
    have hfull := h
    unfold tiled at h
    simp only [Bool.or_eq_true, Bool.and_eq_true, decide_eq_true_eq] at h
    rcases h with ⟨⟨h1, _⟩, _⟩ | ⟨hl, hr⟩
    · unfold block_at at hq
      rw [if_pos h1] at hq
      simp only [decide_eq_true_eq] at hq
      exact absurd hq hne
    · rw [block_at_split m pb b c o q hl] at hq
      simp only [Bool.or_eq_true] at hq
      rw [block_at_split m pb b c o (q - 2 ^ t) hl]
      simp only [Bool.or_eq_true]
      rcases hq with hq | hq
      · obtain ⟨i1, i2⟩ := ih o q hl hq hcl (Nat.mod_eq_zero_of_dvd hdvd) hodd hne
        exact ⟨i1, Or.inl i2⟩
      · by_cases hq0 : q = o + 2 ^ c
        · obtain ⟨ce, c1, _, c3, _⟩ := tiled_head m pb b c (o + 2 ^ c) hr
          have hce : ce = t := by
            rw [hq0, c1] at hcl
            exact_mod_cast hcl
          subst hce
          by_cases htc : ce = c
          · subst htc
            refine ⟨by omega, Or.inl ?_⟩
            have : q - 2 ^ ce = o := by omega
            rw [this]
            exact tiled_block_head m pb b ce o hl
          · exfalso
            obtain ⟨d, hd⟩ : ∃ d, c = ce + d + 1 := ⟨c - ce - 1, by omega⟩
            obtain ⟨a, ha⟩ := Nat.dvd_of_mod_eq_zero ho
            have hqe : q = 2 ^ ce * (2 * (2 * 2 ^ d * a + 2 ^ d)) := by
              rw [hq0, ha, hd]
              ring
            rw [hqe, Nat.mul_div_cancel_left _ hpt, Nat.mul_mod_right] at hodd
            omega
        · obtain ⟨i1, i2⟩ := ih (o + 2 ^ c) q hr hq hcl
            (by
              obtain ⟨a, ha⟩ := hdvd
              rw [ha]
              have : 2 ^ c * a + 2 ^ c = 2 ^ c * (a + 1) := by ring
              rw [this]
              exact Nat.mul_mod_right _ _) hodd hq0
          exact ⟨i1, Or.inr i2⟩

/-- The run behind the witness of C8 in the public interface: the fourth
allocation of 100 bytes is served from the slab at 65536 (pointer 65556, the
block the buddy at offset 0 has become), and no slab is requested
(`allocated` stays 1). -/
theorem merged_block_reused :
    (run [Op.malloc 100, Op.malloc 100, Op.malloc 100, Op.free 0, Op.free 1, Op.malloc 100]
        (init_state 65536, [])).map (fun r => (r.2, r.1.free_pages.allocated)) =
      some ([65556, 65684, 65812, 65556], 1) := by
  decide!

/-! ## The fuel constants are no restriction -/

/-- The walk over one slab advances by at least one byte per step, so any two
amounts of fuel above the distance to `stop` give the same result. -/
theorem walk_slab_fuel (m : Mem) (bsize : Int) (size stop : Nat) (hsize : 0 < size) :
    ∀ (fuel fuel' wt : Nat), stop + 1 - wt < fuel → stop + 1 - wt < fuel' →
      walk_slab m bsize size stop fuel wt = walk_slab m bsize size stop fuel' wt := by
  intro fuel
  induction fuel with
  | zero => intro fuel' wt h; omega
  | succ fuel ih =>
    intro fuel' wt h h'
    obtain ⟨f', rfl⟩ : ∃ f', fuel' = f' + 1 := ⟨fuel' - 1, by omega⟩
    rw [walk_slab_succ, walk_slab_succ]
    by_cases hw : wt ≤ stop
    · rw [if_pos hw, if_pos hw]
      by_cases hlt : m wt < bsize
      · rw [if_pos hlt, if_pos hlt]
        exact ih f' (wt + size) (by omega) (by omega)
      · rw [if_neg hlt, if_neg hlt]
        by_cases hu : m (wt + 2) ≠ 0
        · rw [if_pos hu, if_pos hu]
          cases hs : shl1 (m wt) with
          | none => rfl
          | some off =>
            have hoff : 0 < off := by
              unfold shl1 at hs
              split at hs
              · simp only [Option.some.injEq] at hs
                rw [← hs]; positivity
              · simp at hs
            exact ih f' (wt + off) (by omega) (by omega)
        · rw [if_neg hu, if_neg hu]
    · rw [if_neg hw, if_neg hw]

/-- Every recursive call of `bucket_return` works on a header whose class is
one larger and stops at class 14, so any two amounts of fuel that cover the
classes up to 14 give the same result; 15 covers every class from 0 on. -/
theorem bucket_return_r_fuel :
    ∀ (fuel fuel' elt : Nat) (s : State), 1 ≤ fuel → 1 ≤ fuel' →
      15 ≤ (fuel : Int) + s.mem elt → 15 ≤ (fuel' : Int) + s.mem elt →
      bucket_return_r fuel elt s = bucket_return_r fuel' elt s := by
  intro fuel
  induction fuel with
  | zero => intro fuel' elt s h; omega
  | succ fuel ih =>
    intro fuel' elt s _ h1' h15 h15'
    obtain ⟨f', rfl⟩ : ∃ f', fuel' = f' + 1 := ⟨fuel' - 1, by omega⟩
    rw [bucket_return_r_succ, bucket_return_r_succ]
    have hm : wr s.mem (elt + 2) 0 elt = s.mem elt := wr_other _ _ _ _ (by omega)
    simp only [State.setMem, State.log, MEM_PAGE_TREE_DEF_SIZE, PAGE_BSIZE, hm]
    by_cases h14 : s.mem elt ≥ 12 + 2
    · simp only [h14, if_true]
    · simp only [h14, if_false]
      cases hs : shl1 (s.mem elt) with
      | none => rfl
      | some off =>
        have hc0 : 0 ≤ s.mem elt := by
          unfold shl1 at hs
          split at hs
          · omega
          · simp at hs
        have hoff : 0 < off := by
          unfold shl1 at hs
          split at hs
          · simp only [Option.some.injEq] at hs
            rw [← hs]; positivity
          · simp at hs
        have htc : to_char (s.mem elt + 1) = s.mem elt + 1 := to_char_id _ (by omega) (by omega)
        simp only []
        by_cases hl : wr s.mem (elt + 2) 0 (elt + 3) ≠ 0
        · rw [if_pos hl, if_pos hl]
          by_cases hr : wr s.mem (elt + 2) 0 (elt + off + 2) = 0 ∧
              wr s.mem (elt + 2) 0 (elt + off) = s.mem elt
          · rw [if_pos hr, if_pos hr]
            apply ih
            · push_cast at h15; omega
            · push_cast at h15'; omega
            · simp only [wr_same, htc]; push_cast at h15; omega
            · simp only [wr_same, htc]; push_cast at h15'; omega
          · rw [if_neg hr, if_neg hr]
        · rw [if_neg hl, if_neg hl]
          by_cases hlt : elt < off
          · rw [if_pos hlt, if_pos hlt]
          · rw [if_neg hlt, if_neg hlt]
            by_cases hb : wr s.mem (elt + 2) 0 (elt - off) = s.mem elt
            · rw [if_pos hb, if_pos hb]
              have htc' : to_char (wr s.mem (elt + 2) 0 (elt - off) + 1) = s.mem elt + 1 := by
                rw [hb]; exact htc
              by_cases hu : wr (wr s.mem (elt + 2) 0) (elt - off)
                  (to_char (wr s.mem (elt + 2) 0 (elt - off) + 1)) (elt - off + 2) = 0
              · rw [if_pos hu, if_pos hu]
                apply ih
                · push_cast at h15; omega
                · push_cast at h15'; omega
                · simp only [wr_same, htc']; push_cast at h15; omega
                · simp only [wr_same, htc']; push_cast at h15'; omega
              · rw [if_neg hu, if_neg hu]
            · rw [if_neg hb, if_neg hb]

/-! ## Page counts (C11) -/

/-- The value of `div_up xx yy` is the ceiling of `xx / yy`: the least `n` with
`xx ≤ n * yy`. -/
theorem div_up_ceil (xx yy : Nat) (hy : 0 < yy) :
    xx ≤ div_up xx yy * yy ∧ ∀ n, xx ≤ n * yy → div_up xx yy ≤ n := by
  unfold div_up
  have hdm := Nat.div_add_mod xx yy
  have hml := Nat.mod_lt xx hy
  have hc : xx / yy * yy = yy * (xx / yy) := Nat.mul_comm _ _
  simp only []
  split
  · rename_i h
    refine ⟨by omega, fun n hn => ?_⟩
    by_contra hlt
    have h1 : n + 1 ≤ xx / yy := by omega
    have h2 : (n + 1) * yy ≤ xx / yy * yy := Nat.mul_le_mul_right yy h1
    have h3 : (n + 1) * yy = n * yy + yy := by ring
    omega
  · rename_i h
    have h4 : (xx / yy + 1) * yy = xx / yy * yy + yy := by ring
    refine ⟨by omega, fun n hn => ?_⟩
    by_contra hlt
    have h1 : n ≤ xx / yy := by omega
    have h2 : n * yy ≤ xx / yy * yy := Nat.mul_le_mul_right yy h1
    omega

/-- Claim C11, amended: when `size + header` does not wrap around in `size_t`,
`page_size` aborts exactly when the number of 4096-byte pages needed to cover
`size + header` bytes (the least `n` with `size + header ≤ n * 4096`) exceeds
127, and otherwise returns that number, a value in `0..127`. -/
theorem page_size_spec (size header : Nat) (h : size + header < 2 ^ 64) :
    ∃ n : Nat, size + header ≤ n * 4096 ∧ (∀ k, size + header ≤ k * 4096 → n ≤ k) ∧
      n = div_up (size + header) PAGE_SIZE ∧
      (127 < n → page_size size header = none) ∧
      (n ≤ 127 → page_size size header = some (n : Int)) := by
  obtain ⟨h1, h2⟩ := div_up_ceil (size + header) PAGE_SIZE (by norm_num)
  have hm : (size + header) % 2 ^ 64 = size + header := Nat.mod_eq_of_lt h
  refine ⟨div_up (size + header) PAGE_SIZE, h1, h2, rfl, ?_, ?_⟩
  · intro hgt
    unfold page_size
    simp only [SIZE_MOD, hm]
    rw [if_pos hgt]
  · intro hle
    unfold page_size
    simp only [SIZE_MOD, hm]
    rw [if_neg (by omega), to_char_id _ (by omega) (by omega)]

/-- Claim C11, witness: 40000 bytes and the 4-byte header need 10 pages. -/
theorem page_size_spec_witness :
    40000 + 4 < 2 ^ 64 ∧
    ∃ n : Nat, 40000 + 4 ≤ n * 4096 ∧ (∀ k, 40000 + 4 ≤ k * 4096 → n ≤ k) ∧
      n = div_up (40000 + 4) PAGE_SIZE ∧
      (127 < n → page_size 40000 4 = none) ∧
      (n ≤ 127 → page_size 40000 4 = some (n : Int)) :=
  ⟨by decide, page_size_spec 40000 4 (by decide)⟩

/-- Claim C11, counterexample: `size = 2 ^ 64 - 1` with the 4-byte header needs
far more than 127 pages, but the sum wraps to 3 and `page_size` returns 1
instead of aborting. -/
theorem page_size_wraps :
    page_size (2 ^ 64 - 1) 4 = some 1 ∧ ¬ (2 ^ 64 - 1 + 4 ≤ 127 * 4096) := by
  constructor
  · decide!
  · decide

/-! ## Invariants of the buddy tree on reachable states (C13, C14) and the
pool's minimum region size (C17) -/

/-- Claim C13, evaluated at the failing input: after `malloc(100)`,
`malloc(60)` and the free of the second block, the slab at 65536 is tiled by
the root block (class 7, used) and the block at offset 128 (header at 65680:
class 7, unused).  That block sits at the odd multiple `128 / 2 ^ 7 = 1` of its
size, yet its `left` flag is true. -/
theorem left_flag_stale :
    (run [Op.malloc 100, Op.malloc 60, Op.free 1] (init_state 65536, [])).map
        (fun r => [r.1.mem 65552, r.1.mem 65554, r.1.mem 65680, r.1.mem 65682, r.1.mem 65683,
                   r.1.mem (65552 + 256)]) =
      some [7, 1, 7, 0, 1, 8] ∧
    (65680 - 65552) / 2 ^ 7 % 2 = 1 := by
  decide!

/-- Claim C14, evaluated at the failing input: after both allocations are freed
the root block (offset 0) and the block at offset `0 xor 2 ^ 7 = 128` are
buddies of the same class 7 and both unused; they have not been coalesced. -/
theorem free_buddies_left_apart :
    (run [Op.malloc 100, Op.malloc 60, Op.free 0, Op.free 1] (init_state 65536, [])).map
        (fun r => [r.1.mem 65552, r.1.mem 65554, r.1.mem (65552 + Nat.xor 0 (2 ^ 7)),
                   r.1.mem (65552 + Nat.xor 0 (2 ^ 7) + 2)]) =
      some [7, 0, 7, 0] ∧
    (state_after [Op.malloc 100, Op.malloc 60, Op.free 0, Op.free 1]).buckets 0 = 65536 := by
  decide!

/-- Claim C17, evaluated at the failing input: from a pool holding one region of
7 pages, `global_request_page` returns its leading 5 pages (65536) as a slab
with root class 14, unused, left, `next = prev = null`; the remainder at 86016
becomes the head of the list with 2 pages, fewer than 5, and the next
`global_request_page` fails its assertion `pages >= MEM_PAGE_PAGES`. -/
theorem shave_leaves_small_region :
    (global_request_page pool_7_state).map
        (fun r => (r.1, [r.2.mem 65536, r.2.mem (65536 + 8), r.2.mem (65536 + 16),
                         r.2.mem (65536 + 18), r.2.mem (65536 + 19)],
                   r.2.free_pages.head, r.2.mem (86016 + 16))) =
      some (65536, [0, 0, 14, 0, 1], 86016, 2) ∧
    ((global_request_page pool_7_state).bind (fun r => global_request_page r.2)).isSome =
      false := by
  decide!

/-! ## Splitting a block (C15) -/

theorem split_tree_r_succ (tree splits : Nat) (m : Mem) :
    split_tree_r tree (splits + 1) m =
      (let m1 := wr m tree (to_char (m tree - 1))
       let m2 := wr m1 (tree + 3) 1
       match shl1 (m2 tree) with
       | none => none
       | some off =>
         let right := tree + off
         let m3 := wr m2 right (m2 tree)
         let m4 := wr m3 (right + 1) (m3 (tree + 1))
         let m5 := wr m4 (right + 2) 0
         let m6 := wr m5 (right + 3) 0
         split_tree_r tree splits m6) := rfl

/-- What `split_tree_r` leaves in memory when a block of class `t + n` at
address `a` is split `n` times down to a class `t ≥ 2`. -/
theorem split_tree_r_full (t : Nat) (ht : 2 ≤ t) (a : Nat) :
    ∀ (n : Nat) (m : Mem), m a = ((t + n : Nat) : Int) → t + n ≤ 30 →
      ∃ m', split_tree_r a n m = some m' ∧ m' a = (t : Int) ∧
        m' (a + 1) = m (a + 1) ∧ m' (a + 2) = m (a + 2) ∧
        (0 < n → m' (a + 3) = 1) ∧ (n = 0 → m' = m) ∧
        (∀ k, t ≤ k → k < t + n →
          m' (a + 2 ^ k) = (k : Int) ∧ m' (a + 2 ^ k + 1) = m (a + 1) ∧
          m' (a + 2 ^ k + 2) = 0 ∧ m' (a + 2 ^ k + 3) = 0) ∧
        (∀ x, x < a ∨ a + 2 ^ (t + n) ≤ x → m' x = m x) := by
  intro n
  induction n with
  | zero =>
    intro m hm _
    exact ⟨m, rfl, by simpa using hm, rfl, rfl, fun h => absurd h (by omega), fun _ => rfl,
      fun k h1 h2 => by omega, fun _ _ => rfl⟩
  | succ n ih =>
    intro m hm hb
    have h4 : 4 ≤ 2 ^ (t + n) := by
      calc 4 = 2 ^ 2 := by norm_num
        _ ≤ 2 ^ (t + n) := Nat.pow_le_pow_right (by norm_num) (by omega)
    have h2p : 2 ^ (t + (n + 1)) = 2 ^ (t + n) + 2 ^ (t + n) := by
      have : t + (n + 1) = (t + n) + 1 := by omega
      rw [this]; ring
    have hc : to_char (m a - 1) = ((t + n : Nat) : Int) := by
      rw [hm, to_char_id _ (by omega) (by omega)]; push_cast; ring
    rw [split_tree_r_succ]
    simp only []
    have e1 : wr (wr m a (to_char (m a - 1))) (a + 3) 1 a = ((t + n : Nat) : Int) := by
      rw [wr_other _ _ _ _ (by omega), wr_same, hc]
    have e2 : wr (wr (wr m a (to_char (m a - 1))) (a + 3) 1) (a + 2 ^ (t + n))
        ((t + n : Nat) : Int) (a + 1) = m (a + 1) := by
      rw [wr_other _ _ _ _ (by omega), wr_other _ _ _ _ (by omega), wr_other _ _ _ _ (by omega)]
    rw [e1, shl1_nat _ (by omega)]
    simp only [e2]
    generalize hM : wr (wr (wr (wr (wr (wr m a (to_char (m a - 1))) (a + 3) 1) (a + 2 ^ (t + n))
        ((t + n : Nat) : Int)) (a + 2 ^ (t + n) + 1) (m (a + 1))) (a + 2 ^ (t + n) + 2) 0)
        (a + 2 ^ (t + n) + 3) 0 = M
    have M0 : M a = ((t + n : Nat) : Int) := by
      rw [← hM, wr_other _ _ _ _ (by omega), wr_other _ _ _ _ (by omega),
        wr_other _ _ _ _ (by omega), wr_other _ _ _ _ (by omega),
        wr_other _ _ _ _ (by omega), wr_same, hc]
    have M1 : M (a + 1) = m (a + 1) := by
      rw [← hM, wr_other _ _ _ _ (by omega), wr_other _ _ _ _ (by omega),
        wr_other _ _ _ _ (by omega), wr_other _ _ _ _ (by omega),
        wr_other _ _ _ _ (by omega), wr_other _ _ _ _ (by omega)]
    have M2 : M (a + 2) = m (a + 2) := by
      rw [← hM, wr_other _ _ _ _ (by omega), wr_other _ _ _ _ (by omega),
        wr_other _ _ _ _ (by omega), wr_other _ _ _ _ (by omega),
        wr_other _ _ _ _ (by omega), wr_other _ _ _ _ (by omega)]
    have M3 : M (a + 3) = 1 := by
      rw [← hM, wr_other _ _ _ _ (by omega), wr_other _ _ _ _ (by omega),
        wr_other _ _ _ _ (by omega), wr_other _ _ _ _ (by omega), wr_same]
    have Mr0 : M (a + 2 ^ (t + n)) = ((t + n : Nat) : Int) := by
      rw [← hM, wr_other _ _ _ _ (by omega), wr_other _ _ _ _ (by omega),
        wr_other _ _ _ _ (by omega), wr_same]
    have Mr1 : M (a + 2 ^ (t + n) + 1) = m (a + 1) := by
      rw [← hM, wr_other _ _ _ _ (by omega), wr_other _ _ _ _ (by omega), wr_same]
    have Mr2 : M (a + 2 ^ (t + n) + 2) = 0 := by
      rw [← hM, wr_other _ _ _ _ (by omega), wr_same]
    have Mr3 : M (a + 2 ^ (t + n) + 3) = 0 := by
      rw [← hM, wr_same]
    have Mout : ∀ x, x < a ∨ a + 2 ^ (t + (n + 1)) ≤ x → M x = m x := by
      intro x hx
      rw [← hM, wr_other _ _ _ _ (by omega), wr_other _ _ _ _ (by omega),
        wr_other _ _ _ _ (by omega), wr_other _ _ _ _ (by omega),
        wr_other _ _ _ _ (by omega), wr_other _ _ _ _ (by omega)]
    obtain ⟨m', r1, r2, r3, r4, r5, r6, r7, r8⟩ := ih M M0 (by omega)
    refine ⟨m', r1, r2, by rw [r3, M1], by rw [r4, M2], ?_, fun h => absurd h (by omega), ?_, ?_⟩
    · intro _
      rcases Nat.eq_zero_or_pos n with h0 | hpos
      · rw [r6 h0, M3]
      · exact r5 hpos
    · intro k hk1 hk2
      by_cases hk : k < t + n
      · obtain ⟨q1, q2, q3, q4⟩ := r7 k hk1 hk
        exact ⟨q1, by rw [q2, M1], q3, q4⟩
      · have hkeq : k = t + n := by omega
        subst hkeq
        rw [r8 _ (Or.inr (by omega)), r8 _ (Or.inr (by omega)), r8 _ (Or.inr (by omega)),
          r8 _ (Or.inr (by omega))]
        exact ⟨Mr0, Mr1, Mr2, Mr3⟩
    · intro x hx
      rw [r8 x (by omega), Mout x hx]

/-- The spans `[2 ^ k, 2 ^ (k + 1))` for `t ≤ k < c` together with `[0, 2 ^ t)`
cover `[0, 2 ^ c)`. -/
theorem pow_spans_cover (t : Nat) :
    ∀ (c y : Nat), t ≤ c → y < 2 ^ c →
      y < 2 ^ t ∨ ∃ k, t ≤ k ∧ k < c ∧ 2 ^ k ≤ y ∧ y < 2 ^ (k + 1) := by
  intro c
  induction c with
  | zero =>
    intro y h hy
    have : t = 0 := by omega
    subst this
    exact Or.inl hy
  | succ c ih =>
    intro y h hy
    by_cases htc : t = c + 1
    · subst htc; exact Or.inl hy
    · by_cases hlt : y < 2 ^ c
      · rcases ih y (by omega) hlt with h1 | ⟨k, k1, k2, k3, k4⟩
        · exact Or.inl h1
        · exact Or.inr ⟨k, k1, by omega, k3, k4⟩
      · exact Or.inr ⟨c, by omega, by omega, by omega, hy⟩

/-- The spans `[2 ^ k, 2 ^ (k + 1))` are pairwise disjoint and lie above
`[0, 2 ^ t)` when `t ≤ k`. -/
theorem pow_spans_disjoint (j k y : Nat) (hj : 2 ^ j ≤ y ∧ y < 2 ^ (j + 1))
    (hk : 2 ^ k ≤ y ∧ y < 2 ^ (k + 1)) : j = k := by
  rcases Nat.lt_trichotomy j k with h | h | h
  · have : 2 ^ (j + 1) ≤ 2 ^ k := Nat.pow_le_pow_right (by norm_num) h
    omega
  · exact h
  · have : 2 ^ (k + 1) ≤ 2 ^ j := Nat.pow_le_pow_right (by norm_num) h
    omega

/-- Claim C15, amended: for a block header at address `a` with class `c ≤ 30`
and a target class `t` with `2 ≤ t ≤ c`, `split_tree_r(block, c - t)` returns
and leaves the block with class `t`, its `bucket` and `used` cells as they
were, and `left = true` if at least one split was made (for `t = c` memory is
unchanged); for each `k` with `t ≤ k < c` the header at `a + 2 ^ k` has
`bsize = k`, the bucket of the block, `used = false` and `left = false`; the
spans `[a, a + 2 ^ t)` and `[a + 2 ^ k, a + 2 ^ (k + 1))` are pairwise
disjoint and cover `[a, a + 2 ^ c)`; no cell outside `[a, a + 2 ^ c)` is
changed. -/
theorem split_tree_r_tiles (m : Mem) (a c t : Nat) (hc : m a = (c : Int)) (ht : 2 ≤ t)
    (htc : t ≤ c) (hc30 : c ≤ 30) :
    ∃ m', split_tree_r a (c - t) m = some m' ∧
      m' a = (t : Int) ∧ m' (a + 1) = m (a + 1) ∧ m' (a + 2) = m (a + 2) ∧
      (t < c → m' (a + 3) = 1) ∧ (t = c → m' = m) ∧
      (∀ k, t ≤ k → k < c →
        m' (a + 2 ^ k) = (k : Int) ∧ m' (a + 2 ^ k + 1) = m (a + 1) ∧
        m' (a + 2 ^ k + 2) = 0 ∧ m' (a + 2 ^ k + 3) = 0) ∧
      (∀ x, x < a ∨ a + 2 ^ c ≤ x → m' x = m x) ∧
      (∀ x, a ≤ x → x < a + 2 ^ c →
        x < a + 2 ^ t ∨ ∃ k, t ≤ k ∧ k < c ∧ a + 2 ^ k ≤ x ∧ x < a + 2 ^ (k + 1)) ∧
      (∀ x k, t ≤ k → a + 2 ^ k ≤ x → x < a + 2 ^ (k + 1) →
        ¬ x < a + 2 ^ t ∧ ∀ j, a + 2 ^ j ≤ x → x < a + 2 ^ (j + 1) → j = k) := by
  have hcn : t + (c - t) = c := by omega
  obtain ⟨m', r1, r2, r3, r4, r5, r6, r7, r8⟩ := split_tree_r_full t ht a (c - t) m
    (by rw [hcn]; exact hc) (by omega)
  rw [hcn] at r7 r8
  refine ⟨m', r1, r2, r3, r4, fun h => r5 (by omega), fun h => r6 (by omega), r7, r8, ?_, ?_⟩
  · intro x h1 h2
    rcases pow_spans_cover t c (x - a) htc (by omega) with h | ⟨k, k1, k2, k3, k4⟩
    · exact Or.inl (by omega)
    · exact Or.inr ⟨k, k1, k2, by omega, by omega⟩
  · intro x k hk h1 h2
    have hpk : 2 ^ t ≤ 2 ^ k := Nat.pow_le_pow_right (by norm_num) hk
    refine ⟨by omega, fun j j1 j2 => ?_⟩
    exact pow_spans_disjoint j k (x - a) ⟨by omega, by omega⟩ ⟨by omega, by omega⟩

/-- Claim C15, witness: the root block of a fresh slab (class 14) split down to
class 5. -/
theorem split_tree_r_tiles_witness :
    wr (fun _ => 0) 65552 14 65552 = ((14 : Nat) : Int) ∧ 2 ≤ 5 ∧ 5 ≤ 14 ∧ 14 ≤ 30 ∧
    ∃ m', split_tree_r 65552 (14 - 5) (wr (fun _ => 0) 65552 14) = some m' ∧
      m' 65552 = ((5 : Nat) : Int) ∧
      m' (65552 + 1) = wr (fun _ => 0) 65552 14 (65552 + 1) ∧
      m' (65552 + 2) = wr (fun _ => 0) 65552 14 (65552 + 2) ∧
      (5 < 14 → m' (65552 + 3) = 1) ∧ (5 = 14 → m' = wr (fun _ => 0) 65552 14) ∧
      (∀ k : Nat, 5 ≤ k → k < 14 →
        m' (65552 + 2 ^ k) = (k : Int) ∧
        m' (65552 + 2 ^ k + 1) = wr (fun _ => 0) 65552 14 (65552 + 1) ∧
        m' (65552 + 2 ^ k + 2) = 0 ∧ m' (65552 + 2 ^ k + 3) = 0) ∧
      (∀ x : Nat, x < 65552 ∨ 65552 + 2 ^ 14 ≤ x → m' x = wr (fun _ => 0) 65552 14 x) ∧
      (∀ x : Nat, 65552 ≤ x → x < 65552 + 2 ^ 14 →
        x < 65552 + 2 ^ 5 ∨
          ∃ k : Nat, 5 ≤ k ∧ k < 14 ∧ 65552 + 2 ^ k ≤ x ∧ x < 65552 + 2 ^ (k + 1)) ∧
      (∀ x k : Nat, 5 ≤ k → 65552 + 2 ^ k ≤ x → x < 65552 + 2 ^ (k + 1) →
        ¬ x < 65552 + 2 ^ 5 ∧ ∀ j : Nat, 65552 + 2 ^ j ≤ x → x < 65552 + 2 ^ (j + 1) → j = k) :=
  ⟨by decide, by decide, by decide, by decide,
    split_tree_r_tiles (wr (fun _ => 0) 65552 14) 65552 14 5 (by decide) (by decide)
      (by decide) (by decide)⟩

/-- Claim C15, counterexample: with `t = c` (no split) a block whose `left`
flag is false keeps it false; and splitting a class-2 block down to `t = 0`
leaves the block with `left = false` and the header at offset `2 ^ 1` with
`bsize = 0`, because headers of blocks smaller than 4 bytes overlap. -/
theorem split_tree_r_corner_cases :
    (split_tree_r 100 (5 - 5) (wr (wr (fun _ => 0) 100 5) 101 9)).map
        (fun m => [m 100, m 103]) = some [5, 0] ∧
    (split_tree_r 100 (2 - 0) (wr (wr (fun _ => 0) 100 2) 101 9)).map
        (fun m => [m 100, m 103, m (100 + 2 ^ 1)]) = some [0, 0, 0] := by
  decide!

/-! ## Arena selection (C16) -/

theorem bucket_lock_loop_succ (tl : Int → Bool) (stop : Int) (fuel : Nat) (i : Int) (s : State) :
    bucket_lock_loop tl stop (fuel + 1) i s =
      if i ≠ stop then
        match bucket_idx i with
        | none => none
        | some _ =>
          if tl i then
            some { s with preferred_bucket := to_char i,
                          trace := Event.bucket_trylock i true :: s.trace }
          else
            bucket_lock_loop tl stop fuel ((i + 1).tmod NUM_BUCKETS)
              (s.log (Event.bucket_trylock i false))
      else
        match bucket_idx stop with
        | none => none
        | some _ => some { s with preferred_bucket := to_char stop,
                                  trace := Event.bucket_lock stop :: s.trace } := rfl

theorem bucket_idx_ok (i : Int) (h0 : 0 ≤ i) (h1 : i < 64) : bucket_idx i = some i.toNat := by
  unfold bucket_idx
  rw [if_pos ⟨h0, by simpa using h1⟩]

theorem tmod_64 (a : Int) (h : 0 ≤ a) : a.tmod (NUM_BUCKETS : Int) = a % 64 := by
  rw [Int.tmod_eq_emod h (by norm_num)]
  rfl


/-- Claim C16: with a preferred arena `p` in `0..63`, `bucket_lock` probes the
arenas `p`, `(p+1) mod 64`, `(p+2) mod 64` in this order with trylock, stops at
the first success and makes that arena the preferred one; if all three fail,
it sets `preferred_bucket` to `(p+3) mod 64` and takes that lock blockingly.
The trace (newest event first) shows exactly these probes; the resulting
`preferred_bucket` is in `0..63` and is the arena of the newest event, the lock
now held. -/
theorem bucket_lock_probes (rnd : Nat) (tl : Int → Bool) (s : State) (p : Int)
    (hp : s.preferred_bucket = p) (h0 : 0 ≤ p) (h1 : p < 64) :
    ∃ s', bucket_lock rnd tl s = some s' ∧
      0 ≤ s'.preferred_bucket ∧ s'.preferred_bucket < 64 ∧
      s'.mem = s.mem ∧ s'.buckets = s.buckets ∧ s'.free_pages = s.free_pages ∧
      (tl p = true →
        s'.preferred_bucket = p ∧ s'.trace = Event.bucket_trylock p true :: s.trace) ∧
      (tl p = false → tl ((p + 1) % 64) = true →
        s'.preferred_bucket = (p + 1) % 64 ∧
        s'.trace = Event.bucket_trylock ((p + 1) % 64) true ::
          Event.bucket_trylock p false :: s.trace) ∧
      (tl p = false → tl ((p + 1) % 64) = false → tl ((p + 2) % 64) = true →
        s'.preferred_bucket = (p + 2) % 64 ∧
        s'.trace = Event.bucket_trylock ((p + 2) % 64) true ::
          Event.bucket_trylock ((p + 1) % 64) false ::
          Event.bucket_trylock p false :: s.trace) ∧
      (tl p = false → tl ((p + 1) % 64) = false → tl ((p + 2) % 64) = false →
        s'.preferred_bucket = (p + 3) % 64 ∧
        s'.trace = Event.bucket_lock ((p + 3) % 64) ::
          Event.bucket_trylock ((p + 2) % 64) false ::
          Event.bucket_trylock ((p + 1) % 64) false ::
          Event.bucket_trylock p false :: s.trace) := by
  subst hp
  have hstop : (s.preferred_bucket + 3).tmod (NUM_BUCKETS : Int) = (s.preferred_bucket + 3) % 64 :=
    tmod_64 _ (by omega)
  have hi1 : (s.preferred_bucket + 1).tmod (NUM_BUCKETS : Int) = (s.preferred_bucket + 1) % 64 :=
    tmod_64 _ (by omega)
  have hi2 : ((s.preferred_bucket + 1) % 64 + 1).tmod (NUM_BUCKETS : Int) =
      (s.preferred_bucket + 2) % 64 := by
    rw [tmod_64 _ (by omega)]; omega
  have hi3 : ((s.preferred_bucket + 2) % 64 + 1).tmod (NUM_BUCKETS : Int) =
      (s.preferred_bucket + 3) % 64 := by
    rw [tmod_64 _ (by omega)]; omega
  have hc0 : to_char s.preferred_bucket = s.preferred_bucket := to_char_id _ (by omega) (by omega)
  have hc1 : to_char ((s.preferred_bucket + 1) % 64) = (s.preferred_bucket + 1) % 64 :=
    to_char_id _ (by omega) (by omega)
  have hc2 : to_char ((s.preferred_bucket + 2) % 64) = (s.preferred_bucket + 2) % 64 :=
    to_char_id _ (by omega) (by omega)
  have hc3 : to_char ((s.preferred_bucket + 3) % 64) = (s.preferred_bucket + 3) % 64 :=
    to_char_id _ (by omega) (by omega)
  unfold bucket_lock
  simp only []
  rw [if_neg (by omega), hstop]
  have hfuel : NUM_BUCKETS + 1 = 61 + 1 + 1 + 1 + 1 := rfl
  rw [hfuel, bucket_lock_loop_succ, if_pos (by omega), bucket_idx_ok _ h0 h1]
  simp only [hc0]
  cases ht0 : tl s.preferred_bucket with
  | true =>
    simp only [if_true]
    refine ⟨_, rfl, h0, h1, rfl, rfl, rfl, fun _ => ⟨rfl, rfl⟩, ?_, ?_, ?_⟩ <;>
      intro h <;> simp at h
  | false =>
    simp only [Bool.false_eq_true, if_false, State.log, hi1]
    rw [bucket_lock_loop_succ, if_pos (by omega), bucket_idx_ok _ (by omega) (by omega)]
    simp only [hc1]
    cases ht1 : tl ((s.preferred_bucket + 1) % 64) with
    | true =>
      simp only [if_true]
      refine ⟨_, rfl, by simp only []; omega, by simp only []; omega, rfl, rfl, rfl, ?_,
        fun _ _ => ⟨rfl, rfl⟩, ?_, ?_⟩
      · intro h; simp at h
      · intro _ h; simp at h
      · intro _ h; simp at h
    | false =>
      simp only [Bool.false_eq_true, if_false, State.log, hi2]
      rw [bucket_lock_loop_succ, if_pos (by omega), bucket_idx_ok _ (by omega) (by omega)]
      simp only [hc2]
      cases ht2 : tl ((s.preferred_bucket + 2) % 64) with
      | true =>
        simp only [if_true]
        refine ⟨_, rfl, by simp only []; omega, by simp only []; omega, rfl, rfl, rfl, ?_, ?_,
          fun _ _ _ => ⟨rfl, rfl⟩, ?_⟩
        · intro h; simp at h
        · intro _ h; simp at h
        · intro _ _ h; simp at h
      | false =>
        simp only [Bool.false_eq_true, if_false, State.log, hi3]
        rw [bucket_lock_loop_succ, if_neg (by simp), bucket_idx_ok _ (by omega) (by omega)]
        simp only [hc3]
        refine ⟨_, rfl, by simp only []; omega, by simp only []; omega, rfl, rfl, rfl, ?_, ?_, ?_,
          fun _ _ _ => ⟨rfl, rfl⟩⟩
        · intro h; simp at h
        · intro _ h; simp at h
        · intro _ _ h; simp at h

/-- Claim C16, witness: preferred arena 62 when only the trylock on arena 0
succeeds; the probes wrap around from 63 to 0. -/
theorem bucket_lock_probes_witness :
    arena_62_state.preferred_bucket = 62 ∧ (0 : Int) ≤ 62 ∧ (62 : Int) < 64 ∧
    ∃ s', bucket_lock 0 (fun i => decide (i = 0)) arena_62_state = some s' ∧
      0 ≤ s'.preferred_bucket ∧ s'.preferred_bucket < 64 ∧
      s'.mem = arena_62_state.mem ∧ s'.buckets = arena_62_state.buckets ∧
      s'.free_pages = arena_62_state.free_pages ∧
      ((fun i => decide (i = 0)) (62 : Int) = true →
        s'.preferred_bucket = 62 ∧
        s'.trace = Event.bucket_trylock 62 true :: arena_62_state.trace) ∧
      ((fun i => decide (i = 0)) (62 : Int) = false →
        (fun i => decide (i = 0)) (((62 : Int) + 1) % 64) = true →
        s'.preferred_bucket = (62 + 1) % 64 ∧
        s'.trace = Event.bucket_trylock ((62 + 1) % 64) true ::
          Event.bucket_trylock 62 false :: arena_62_state.trace) ∧
      ((fun i => decide (i = 0)) (62 : Int) = false →
        (fun i => decide (i = 0)) (((62 : Int) + 1) % 64) = false →
        (fun i => decide (i = 0)) (((62 : Int) + 2) % 64) = true →
        s'.preferred_bucket = (62 + 2) % 64 ∧
        s'.trace = Event.bucket_trylock ((62 + 2) % 64) true ::
          Event.bucket_trylock ((62 + 1) % 64) false ::
          Event.bucket_trylock 62 false :: arena_62_state.trace) ∧
      ((fun i => decide (i = 0)) (62 : Int) = false →
        (fun i => decide (i = 0)) (((62 : Int) + 1) % 64) = false →
        (fun i => decide (i = 0)) (((62 : Int) + 2) % 64) = false →
        s'.preferred_bucket = (62 + 3) % 64 ∧
        s'.trace = Event.bucket_lock ((62 + 3) % 64) ::
          Event.bucket_trylock ((62 + 2) % 64) false ::
          Event.bucket_trylock ((62 + 1) % 64) false ::
          Event.bucket_trylock 62 false :: arena_62_state.trace) :=
  ⟨rfl, by decide, by decide,
    bucket_lock_probes 0 (fun i => decide (i = 0)) arena_62_state 62 rfl (by decide) (by decide)⟩

/-! ## The pool stays empty (C19) -/

/-- On the empty pool `global_request_page` can only hand out a fresh mapping
from the Page Source, and the pool stays empty. -/
theorem global_request_page_empty (s : State) (h0 : s.free_pages.head = 0) (p : Nat)
    (s1 : State) (h : global_request_page s = some (p, s1)) :
    p = s.brk ∧ s.brk ≠ 0 ∧ s1.free_pages.head = 0 ∧
      s1.brk = s.brk + MEM_PAGE_PAGES * PAGE_SIZE ∧
      s1.trace = Event.pool_unlock :: Event.map_pages MEM_PAGE_PAGES :: Event.pool_lock ::
        Event.global_request_page :: s.trace := by
  unfold global_request_page at h
  simp only [State.log, h0, ne_eq, not_true_eq_false, if_false, map_pages] at h
  by_cases hb : s.brk = 0
  · simp [hb] at h
  · simp only [hb, if_false, Option.some.injEq, Prod.mk.injEq] at h
    obtain ⟨h1, h2⟩ := h
    subst h2
    exact ⟨h1.symm, hb, h0, rfl, rfl⟩

/-- A sequence of pool calls started on an empty pool ends on an empty pool,
and the Page Source has only moved upwards. -/
theorem run_pool_empty :
    ∀ (calls : List PoolCall) (s s' : State), s.free_pages.head = 0 →
      run_pool calls s = some s' → s'.free_pages.head = 0 ∧ s.brk ≤ s'.brk := by
  intro calls
  induction calls with
  | nil =>
    intro s s' h0 h
    simp only [run_pool, Option.some.injEq] at h
    subst h
    exact ⟨h0, le_refl _⟩
  | cons c cs ih =>
    intro s s' h0 h
    cases c with
    | request_page =>
      simp only [run_pool] at h
      cases hg : global_request_page s with
      | none => rw [hg] at h; simp at h
      | some r =>
        obtain ⟨p, s1⟩ := r
        rw [hg] at h
        obtain ⟨_, _, g3, g4, _⟩ := global_request_page_empty s h0 p s1 hg
        obtain ⟨i1, i2⟩ := ih s1 s' g3 h
        exact ⟨i1, by omega⟩
    | request_pages fuel pages =>
      simp only [run_pool] at h
      obtain ⟨s1, g1, g2, _, g4⟩ := global_request_pages_null fuel pages s h0
      rw [g1] at h
      obtain ⟨i1, i2⟩ := ih s1 s' g4 h
      exact ⟨i1, by omega⟩
    | return_page element pages =>
      simp only [run_pool] at h
      have g1 := global_return_page_head element pages s (Or.inl h0)
      obtain ⟨i1, i2⟩ := ih (global_return_page element pages s) s' (by rw [g1]; exact h0) h
      exact ⟨i1, i2⟩

/-- Claim C19: in every state reached from the initial state by a sequence of
`global_request_page`, `global_request_pages` and `global_return_page` calls,
`free_pages.head` is still null.  Hence `global_request_page` there hands out
a fresh mapping of the Page Source (the trace shows `map_pages(5)`, the result
is the address the Page Source was at), `global_request_pages` returns null,
and neither hands out a region of the pool's list. -/
theorem pool_never_holds (base : Nat) (calls : List PoolCall) (s' : State)
    (h : run_pool calls (init_state base) = some s') :
    s'.free_pages.head = 0 ∧
    (∀ p s1, global_request_page s' = some (p, s1) →
      p = s'.brk ∧ s1.free_pages.head = 0 ∧
      s1.trace = Event.pool_unlock :: Event.map_pages MEM_PAGE_PAGES :: Event.pool_lock ::
        Event.global_request_page :: s'.trace) ∧
    (base ≠ 0 → ∃ s1, global_request_page s' = some (s'.brk, s1)) ∧
    (∀ fuel pages, ∃ s1, global_request_pages fuel pages s' = some (0, s1) ∧
      s1.brk = s'.brk ∧ s1.free_pages.head = 0) ∧
    (∀ element pages, (global_return_page element pages s').free_pages.head = 0) := by
  obtain ⟨h0, hbrk⟩ := run_pool_empty calls (init_state base) s' rfl h
  have hb : (init_state base).brk = base := rfl
  refine ⟨h0, ?_, ?_, ?_, ?_⟩
  · intro p s1 hg
    obtain ⟨g1, _, g3, _, g5⟩ := global_request_page_empty s' h0 p s1 hg
    exact ⟨g1, g3, g5⟩
  · intro hbase
    have hne : s'.brk ≠ 0 := by omega
    unfold global_request_page
    simp only [State.log, h0, ne_eq, not_true_eq_false, if_false, map_pages, hne]
    exact ⟨_, rfl⟩
  · intro fuel pages
    obtain ⟨s1, g1, g2, _, g4⟩ := global_request_pages_null fuel pages s' h0
    exact ⟨s1, g1, g2, g4⟩
  · intro element pages
    rw [global_return_page_head element pages s' (Or.inl h0)]
    exact h0

/-- Claim C19, witness: a slab is requested, returned, and a large region is
requested and returned. -/
theorem pool_never_holds_witness :
    ∃ s', run_pool [PoolCall.request_page, PoolCall.return_page 65536 5,
        PoolCall.request_pages 1 10, PoolCall.return_page 131072 10] (init_state 65536) =
          some s' ∧
      s'.free_pages.head = 0 ∧
      (∀ p s1, global_request_page s' = some (p, s1) →
        p = s'.brk ∧ s1.free_pages.head = 0 ∧
        s1.trace = Event.pool_unlock :: Event.map_pages MEM_PAGE_PAGES :: Event.pool_lock ::
          Event.global_request_page :: s'.trace) ∧
      (65536 ≠ 0 → ∃ s1, global_request_page s' = some (s'.brk, s1)) ∧
      (∀ fuel pages, ∃ s1, global_request_pages fuel pages s' = some (0, s1) ∧
        s1.brk = s'.brk ∧ s1.free_pages.head = 0) ∧
      (∀ element pages, (global_return_page element pages s').free_pages.head = 0) :=
  ⟨_, rfl, pool_never_holds 65536 [PoolCall.request_page, PoolCall.return_page 65536 5,
    PoolCall.request_pages 1 10, PoolCall.return_page 131072 10] _ rfl⟩

/-! ## The slab walk in full (C10, C20) -/

theorem walk_visits_succ (m : Mem) (bsize : Int) (size stop fuel wt : Nat) :
    walk_visits m bsize size stop (fuel + 1) wt =
      if wt ≤ stop then
        wt ::
          (if m wt < bsize then walk_visits m bsize size stop fuel (wt + size)
           else if m (wt + 2) ≠ 0 then
             match shl1 (m wt) with
             | none => []
             | some off => walk_visits m bsize size stop fuel (wt + off)
           else [])
      else [] := rfl

/-- Block starts of a tiled region are multiples of their own size when the
region is aligned to its size. -/
theorem block_at_aligned (m : Mem) (pb : Int) (b : Nat) :
    ∀ (c o q cq : Nat), tiled m pb b c o = true → block_at m b c o q = true →
      o % 2 ^ c = 0 → m (b + q) = (cq : Int) → q % 2 ^ cq = 0 := by
  intro c
  induction c with
  | zero => intro o q cq h; simp [tiled] at h
  | succ c ih =>
    intro o q cq h hq ho hcq
    have h2c : 2 ^ (c + 1) = 2 ^ c * 2 := by ring
    have hdvd : 2 ^ c ∣ o := by
      have : 2 ^ (c + 1) ∣ o := Nat.dvd_of_mod_eq_zero ho
      exact Dvd.dvd.trans ⟨2, h2c⟩ this
    have hfull := h
    unfold tiled at h
    simp only [Bool.or_eq_true, Bool.and_eq_true, decide_eq_true_eq] at h
    rcases h with ⟨⟨h1, _⟩, _⟩ | ⟨hl, hr⟩
    · unfold block_at at hq
      rw [if_pos h1] at hq
      simp only [decide_eq_true_eq] at hq
      subst hq
      have : cq = c + 1 := by rw [h1] at hcq; exact_mod_cast hcq.symm
      subst this
      exact ho
    · rw [block_at_split m pb b c o q hl] at hq
      simp only [Bool.or_eq_true] at hq
      rcases hq with hq | hq
      · exact ih o q cq hl hq (Nat.mod_eq_zero_of_dvd hdvd) hcq
      · exact ih (o + 2 ^ c) q cq hr hq
          (Nat.mod_eq_zero_of_dvd (Dvd.dvd.add hdvd (dvd_refl _))) hcq
/-- The walk of `bucket_get` over a tiled region that starts on a block header,
in full: either it stops at a free block of the tiling with class `t` at
least, or the region has no such block and the walk leaves it at its end after
at most `2 ^ (c - t)` steps; in both cases every header it reads is the start of
a block of the tiling. -/
theorem walk_region_full (m : Mem) (pb : Int) (b t : Nat) :
    ∀ (c o : Nat), tiled m pb b c o = true → t ≤ c → o + 2 ^ c ≤ 2 ^ 14 →
      (∃ (q : Nat) (L : List Nat), block_at m b c o q = true ∧ (t : Int) ≤ m (b + q) ∧
          m (b + q + 2) = 0 ∧
          (∀ p ∈ L, ∃ q', p = b + q' ∧ block_at m b c o q' = true) ∧
          ∀ f, 2 ^ (c - t) ≤ f →
            walk_slab m t (2 ^ t) (b + 2 ^ 14 - 2 ^ t) f (b + o) = some (some (b + q)) ∧
            walk_visits m t (2 ^ t) (b + 2 ^ 14 - 2 ^ t) f (b + o) = L)
      ∨ ((∀ q, block_at m b c o q = true → ¬ ((t : Int) ≤ m (b + q) ∧ m (b + q + 2) = 0)) ∧
          ∃ (k : Nat) (L : List Nat), 1 ≤ k ∧ k ≤ 2 ^ (c - t) ∧
            (∀ p ∈ L, ∃ q', p = b + q' ∧ block_at m b c o q' = true) ∧
            ∀ f, walk_slab m t (2 ^ t) (b + 2 ^ 14 - 2 ^ t) (f + k) (b + o) =
                walk_slab m t (2 ^ t) (b + 2 ^ 14 - 2 ^ t) f (b + o + 2 ^ c) ∧
              walk_visits m t (2 ^ t) (b + 2 ^ 14 - 2 ^ t) (f + k) (b + o) =
                L ++ walk_visits m t (2 ^ t) (b + 2 ^ 14 - 2 ^ t) f (b + o + 2 ^ c)) := by
  intro c
  induction c with
  | zero => intro o h; simp [tiled] at h
  | succ c ih =>
    intro o h htc hb
    have hpos : 1 ≤ 2 ^ (c + 1 - t) := Nat.one_le_two_pow
    have hsz : 2 ^ t ≤ 2 ^ (c + 1) := Nat.pow_le_pow_right (by norm_num) htc
    have hstop : b + o ≤ b + 2 ^ 14 - 2 ^ t := by omega
    have h2c : 2 ^ (c + 1) = 2 ^ c + 2 ^ c := by ring
    have hpc : 0 < 2 ^ c := by positivity
    have hc14 : c + 1 ≤ 14 := by
      by_contra hc
      have : 2 ^ 15 ≤ 2 ^ (c + 1) := Nat.pow_le_pow_right (by norm_num) (by omega)
      omega
    have hhead := tiled_block_head m pb b (c + 1) o h
    have hfull := h
    unfold tiled at h
    simp only [Bool.or_eq_true, Bool.and_eq_true, decide_eq_true_eq] at h
    rcases h with ⟨⟨h1, h2⟩, _⟩ | ⟨hl, hr⟩
    · -- a single block of class c + 1
      have hone : ∀ q, block_at m b (c + 1) o q = true → q = o := by
        intro q hq
        unfold block_at at hq
        rw [if_pos h1] at hq
        simpa using hq
      by_cases hu : m (b + o + 2) = 0
      · left
        refine ⟨o, [b + o], hhead, by rw [h1]; exact_mod_cast htc, hu, ?_, ?_⟩
        · intro p hp
          simp only [List.mem_singleton] at hp
          exact ⟨o, hp, hhead⟩
        · intro f hf
          obtain ⟨f', rfl⟩ : ∃ f', f = f' + 1 := ⟨f - 1, by omega⟩
          constructor
          · rw [walk_slab_succ, if_pos hstop, if_neg (by rw [h1]; omega), if_neg (by simp [hu])]
          · rw [walk_visits_succ, if_pos hstop, if_neg (by rw [h1]; omega),
              if_neg (by simp [hu])]
      · right
        refine ⟨?_, 1, [b + o], le_refl _, hpos, ?_, ?_⟩
        · intro q hq
          rw [hone q hq]
          exact fun h => hu h.2
        · intro p hp
          simp only [List.mem_singleton] at hp
          exact ⟨o, hp, hhead⟩
        · intro f
          constructor
          · rw [walk_slab_succ, if_pos hstop, if_neg (by rw [h1]; omega), if_pos hu, h1,
              shl1_nat _ (by omega)]
          · rw [walk_visits_succ, if_pos hstop, if_neg (by rw [h1]; omega), if_pos hu, h1,
              shl1_nat _ (by omega)]
            rfl
    · -- two tiled halves
      have hsplit : ∀ q, block_at m b (c + 1) o q =
          (block_at m b c o q || block_at m b c (o + 2 ^ c) q) :=
        fun q => block_at_split m pb b c o q hl
      have hinl : ∀ q, block_at m b c o q = true → block_at m b (c + 1) o q = true := by
        intro q hq; rw [hsplit, hq]; rfl
      have hinr : ∀ q, block_at m b c (o + 2 ^ c) q = true →
          block_at m b (c + 1) o q = true := by
        intro q hq; rw [hsplit, hq]; simp
      by_cases htc' : t ≤ c
      · have hN : 2 ^ (c + 1 - t) = 2 ^ (c - t) + 2 ^ (c - t) := by
          have : c + 1 - t = (c - t) + 1 := by omega
          rw [this]; ring
        rcases ih o hl htc' (by omega) with ⟨q, L, a1, a2, a3, a4, a5⟩ |
            ⟨n1, k1, L1, k1a, k1b, k1c, k1d⟩
        · left
          refine ⟨q, L, hinl q a1, a2, a3, ?_, fun f hf => a5 f (by omega)⟩
          intro p hp
          obtain ⟨q', e1, e2⟩ := a4 p hp
          exact ⟨q', e1, hinl q' e2⟩
        · rcases ih (o + 2 ^ c) hr htc' (by omega) with ⟨q, L, a1, a2, a3, a4, a5⟩ |
              ⟨n2, k2, L2, k2a, k2b, k2c, k2d⟩
          · left
            refine ⟨q, L1 ++ L, hinr q a1, a2, a3, ?_, ?_⟩
            · intro p hp
              rcases List.mem_append.mp hp with hp | hp
              · obtain ⟨q', e1, e2⟩ := k1c p hp
                exact ⟨q', e1, hinl q' e2⟩
              · obtain ⟨q', e1, e2⟩ := a4 p hp
                exact ⟨q', e1, hinr q' e2⟩
            · intro f hf
              obtain ⟨f', rfl⟩ : ∃ f', f = f' + k1 := ⟨f - k1, by omega⟩
              have h8 := a5 f' (by omega)
              rw [← Nat.add_assoc] at h8
              rw [(k1d f').1, (k1d f').2, h8.1, h8.2]
              exact ⟨rfl, rfl⟩
          · right
            refine ⟨?_, k2 + k1, L1 ++ L2, by omega, by omega, ?_, ?_⟩
            · intro q hq
              rw [hsplit] at hq
              simp only [Bool.or_eq_true] at hq
              rcases hq with hq | hq
              · exact n1 q hq
              · exact n2 q hq
            · intro p hp
              rcases List.mem_append.mp hp with hp | hp
              · obtain ⟨q', e1, e2⟩ := k1c p hp
                exact ⟨q', e1, hinl q' e2⟩
              · obtain ⟨q', e1, e2⟩ := k2c p hp
                exact ⟨q', e1, hinr q' e2⟩
            · intro f
              have h9 := k2d f
              rw [← Nat.add_assoc] at h9
              have hend : b + o + 2 ^ c + 2 ^ c = b + o + 2 ^ (c + 1) := by omega
              rw [← Nat.add_assoc, (k1d (f + k2)).1, (k1d (f + k2)).2, h9.1, h9.2, hend,
                List.append_assoc]
              exact ⟨rfl, rfl⟩
      · have ht : t = c + 1 := by omega
        obtain ⟨ce, c1, _, c3, _⟩ := tiled_head m pb b c o hl
        right
        refine ⟨?_, 1, [b + o], le_refl _, hpos, ?_, ?_⟩
        · intro q hq
          rw [hsplit] at hq
          simp only [Bool.or_eq_true] at hq
          rcases hq with hq | hq
          · obtain ⟨_, cq, r2, _, r4, _⟩ := block_at_range m pb b c o q hl hq
            rw [r2]; intro h; omega
          · obtain ⟨_, cq, r2, _, r4, _⟩ := block_at_range m pb b c (o + 2 ^ c) q hr hq
            rw [r2]; intro h; omega
        · intro p hp
          simp only [List.mem_singleton] at hp
          exact ⟨o, hp, hhead⟩
        · intro f
          constructor
          · rw [walk_slab_succ, if_pos hstop, if_pos (by rw [c1]; omega), ht, Nat.add_assoc]
          · rw [walk_visits_succ, if_pos hstop, if_pos (by rw [c1]; omega), ht, Nat.add_assoc]
            rfl
/-- The walk over a whole tiled slab: it reads block headers of the tiling
only, terminates, and stops at a free block of class `t` at least exactly when
the slab has one. -/
theorem walk_whole_slab_full (m : Mem) (pb : Int) (b t : Nat) (ht : t ≤ 14)
    (h : tiled m pb b 14 0 = true) :
    (∀ p ∈ walk_visits m t (2 ^ t) (b + 2 ^ 14 - 2 ^ t) (2 ^ 14 + 1) b,
      ∃ q, p = b + q ∧ block_at m b 14 0 q = true) ∧
    ((∃ q : Nat, block_at m b 14 0 q = true ∧ (t : Int) ≤ m (b + q) ∧ m (b + q + 2) = 0 ∧
        walk_slab m t (2 ^ t) (b + 2 ^ 14 - 2 ^ t) (2 ^ 14 + 1) b = some (some (b + q)))
      ∨ ((∀ q, block_at m b 14 0 q = true → ¬ ((t : Int) ≤ m (b + q) ∧ m (b + q + 2) = 0)) ∧
        walk_slab m t (2 ^ t) (b + 2 ^ 14 - 2 ^ t) (2 ^ 14 + 1) b = some none)) := by
  have hN : 2 ^ (14 - t) ≤ 2 ^ 14 := Nat.pow_le_pow_right (by norm_num) (by omega)
  have hpt : 0 < 2 ^ t := by positivity
  have htt : 2 ^ t ≤ 2 ^ 14 := Nat.pow_le_pow_right (by norm_num) ht
  rcases walk_region_full m pb b t 14 0 h ht (by omega) with ⟨q, L, a1, a2, a3, a4, a5⟩ |
      ⟨n1, k, L, k1, k2, k3, k4⟩
  · have h5 := a5 (2 ^ 14 + 1) (by omega)
    simp only [Nat.add_zero] at h5
    refine ⟨?_, Or.inl ⟨q, a1, a2, a3, h5.1⟩⟩
    rw [h5.2]
    exact a4
  · obtain ⟨f, hf⟩ : ∃ f, 2 ^ 14 + 1 = (f + 1) + k := ⟨2 ^ 14 - k, by omega⟩
    have h3 := k4 (f + 1)
    simp only [Nat.add_zero] at h3
    refine ⟨?_, Or.inr ⟨n1, ?_⟩⟩
    · rw [hf, h3.2, walk_visits_succ, if_neg (by omega), List.append_nil]
      exact k3
    · rw [hf, h3.1, walk_slab_succ, if_neg (by omega)]

/-- The state `bucket_get` returns once the walk has stopped at a free block
`e` of class `ce ≥ t`: the header of `e` has class `t` and is used, nothing
outside the block has changed. -/
theorem bucket_get_loop_found_frame (t : Nat) (ht : 2 ≤ t) (s : State)
    (working e ce fuel : Nat) (hw : working ≠ 0)
    (hwalk : walk_slab s.mem t (2 ^ t) (working + 16 + 2 ^ 14 - 2 ^ t) (2 ^ 14 + 1)
      (working + 16) = some (some e))
    (hce : s.mem e = (ce : Int)) (h1 : t ≤ ce) (h2 : ce ≤ 14) :
    ∃ s', bucket_get_loop t (2 ^ t) (fuel + 1) working s = some (e, s') ∧
      s'.mem e = (t : Int) ∧ s'.mem (e + 1) = s.mem (e + 1) ∧ s'.mem (e + 2) = 1 ∧
      (∀ x, x < e ∨ e + 2 ^ ce ≤ x → s'.mem x = s.mem x) ∧
      s'.free_pages = s.free_pages ∧ s'.brk = s.brk ∧
      s'.preferred_bucket = s.preferred_bucket ∧ s'.buckets = s.buckets ∧
      s'.trace = s.trace := by
  have hcn : t + (ce - t) = ce := by omega
  obtain ⟨m', e1, e2, e3, _, _, _, _, e8⟩ := split_tree_r_full t ht e (ce - t) s.mem
    (by rw [hce, hcn]) (by omega)
  rw [hcn] at e8
  have hn : (s.mem e - (t : Int)).toNat = ce - t := by rw [hce]; omega
  have h4 : 4 ≤ 2 ^ ce := by
    calc 4 = 2 ^ 2 := by norm_num
      _ ≤ 2 ^ ce := Nat.pow_le_pow_right (by norm_num) (by omega)
  rw [bucket_get_loop_succ, if_neg hw]
  simp only [MEM_PAGE_HEADER_SIZE, hwalk, hn, e1, e2, if_true]
  refine ⟨_, rfl, ?_, ?_, ?_, ?_, rfl, rfl, rfl, rfl, rfl⟩
  · simp only [State.setMem]; rw [wr_other _ _ _ _ (by omega), e2]
  · simp only [State.setMem]; rw [wr_other _ _ _ _ (by omega), e3]
  · simp only [State.setMem, wr_same]
  · intro x hx
    simp only [State.setMem]
    rw [wr_other _ _ _ _ (by omega), e8 x hx]
/-- The slab `global_request_page` hands out when the pool can supply one:
its `next` is null, one request is recorded, and on an empty pool nothing
outside the fresh mapping changes. -/
theorem global_request_page_link (s : State) (slabs : List Nat) (hp : pool_ok s slabs) :
    ∃ s1, global_request_page s = some (next_slab s, s1) ∧
      s1.mem (next_slab s) = 0 ∧
      pool_requests s1.trace = pool_requests s.trace + 1 ∧
      (s.free_pages.head = 0 →
        (∀ x, x < s.brk ∨ s.brk + 20480 ≤ x → s1.mem x = s.mem x) ∧
        s1.free_pages.head = 0 ∧ s1.brk = s.brk + 20480) := by
  unfold next_slab
  rcases hp with ⟨h0, hb, hall⟩ | ⟨h0, h5, hall⟩
  · rw [if_pos h0]
    unfold global_request_page
    simp only [State.log, h0, ne_eq, not_true_eq_false, if_false, map_pages, hb]
    refine ⟨_, rfl, ?_, ?_, fun _ => ⟨?_, rfl, rfl⟩⟩
    · simp [wr]
    · simp [pool_requests]
    · intro x hx
      have h20 : MEM_PAGE_PAGES * PAGE_SIZE = 20480 := rfl
      simp only [wr, h20]
      rw [if_neg (by omega), if_neg (by omega), if_neg (by omega), if_neg (by omega),
        if_neg (by omega), if_neg (by omega)]
  · rw [if_neg h0]
    unfold global_request_page
    simp only [State.log, h0, ne_eq, not_false_eq_true, if_true, ge_iff_le, h5]
    by_cases hgt : s.mem (s.free_pages.head + 16) > (MEM_PAGE_PAGES : Int)
    · simp only [hgt, if_true, State.setMem]
      refine ⟨_, rfl, ?_, ?_, fun h => h.elim⟩
      · simp [wr]
      · simp only [remove_free_page, State.setMem]
        split <;> split <;> simp [pool_requests]
    · simp only [hgt, if_false]
      refine ⟨_, rfl, ?_, ?_, fun h => h.elim⟩
      · simp [wr]
      · simp only [remove_free_page, State.setMem]
        split <;> split <;> simp [pool_requests]
/-- The header of a block of a tiled region carries the arena index. -/
theorem block_at_bucket (m : Mem) (pb : Int) (b : Nat) :
    ∀ (c o q : Nat), tiled m pb b c o = true → block_at m b c o q = true →
      m (b + q + 1) = pb := by
  intro c
  induction c with
  | zero => intro o q h; simp [tiled] at h
  | succ c ih =>
    intro o q h hq
    unfold tiled at h
    simp only [Bool.or_eq_true, Bool.and_eq_true, decide_eq_true_eq] at h
    unfold block_at at hq
    rcases h with ⟨⟨h1, _⟩, h3⟩ | ⟨hl, hr⟩
    · rw [if_pos h1] at hq
      simp only [decide_eq_true_eq] at hq
      subst hq
      exact h3
    · obtain ⟨ce, c1, _, c3, _⟩ := tiled_head m pb b c o hl
      rw [if_neg (by rw [c1]; omega)] at hq
      simp only [Bool.or_eq_true] at hq
      rcases hq with hq | hq
      · exact ih o q hl hq
      · exact ih (o + 2 ^ c) q hr hq

/-- The slab loop of `bucket_get` on a well-formed list of slabs, in full: it
returns a free block of class `t` at least of one of the slabs, leaving the
pool alone, or, when no slab has such a block, the root of one slab newly
requested from the pool, which it has linked behind the last slab. -/
theorem bucket_get_loop_full (t : Nat) (ht : 2 ≤ t) (ht' : t ≤ 14) (s : State) :
    ∀ (slabs : List Nat) (working : Nat), working ≠ 0 → slab_chain s.mem working slabs →
      (∀ S ∈ slabs, tiled s.mem s.preferred_bucket (S + 16) 14 0 = true) →
      (no_free_block s slabs t → pool_ok s slabs) →
      ∀ fuel, slabs.length + 1 ≤ fuel →
        ∃ e s', bucket_get_loop t (2 ^ t) fuel working s = some (e, s') ∧
          s'.buckets = s.buckets ∧ s'.preferred_bucket = s.preferred_bucket ∧
          s'.mem e = (t : Int) ∧ s'.mem (e + 1) = s.preferred_bucket ∧ s'.mem (e + 2) = 1 ∧
          ((∃ S ∈ slabs, ∃ q cq : Nat, e = S + 16 + q ∧
              block_at s.mem (S + 16) 14 0 q = true ∧
              s.mem e = (cq : Int) ∧ t ≤ cq ∧ cq ≤ 14 ∧ s.mem (e + 2) = 0 ∧
              s'.free_pages = s.free_pages ∧ s'.brk = s.brk ∧ s'.trace = s.trace ∧
              (∀ x, x < e ∨ e + 2 ^ cq ≤ x → s'.mem x = s.mem x))
            ∨ (no_free_block s slabs t ∧
                e = next_slab s + 16 ∧
                ∃ s1 last, global_request_page s = some (next_slab s, s1) ∧
                  slabs.getLast? = some last ∧
                  s'.mem last = (next_slab s : Int) ∧ s'.mem (next_slab s) = 0 ∧
                  s'.mem (next_slab s + 8) = (last : Int) ∧
                  s'.free_pages = s1.free_pages ∧ s'.brk = s1.brk ∧ s'.trace = s1.trace ∧
                  (∀ x, x ≠ last → (x < next_slab s ∨ next_slab s + 20480 ≤ x) →
                    s'.mem x = s1.mem x))) := by
  intro slabs
  induction slabs with
  | nil =>
    intro working hw hc
    simp only [slab_chain] at hc
    exact absurd hc hw
  | cons S rest ih =>
    intro working hw hc hall hcond fuel hfuel
    simp only [slab_chain] at hc
    obtain ⟨rfl, hS, hnext, hrest⟩ := hc
    obtain ⟨f, rfl⟩ : ∃ f, fuel = f + 1 := ⟨fuel - 1, by simp at hfuel; omega⟩
    have hSok := hall working (List.mem_cons_self _ _)
    rcases (walk_whole_slab_full s.mem s.preferred_bucket (working + 16) t ht' hSok).2 with
      ⟨q, a1, a2, a3, a4⟩ | ⟨hno, hnone⟩
    · -- a free block of this slab
      obtain ⟨_, cq, c1, c2, c3, _⟩ :=
        block_at_range s.mem s.preferred_bucket (working + 16) 14 0 q hSok a1
      have hcq : t ≤ cq := by rw [c1] at a2; omega
      obtain ⟨s', r1, r2, r3, r4, r5, r6, r7, r8, r9, r10⟩ :=
        bucket_get_loop_found_frame t ht s working (working + 16 + q) cq f hw a4 c1 hcq c3
      have hbk := block_at_bucket s.mem s.preferred_bucket (working + 16) 14 0 q hSok a1
      exact ⟨_, s', r1, r9, r8, r2, by rw [r3, hbk], r4,
        Or.inl ⟨working, List.mem_cons_self _ _, q, cq, rfl, a1, c1, hcq,
          c3, a3, r6, r7, r10, r5⟩⟩
    · rw [bucket_get_loop_succ, if_neg hw]
      simp only [MEM_PAGE_HEADER_SIZE, hnone]
      by_cases hz : s.mem working = 0
      · -- last slab: request a new one
        rw [if_pos hz]
        have hrest0 : rest = [] := by
          cases rest with
          | nil => rfl
          | cons S2 rest2 =>
            simp only [slab_chain] at hrest
            exfalso
            apply hrest.2.1
            rw [← hrest.1]
            simp [ptr, hz]
        subst hrest0
        have hnf : no_free_block s [working] t := by
          intro S hSm q hq
          simp only [List.mem_singleton] at hSm
          subst hSm
          exact hno q hq
        have hpool := hcond hnf
        obtain ⟨s1, g1, g0, g2, g3, g4, g5, g6, g7⟩ :=
          global_request_page_ok s [working] hpool
        obtain ⟨s1', l1, l2, _⟩ := global_request_page_link s [working] hpool
        have hs1 : s1' = s1 := by
          rw [g1] at l1
          simp only [Option.some.injEq, Prod.mk.injEq, true_and] at l1
          exact l1.symm
        subst hs1
        have hlt := g4 working (List.mem_cons_self _ _)
        generalize next_slab s = P at g1 g0 g2 g3 hlt l2 ⊢
        simp only [g1]
        have p1 : ptr (wr s1'.mem working (P : Int)) working = P := by
          simp [ptr]
        have p2 : ptr (wr (wr s1'.mem working (P : Int)) (P + 17) s1'.preferred_bucket)
            working = P := by
          simp only [ptr]; rw [wr_other _ _ _ _ (by omega), wr_same]; simp
        have p3 : ptr (wr (wr (wr s1'.mem working (P : Int)) (P + 17) s1'.preferred_bucket)
            (P + 8) (working : Int)) working = P := by
          simp only [ptr]
          rw [wr_other _ _ _ _ (by omega), wr_other _ _ _ _ (by omega), wr_same]; simp
        rw [p1, p2, p3]
        obtain ⟨f', rfl⟩ : ∃ f', f = f' + 1 := ⟨f - 1, by simp at hfuel; omega⟩
        have hwalk : walk_slab (s1'.setMem (wr (wr (wr s1'.mem working (P : Int)) (P + 17)
            s1'.preferred_bucket) (P + 8) (working : Int))).mem t (2 ^ t)
            (P + 16 + 2 ^ 14 - 2 ^ t) (2 ^ 14 + 1) (P + 16) = some (some (P + 16)) := by
          have htt : 2 ^ t ≤ 2 ^ 14 := Nat.pow_le_pow_right (by norm_num) ht'
          have h14 : (s1'.setMem (wr (wr (wr s1'.mem working (P : Int)) (P + 17)
              s1'.preferred_bucket) (P + 8) (working : Int))).mem (P + 16) = 14 := by
            simp only [State.setMem]
            rw [wr_other _ _ _ _ (by omega), wr_other _ _ _ _ (by omega),
              wr_other _ _ _ _ (by omega), g2]
          have hu : (s1'.setMem (wr (wr (wr s1'.mem working (P : Int)) (P + 17)
              s1'.preferred_bucket) (P + 8) (working : Int))).mem (P + 16 + 2) = 0 := by
            simp only [State.setMem]
            rw [wr_other _ _ _ _ (by omega), wr_other _ _ _ _ (by omega),
              wr_other _ _ _ _ (by omega), g3]
          rw [walk_slab_succ, if_pos (by omega), if_neg (by rw [h14]; omega),
            if_neg (by simp [hu])]
        obtain ⟨s', r1, r2, r3, r4, r5, r6, r7, r8, r9, r10⟩ := bucket_get_loop_found_frame t ht
          (s1'.setMem (wr (wr (wr s1'.mem working (P : Int)) (P + 17) s1'.preferred_bucket)
            (P + 8) (working : Int))) P (P + 16) 14 f' g0 hwalk
          (by
            simp only [State.setMem]
            rw [wr_other _ _ _ _ (by omega), wr_other _ _ _ _ (by omega),
              wr_other _ _ _ _ (by omega), g2]; rfl)
          ht' (le_refl _)
        refine ⟨P + 16, s', r1, by rw [r9]; exact g6, by rw [r8]; exact g5, r2, ?_, r4,
          Or.inr ⟨hnf, rfl, s1', working, rfl, rfl, ?_, ?_, ?_, r6, r7, r10, ?_⟩⟩
        · rw [r3]
          simp only [State.setMem]
          rw [wr_other _ _ _ _ (by omega), wr_same, g5]
        · rw [r5 working (by omega)]
          simp only [State.setMem]
          rw [wr_other _ _ _ _ (by omega), wr_other _ _ _ _ (by omega), wr_same]
        · rw [r5 P (by omega)]
          simp only [State.setMem]
          rw [wr_other _ _ _ _ (by omega), wr_other _ _ _ _ (by omega),
            wr_other _ _ _ _ (by omega), l2]
        · rw [r5 (P + 8) (by omega)]
          simp only [State.setMem, wr_same]
        · intro x hx1 hx2
          rw [r5 x (by omega)]
          simp only [State.setMem]
          rw [wr_other _ _ _ _ (by omega), wr_other _ _ _ _ (by omega),
            wr_other _ _ _ _ hx1]
      · -- go on to the next slab
        rw [if_neg hz]
        cases rest with
        | nil =>
          simp only [slab_chain] at hrest
          exfalso
          apply hz
          unfold ptr at hrest
          omega
        | cons S2 rest2 =>
          have hS2 : ptr s.mem working = S2 := by
            simp only [slab_chain] at hrest; exact hrest.1
          have hS2' : S2 ≠ 0 := by
            simp only [slab_chain] at hrest; exact hrest.2.1
          have hup : no_free_block s (S2 :: rest2) t →
              no_free_block s (working :: S2 :: rest2) t := by
            intro n1 S hSm q hq
            rcases List.mem_cons.1 hSm with rfl | hSm'
            · exact hno q hq
            · exact n1 S hSm' q hq
          have hcond' : no_free_block s (S2 :: rest2) t → pool_ok s (S2 :: rest2) := by
            intro n1
            rcases hcond (hup n1) with ⟨q1, q2, q3⟩ | ⟨q1, q2, q3⟩
            · exact Or.inl ⟨q1, q2, fun W hW => q3 W (List.mem_cons_of_mem _ hW)⟩
            · exact Or.inr ⟨q1, q2, fun W hW => q3 W (List.mem_cons_of_mem _ hW)⟩
          obtain ⟨e, s', r1, r2, r3, r4a, r4b, r4c, r4⟩ :=
            ih (ptr s.mem working) (by rw [hS2]; exact hS2')
              hrest (fun S hSm => hall S (List.mem_cons_of_mem _ hSm)) hcond' f
              (by simp at hfuel ⊢; omega)
          refine ⟨e, s', r1, r2, r3, r4a, r4b, r4c, ?_⟩
          rcases r4 with ⟨S, hSm, q⟩ | ⟨n1, n2, s1, last, n3, n4, n5⟩
          · exact Or.inl ⟨S, List.mem_cons_of_mem _ hSm, q⟩
          · refine Or.inr ⟨hup n1, n2, s1, last, n3, ?_, n5⟩
            rw [List.getLast?_cons_cons]; exact n4
/-- The `next` cell of the last slab of a list is null. -/
theorem slab_chain_last (m : Mem) :
    ∀ (slabs : List Nat) (head last : Nat), slab_chain m head slabs →
      slabs.getLast? = some last → m last = 0 := by
  intro slabs
  induction slabs with
  | nil => intro head last _ h; simp at h
  | cons S rest ih =>
    intro head last hc hl
    simp only [slab_chain] at hc
    obtain ⟨_, _, h0, hrest⟩ := hc
    cases rest with
    | nil =>
      simp only [List.getLast?_singleton, Option.some.injEq] at hl
      subst hl
      simp only [slab_chain, ptr] at hrest
      omega
    | cons S2 rest2 =>
      rw [List.getLast?_cons_cons] at hl
      exact ih _ last hrest hl

/-- Linking a slab `P` behind the last slab of a list extends the list by
`P`, when the other `next` cells are unchanged. -/
theorem slab_chain_snoc (m m' : Mem) (P : Nat) (hP : P ≠ 0) (hP0 : m' P = 0) :
    ∀ (slabs : List Nat) (head last : Nat), slab_chain m head slabs →
      slabs.getLast? = some last → m' last = (P : Int) →
      (∀ x ∈ slabs, m x ≠ 0 → m' x = m x) →
      slab_chain m' head (slabs ++ [P]) := by
  intro slabs
  induction slabs with
  | nil => intro head last _ h; simp at h
  | cons S rest ih =>
    intro head last hc hl hlast hfr
    simp only [slab_chain] at hc
    obtain ⟨h1, h2, h3, hrest⟩ := hc
    cases rest with
    | nil =>
      simp only [List.getLast?_singleton, Option.some.injEq] at hl
      subst hl
      simp only [List.singleton_append, slab_chain, ptr, hlast, hP0]
      exact ⟨h1, h2, by omega, by simp, hP, le_refl _, by simp⟩
    | cons S2 rest2 =>
      rw [List.getLast?_cons_cons] at hl
      have hne : m S ≠ 0 := by
        intro h0
        simp only [slab_chain] at hrest
        apply hrest.2.1
        rw [← hrest.1]
        simp [ptr, h0]
      have hS : m' S = m S := hfr S (List.mem_cons_self _ _) hne
      have hi := ih (ptr m S) last hrest hl hlast
        (fun x hx hx0 => hfr x (List.mem_cons_of_mem _ hx) hx0)
      rw [List.cons_append]
      unfold slab_chain
      refine ⟨h1, h2, by rw [hS]; exact h3, ?_⟩
      have : ptr m' S = ptr m S := by simp only [ptr, hS]
      rw [this]
      exact hi

/-- What `bucket_get(t)` does on a well-formed arena, in full.  It returns a
block whose header has class `t`, the arena index and `used` set.  The block
is a free block of class `t` at least of one of the slabs, and then the pool,
the Page Source and the list heads are untouched; or no slab has such a
block, and the block is the root of one slab newly requested from the pool,
which is linked behind the last slab (or made the head of an empty list).
The pool is needed in the second case only. -/
theorem bucket_get_full (s : State) (slabs : List Nat) (t : Nat) (hs : arena_tiled s slabs)
    (hp : no_free_block s slabs t → pool_ok s slabs) (ht : 2 ≤ t) (ht' : t ≤ 14) (fuel : Nat)
    (hfuel : slabs.length + 1 ≤ fuel) :
    ∃ e s', bucket_get fuel t s = some (e, s') ∧
      s'.mem e = (t : Int) ∧ s'.mem (e + 1) = s.preferred_bucket ∧ s'.mem (e + 2) = 1 ∧
      ((∃ S ∈ slabs, ∃ q cq : Nat, e = S + 16 + q ∧ block_at s.mem (S + 16) 14 0 q = true ∧
          s.mem e = (cq : Int) ∧ t ≤ cq ∧ cq ≤ 14 ∧ s.mem (e + 2) = 0 ∧
          pool_requests s'.trace = pool_requests s.trace ∧
          s'.free_pages = s.free_pages ∧ s'.brk = s.brk ∧ s'.buckets = s.buckets)
        ∨ (no_free_block s slabs t ∧
            e = next_slab s + 16 ∧
            pool_requests s'.trace = pool_requests s.trace + 1 ∧
            s'.free_pages.allocated = s.free_pages.allocated + 1 ∧
            s'.mem (next_slab s) = 0 ∧
            (slabs = [] → s'.buckets s.preferred_bucket.toNat = next_slab s) ∧
            (∀ last, slabs.getLast? = some last →
              s'.mem last = (next_slab s : Int) ∧ s'.mem (next_slab s + 8) = (last : Int) ∧
              s'.buckets = s.buckets) ∧
            (s.free_pages.head = 0 ∨ slabs = [] →
              slab_chain s'.mem (s'.buckets s.preferred_bucket.toNat)
                (slabs ++ [next_slab s])))) := by
  obtain ⟨hp0, hp1, hchain, hall⟩ := hs
  have hidx : bucket_idx s.preferred_bucket = some s.preferred_bucket.toNat := by
    unfold bucket_idx; rw [if_pos ⟨hp0, by simpa using hp1⟩]
  unfold bucket_get
  simp only [hidx, MEM_PAGE_TREE_DEF_SIZE, PAGE_BSIZE]
  rw [if_pos (by omega)]
  by_cases hz : s.buckets s.preferred_bucket.toNat = 0
  · -- empty arena: the first slab is requested
    have hnil : slabs = [] := by
      cases slabs with
      | nil => rfl
      | cons S rest =>
        simp only [slab_chain] at hchain
        exact absurd (hchain.1.symm.trans hz) hchain.2.1
    subst hnil
    have hnf : no_free_block s [] t := by intro S hS; simp at hS
    have hpool : pool_ok (s.log (Event.bucket_get (t : Int))) [] := hp hnf
    obtain ⟨s1, g1, g0, g2, g3, g4, g5, g6, g7⟩ :=
      global_request_page_ok (s.log (Event.bucket_get (t : Int))) [] hpool
    obtain ⟨s1', l1, l2, l3, _⟩ :=
      global_request_page_link (s.log (Event.bucket_get (t : Int))) [] hpool
    have hs1 : s1' = s1 := by
      rw [g1] at l1
      simp only [Option.some.injEq, Prod.mk.injEq, true_and] at l1
      exact l1.symm
    subst hs1
    have hns : next_slab (s.log (Event.bucket_get (t : Int))) = next_slab s := rfl
    rw [hns] at g1 g0 g2 g3 l2
    have l3' : pool_requests s1'.trace = pool_requests s.trace + 1 := by
      rw [l3]; simp [State.log, pool_requests]
    simp only [State.log] at g1 g5 g6 g7
    generalize next_slab s = P at g1 g0 g2 g3 l2 ⊢
    simp only [State.log, hz, if_true, g1, Int.toNat_ofNat]
    obtain ⟨f', rfl⟩ : ∃ f', fuel = f' + 1 := ⟨fuel - 1, by omega⟩
    have htt : 2 ^ t ≤ 2 ^ 14 := Nat.pow_le_pow_right (by norm_num) ht'
    obtain ⟨s', r1, r2, r3, r4, r5, r6, r7, r8, r9, r10⟩ := bucket_get_loop_found_frame t ht
      { s1' with mem := wr s1'.mem (P + 17) s1'.preferred_bucket,
                 buckets := fun i => if i = s.preferred_bucket.toNat then P else s1'.buckets i }
      P (P + 16) 14 f' g0
      (by
        simp only []
        rw [walk_slab_succ, if_pos (by omega),
          if_neg (by rw [wr_other _ _ _ _ (by omega), g2]; omega),
          if_neg (by rw [wr_other _ _ _ _ (by omega), g3]; simp)])
      (by simp only []; rw [wr_other _ _ _ _ (by omega), g2]; rfl)
      ht' (le_refl _)
    have hP0 : s'.mem P = 0 := by
      rw [r5 P (by omega)]
      simp only []
      rw [wr_other _ _ _ _ (by omega), l2]
    have hb : s'.buckets s.preferred_bucket.toNat = P := by rw [r9]; simp
    refine ⟨P + 16, s', r1, r2, ?_, r4, Or.inr ⟨hnf, rfl, ?_, ?_, hP0, fun _ => hb, ?_,
      fun _ => ?_⟩⟩
    · rw [r3]; simp only [wr_same, g5]
    · rw [r10]; exact l3'
    · rw [r6]; exact g7
    · intro last hl; simp at hl
    · rw [hb]
      simp only [List.nil_append, slab_chain, ptr, hP0]
      exact ⟨trivial, g0, le_refl _, by simp⟩
  · simp only [State.log, hz, if_false, Int.toNat_ofNat]
    obtain ⟨e, s', r1, r2, r3, r3a, r3b, r3c, r4⟩ := bucket_get_loop_full t ht ht'
      (s.log (Event.bucket_get (t : Int))) slabs _ hz hchain hall hp fuel hfuel
    simp only [State.log] at r1
    refine ⟨e, s', r1, r3a, r3b, r3c, ?_⟩
    rcases r4 with ⟨S, hS, q, cq, a1, a2, a3, a4, a5, a6, a7, a8, a9, a10⟩ |
      ⟨n1, n2, s1, last, n3, n4, n5, n6, n7, n8, n9, n10, n11⟩
    · refine Or.inl ⟨S, hS, q, cq, a1, a2, a3, a4, a5, a6, ?_, a7, a8, r2⟩
      rw [a9]; simp [State.log, pool_requests]
    · have hns : next_slab (s.log (Event.bucket_get (t : Int))) = next_slab s := rfl
      rw [hns] at n2 n3 n5 n6 n7 n11
      have hpool : pool_ok (s.log (Event.bucket_get (t : Int))) slabs := hp n1
      obtain ⟨s1a, g1, g0, g2, g3, g4, g5, g6, g7⟩ :=
        global_request_page_ok (s.log (Event.bucket_get (t : Int))) slabs hpool
      obtain ⟨s1b, l1, l2, l3, l4⟩ :=
        global_request_page_link (s.log (Event.bucket_get (t : Int))) slabs hpool
      rw [hns] at g1 g0 g4 l1
      have e1 : s1a = s1 := by
        rw [g1] at n3
        simp only [Option.some.injEq, Prod.mk.injEq, true_and] at n3
        exact n3
      have e2 : s1b = s1 := by
        rw [l1] at n3
        simp only [Option.some.injEq, Prod.mk.injEq, true_and] at n3
        exact n3
      subst e1
      subst e2
      refine Or.inr ⟨n1, n2, ?_, ?_, n6, ?_, ?_, ?_⟩
      · rw [n10, l3]; simp [State.log, pool_requests]
      · rw [n8]; exact g7
      · intro hnil; rw [hnil] at n4; simp at n4
      · intro last' hl'
        rw [n4] at hl'
        simp only [Option.some.injEq] at hl'
        subst hl'
        exact ⟨n5, n7, r2⟩
      · intro hcase
        rcases hcase with h0 | hnil
        · have hpe : (∀ S ∈ slabs, S + 20480 ≤ s.brk ∨ s.brk + 20480 ≤ S) := by
            rcases hp n1 with ⟨_, _, q3⟩ | ⟨q1, _⟩
            · exact q3
            · exact absurd h0 q1
          have hP : next_slab s = s.brk := by unfold next_slab; rw [if_pos h0]
          have hfr := (l4 h0).1
          simp only [State.log] at hfr
          have hl0 := slab_chain_last s.mem slabs _ last hchain n4
          rw [r2]
          apply slab_chain_snoc s.mem s'.mem (next_slab s) g0 n6 slabs _ last hchain n4 n5
          intro x hx hx0
          have hxb := hpe x hx
          rw [n11 x (by intro h; rw [h] at hx0; exact hx0 hl0) (by rw [hP]; omega)]
          exact hfr x (by omega)
        · rw [hnil] at n4; simp at n4

/-! ## The postcondition of `bucket_get` (C10) -/

/-- Claim C10: on an arena whose slabs are tiled by well-formed buddy blocks,
`bucket_get(t)` with `2 ≤ t ≤ 14` returns, given one unit of fuel per slab and
one more, a block `e` whose header afterwards has `bsize = t`, `bucket` = the
current arena index and `used = true`; `e` is either a block of an existing
slab that was free with class at least `t` before the call (no slab is
requested: `allocated` and `brk` are unchanged), or the root of the slab newly
requested from the pool.  Nothing is assumed of the pool when some slab has a
free block of class `t` at least; when none has, the pool has to be able to
supply a slab apart from the slabs of the arena (`pool_ok`).  A result of the
form `some _` means that the assertion `working_tree->bsize == bsize` held. -/
theorem bucket_get_ok (s : State) (slabs : List Nat) (t : Nat) (hs : arena_tiled s slabs)
    (hp : no_free_block s slabs t → pool_ok s slabs) (ht : 2 ≤ t) (ht' : t ≤ 14) (fuel : Nat)
    (hfuel : slabs.length + 1 ≤ fuel) :
    ∃ e s', bucket_get fuel t s = some (e, s') ∧
      s'.mem e = (t : Int) ∧ s'.mem (e + 1) = s.preferred_bucket ∧ s'.mem (e + 2) = 1 ∧
      ((∃ S ∈ slabs, S + 16 ≤ e ∧ e + 2 ^ t ≤ S + 16 + 2 ^ 14 ∧
          s.mem (e + 2) = 0 ∧ (t : Int) ≤ s.mem e ∧
          s'.free_pages.allocated = s.free_pages.allocated ∧ s'.brk = s.brk)
        ∨ (e = next_slab s + 16 ∧ s'.free_pages.allocated = s.free_pages.allocated + 1)) := by
  obtain ⟨e, s', r1, r2, r3, r4, r5⟩ := bucket_get_full s slabs t hs hp ht ht' fuel hfuel
  refine ⟨e, s', r1, r2, r3, r4, ?_⟩
  rcases r5 with ⟨S, hS, q, cq, a1, a2, a3, a4, _, a6, _, a8, a9, _⟩ | ⟨_, n2, _, n4, _⟩
  · obtain ⟨_, cq', c1, _, _, c4⟩ :=
      block_at_range s.mem s.preferred_bucket (S + 16) 14 0 q (hs.2.2.2 S hS) a2
    have hcc : cq' = cq := by
      subst a1
      rw [c1] at a3
      exact_mod_cast a3
    subst hcc
    have hpw : 2 ^ t ≤ 2 ^ cq' := Nat.pow_le_pow_right (by norm_num) a4
    refine Or.inl ⟨S, hS, by omega, by omega, a6, by rw [a3]; exact_mod_cast a4, by rw [a8], a9⟩
  · exact Or.inr ⟨n2, n4⟩

/-- Claim C10, witness: the arena after `malloc(100)` from the initial state
(one slab at 65536, split down to class 7) and a request for class 5. -/
theorem bucket_get_ok_witness :
    arena_tiled (state_after [Op.malloc 100]) [65536] ∧
    (no_free_block (state_after [Op.malloc 100]) [65536] 5 →
      pool_ok (state_after [Op.malloc 100]) [65536]) ∧
    2 ≤ 5 ∧ 5 ≤ 14 ∧ [65536].length + 1 ≤ 2 ∧
    ∃ e s', bucket_get 2 ((5 : Nat) : Int) (state_after [Op.malloc 100]) = some (e, s') ∧
      s'.mem e = ((5 : Nat) : Int) ∧
      s'.mem (e + 1) = (state_after [Op.malloc 100]).preferred_bucket ∧ s'.mem (e + 2) = 1 ∧
      ((∃ S ∈ [65536], S + 16 ≤ e ∧ e + 2 ^ 5 ≤ S + 16 + 2 ^ 14 ∧
          (state_after [Op.malloc 100]).mem (e + 2) = 0 ∧
          ((5 : Nat) : Int) ≤ (state_after [Op.malloc 100]).mem e ∧
          s'.free_pages.allocated = (state_after [Op.malloc 100]).free_pages.allocated ∧
          s'.brk = (state_after [Op.malloc 100]).brk)
        ∨ (e = next_slab (state_after [Op.malloc 100]) + 16 ∧
            s'.free_pages.allocated =
              (state_after [Op.malloc 100]).free_pages.allocated + 1)) :=
  ⟨by decide!, fun _ => by decide!, by decide, by decide, by decide,
    bucket_get_ok (state_after [Op.malloc 100]) [65536] 5 (by decide!) (fun _ => by decide!)
      (by decide) (by decide) 2 (by decide)⟩
/-! ## `bucket_get` terminates and is frugal (C20) -/

/-- Claim C20: on an arena whose slabs (finitely many, the list `slabs`) are
tiled by well-formed buddy blocks of class 2 at least, and for
`2 ≤ t ≤ 14`: the walk of
`bucket_get(t)` over any slab reads only headers of blocks of the tiling, at
offsets below `2 ^ 14` of the slab tree, and terminates; and `bucket_get(t)`
returns, given one unit of fuel per slab and one more.  Its result is a free
block of class `t` at least of one of the slabs, in which case no slab is
requested and the pool, the Page Source and the list heads are untouched; or,
exactly when no slab has a free block of class `t` at least, the root of one
slab newly requested from the pool (one `global_request_page` call), which is
linked at the tail of the list: the `next` of the last slab points to it, its
`prev` points back, its own `next` is null, and it becomes the head of an
empty list.  On an empty pool, where the fresh mapping cannot disturb the
other `next` cells, the list of the arena afterwards is `slabs` followed by
the new slab.  Nothing is assumed of the pool when some slab has a free block
of class `t` at least; when none has, the pool has to be able to supply a slab
apart from the slabs of the arena, below or above them (`pool_ok`). -/
theorem bucket_get_frugal (s : State) (slabs : List Nat) (t : Nat) (hs : arena_tiled s slabs)
    (hp : no_free_block s slabs t → pool_ok s slabs) (ht : 2 ≤ t) (ht' : t ≤ 14) (fuel : Nat)
    (hfuel : slabs.length + 1 ≤ fuel) :
    (∀ S ∈ slabs,
      (∀ p ∈ walk_visits s.mem t (2 ^ t) (S + 16 + 2 ^ 14 - 2 ^ t) (2 ^ 14 + 1) (S + 16),
        ∃ q, p = S + 16 + q ∧ q < 2 ^ 14 ∧ block_at s.mem (S + 16) 14 0 q = true) ∧
      ∃ r, walk_slab s.mem t (2 ^ t) (S + 16 + 2 ^ 14 - 2 ^ t) (2 ^ 14 + 1) (S + 16) = some r) ∧
    ∃ e s', bucket_get fuel t s = some (e, s') ∧
      ((∃ S ∈ slabs, ∃ q, e = S + 16 + q ∧ block_at s.mem (S + 16) 14 0 q = true ∧
          (t : Int) ≤ s.mem e ∧ s.mem (e + 2) = 0 ∧
          pool_requests s'.trace = pool_requests s.trace ∧
          s'.free_pages = s.free_pages ∧ s'.brk = s.brk ∧ s'.buckets = s.buckets)
        ∨ ((∀ S ∈ slabs, ∀ q, block_at s.mem (S + 16) 14 0 q = true →
              ¬ ((t : Int) ≤ s.mem (S + 16 + q) ∧ s.mem (S + 16 + q + 2) = 0)) ∧
            e = next_slab s + 16 ∧
            pool_requests s'.trace = pool_requests s.trace + 1 ∧
            s'.free_pages.allocated = s.free_pages.allocated + 1 ∧
            s'.mem (next_slab s) = 0 ∧
            (slabs = [] → s'.buckets s.preferred_bucket.toNat = next_slab s) ∧
            (∀ last, slabs.getLast? = some last →
              s'.mem last = (next_slab s : Int) ∧ s'.mem (next_slab s + 8) = (last : Int) ∧
              s'.buckets = s.buckets) ∧
            (s.free_pages.head = 0 ∨ slabs = [] →
              slab_chain s'.mem (s'.buckets s.preferred_bucket.toNat)
                (slabs ++ [next_slab s])))) := by
  constructor
  · intro S hS
    have hw := walk_whole_slab_full s.mem s.preferred_bucket (S + 16) t ht' (hs.2.2.2 S hS)
    constructor
    · intro p hpm
      obtain ⟨q, h1, h2⟩ := hw.1 p hpm
      obtain ⟨_, cq, _, _, _, c4⟩ :=
        block_at_range s.mem s.preferred_bucket (S + 16) 14 0 q (hs.2.2.2 S hS) h2
      have : 0 < 2 ^ cq := by positivity
      exact ⟨q, h1, by omega, h2⟩
    · rcases hw.2 with ⟨q, _, _, _, h4⟩ | ⟨_, h4⟩
      · exact ⟨_, h4⟩
      · exact ⟨_, h4⟩
  · obtain ⟨e, s', r1, _, _, _, r5⟩ := bucket_get_full s slabs t hs hp ht ht' fuel hfuel
    refine ⟨e, s', r1, ?_⟩
    rcases r5 with ⟨S, hS, q, cq, a1, a2, a3, a4, _, a6, a7, a8, a9, a10⟩ | hnew
    · exact Or.inl ⟨S, hS, q, a1, a2, by rw [a3]; exact_mod_cast a4, a6, a7, a8, a9, a10⟩
    · exact Or.inr hnew

/-- Claim C20, witness: the arena of `full_slab_state` (one slab at 65536 whose
root block of class 14 is in use, the Page Source maps below it) and a request
for class 5, which has to take a second slab. -/
theorem bucket_get_frugal_witness :
    arena_tiled full_slab_state [65536] ∧
    (no_free_block full_slab_state [65536] 5 →
      pool_ok full_slab_state [65536]) ∧
    2 ≤ 5 ∧ 5 ≤ 14 ∧ [65536].length + 1 ≤ 2 ∧
    ((∀ S ∈ [65536],
      (∀ p ∈ walk_visits full_slab_state.mem ((5 : Nat) : Int) (2 ^ 5)
          (S + 16 + 2 ^ 14 - 2 ^ 5) (2 ^ 14 + 1) (S + 16),
        ∃ q, p = S + 16 + q ∧ q < 2 ^ 14 ∧
          block_at full_slab_state.mem (S + 16) 14 0 q = true) ∧
      ∃ r, walk_slab full_slab_state.mem ((5 : Nat) : Int) (2 ^ 5)
          (S + 16 + 2 ^ 14 - 2 ^ 5) (2 ^ 14 + 1) (S + 16) = some r) ∧
    ∃ e s', bucket_get 2 ((5 : Nat) : Int) full_slab_state = some (e, s') ∧
      ((∃ S ∈ [65536], ∃ q, e = S + 16 + q ∧
          block_at full_slab_state.mem (S + 16) 14 0 q = true ∧
          ((5 : Nat) : Int) ≤ full_slab_state.mem e ∧
          full_slab_state.mem (e + 2) = 0 ∧
          pool_requests s'.trace = pool_requests full_slab_state.trace ∧
          s'.free_pages = full_slab_state.free_pages ∧
          s'.brk = full_slab_state.brk ∧
          s'.buckets = full_slab_state.buckets)
        ∨ ((∀ S ∈ [65536], ∀ q,
              block_at full_slab_state.mem (S + 16) 14 0 q = true →
              ¬ (((5 : Nat) : Int) ≤ full_slab_state.mem (S + 16 + q) ∧
                full_slab_state.mem (S + 16 + q + 2) = 0)) ∧
            e = next_slab full_slab_state + 16 ∧
            pool_requests s'.trace =
              pool_requests full_slab_state.trace + 1 ∧
            s'.free_pages.allocated =
              full_slab_state.free_pages.allocated + 1 ∧
            s'.mem (next_slab full_slab_state) = 0 ∧
            ([65536] = [] →
              s'.buckets full_slab_state.preferred_bucket.toNat =
                next_slab full_slab_state) ∧
            (∀ last, [65536].getLast? = some last →
              s'.mem last = (next_slab full_slab_state : Int) ∧
              s'.mem (next_slab full_slab_state + 8) = (last : Int) ∧
              s'.buckets = full_slab_state.buckets) ∧
            (full_slab_state.free_pages.head = 0 ∨ [65536] = [] →
              slab_chain s'.mem
                (s'.buckets full_slab_state.preferred_bucket.toNat)
                ([65536] ++ [next_slab full_slab_state]))))) :=
  ⟨by decide!, fun _ => by decide!, by decide, by decide, by decide,
    bucket_get_frugal full_slab_state [65536] 5 (by decide!)
      (fun _ => by decide!) (by decide) (by decide) 2 (by decide)⟩

/-- The run behind the witness of C20: the second slab is mapped at 20480,
below the first, and linked behind it (`next` of the slab at 65536, `prev` of
the new slab); its root is split down to class 5 and in use; `allocated` is 2
and the Page Source has moved to 40960. -/
theorem second_slab_linked :
    (bucket_get 2 5 full_slab_state).map
        (fun r => [(r.1 : Int), r.2.mem 65536, r.2.mem 20480, r.2.mem (20480 + 8),
          r.2.mem (20480 + 16), r.2.mem (20480 + 18), r.2.free_pages.allocated,
          (r.2.brk : Int)]) =
      some [20496, 20480, 0, 65536, 5, 1, 2, 40960] := by
  decide!
/-! ## Alignment of the returned pointers (C12) -/

/-- The slab walk for class `t` only ever stands at the start address plus a
multiple of `2 ^ t`: it steps over `2 ^ t` bytes, or over a used block of
class `t` at least.  Nothing is assumed of the memory. -/
theorem walk_slab_mod (m : Mem) (t stop : Nat) :
    ∀ (fuel wt e : Nat), walk_slab m (t : Int) (2 ^ t) stop fuel wt = some (some e) →
      ∃ k, e = wt + k * 2 ^ t := by
  intro fuel
  induction fuel with
  | zero => intro wt e h; simp [walk_slab] at h
  | succ f ih =>
    intro wt e h
    rw [walk_slab_succ] at h
    by_cases hs : wt ≤ stop
    · rw [if_pos hs] at h
      by_cases hlt : m wt < (t : Int)
      · rw [if_pos hlt] at h
        obtain ⟨k, hk⟩ := ih _ e h
        exact ⟨k + 1, by rw [hk]; ring⟩
      · rw [if_neg hlt] at h
        by_cases hu : m (wt + 2) ≠ 0
        · rw [if_pos hu] at h
          unfold shl1 at h
          by_cases hr : 0 ≤ m wt ∧ m wt < 31
          · rw [if_pos hr] at h
            simp only [] at h
            obtain ⟨k, hk⟩ := ih _ e h
            have hct : (m wt).toNat = t + ((m wt).toNat - t) := by omega
            refine ⟨2 ^ ((m wt).toNat - t) + k, ?_⟩
            rw [hk, hct, pow_add]
            simp only [Nat.add_sub_cancel_left]
            ring
          · rw [if_neg hr] at h; simp at h
        · rw [if_neg hu] at h
          simp only [Option.some.injEq] at h
          exact ⟨0, by omega⟩
    · rw [if_neg hs] at h; simp at h

/-- At the end of the list (`next` of the last slab is null, its walk found
nothing) the loop of `bucket_get` takes the slab `global_request_page` hands
out and returns its root. -/
theorem bucket_get_loop_request (t : Nat) (ht : 2 ≤ t) (ht' : t ≤ 14) (s : State)
    (working : Nat) (hw : working ≠ 0)
    (hnone : walk_slab s.mem t (2 ^ t) (working + 16 + 2 ^ 14 - 2 ^ t) (2 ^ 14 + 1)
      (working + 16) = some none)
    (hz : s.mem working = 0) (hpool : pool_ok s [working]) (f : Nat) :
    ∃ s', bucket_get_loop t (2 ^ t) (f + 2) working s = some (next_slab s + 16, s') := by
  rw [bucket_get_loop_succ, if_neg hw]
  simp only [MEM_PAGE_HEADER_SIZE, hnone]
  rw [if_pos hz]
  obtain ⟨s1, g1, g0, g2, g3, g4, g5, g6, g7⟩ := global_request_page_ok s [working] hpool
  have hlt := g4 working (List.mem_cons_self _ _)
  generalize next_slab s = P at g1 g0 g2 g3 hlt ⊢
  simp only [g1]
  have p1 : ptr (wr s1.mem working (P : Int)) working = P := by
    simp [ptr]
  have p2 : ptr (wr (wr s1.mem working (P : Int)) (P + 17) s1.preferred_bucket)
      working = P := by
    simp only [ptr]; rw [wr_other _ _ _ _ (by omega), wr_same]; simp
  have p3 : ptr (wr (wr (wr s1.mem working (P : Int)) (P + 17) s1.preferred_bucket)
      (P + 8) (working : Int)) working = P := by
    simp only [ptr]
    rw [wr_other _ _ _ _ (by omega), wr_other _ _ _ _ (by omega), wr_same]; simp
  rw [p1, p2, p3]
  obtain ⟨s', r1, _⟩ := bucket_get_loop_fresh t ht ht'
    (s1.setMem (wr (wr (wr s1.mem working (P : Int)) (P + 17) s1.preferred_bucket)
      (P + 8) (working : Int))) P f g0
    (by
      simp only [State.setMem]
      rw [wr_other _ _ _ _ (by omega), wr_other _ _ _ _ (by omega),
        wr_other _ _ _ _ (by omega), g2])
    (by
      simp only [State.setMem]
      rw [wr_other _ _ _ _ (by omega), wr_other _ _ _ _ (by omega),
        wr_other _ _ _ _ (by omega), g3])
  exact ⟨s', r1⟩

/-- Where the loop of `bucket_get` can return: in one of the listed slabs or
in the slab the pool hands out, a multiple of `2 ^ t` above the first header.
The slabs need not be tiled. -/
theorem bucket_get_loop_mod (t : Nat) (ht : 2 ≤ t) (ht' : t ≤ 14) (s : State) :
    ∀ (slabs : List Nat) (working : Nat), working ≠ 0 → slab_chain s.mem working slabs →
      ((∀ S ∈ slabs, walk_slab s.mem t (2 ^ t) (S + 16 + 2 ^ 14 - 2 ^ t) (2 ^ 14 + 1)
          (S + 16) = some none) → pool_ok s slabs) →
      ∀ (fuel e : Nat) (s' : State), bucket_get_loop t (2 ^ t) fuel working s = some (e, s') →
        ∃ S k, (S ∈ slabs ∨ S = next_slab s) ∧ e = S + 16 + k * 2 ^ t := by
  intro slabs
  induction slabs with
  | nil =>
    intro working hw hc
    simp only [slab_chain] at hc
    exact absurd hc hw
  | cons S rest ih =>
    intro working hw hc hcond fuel e s' h
    simp only [slab_chain] at hc
    obtain ⟨rfl, hS, hnext, hrest⟩ := hc
    cases fuel with
    | zero => simp [bucket_get_loop] at h
    | succ f =>
      cases hwalk : walk_slab s.mem t (2 ^ t) (working + 16 + 2 ^ 14 - 2 ^ t) (2 ^ 14 + 1)
          (working + 16) with
      | none =>
        rw [bucket_get_loop_succ, if_neg hw] at h
        simp only [MEM_PAGE_HEADER_SIZE, hwalk] at h
        exact absurd h (by simp)
      | some r =>
        cases r with
        | some wt =>
          rw [bucket_get_loop_succ, if_neg hw] at h
          simp only [MEM_PAGE_HEADER_SIZE, hwalk] at h
          obtain ⟨k, hk⟩ := walk_slab_mod s.mem t _ _ _ wt hwalk
          have he : e = wt := by
            cases hsp : split_tree_r wt (s.mem wt - (t : Int)).toNat s.mem with
            | none => rw [hsp] at h; simp at h
            | some m1 =>
              rw [hsp] at h
              simp only [] at h
              by_cases hb : m1 wt = (t : Int)
              · rw [if_pos hb] at h
                simp only [Option.some.injEq, Prod.mk.injEq] at h
                exact h.1.symm
              · rw [if_neg hb] at h; simp at h
          exact ⟨working, k, Or.inl (List.mem_cons_self _ _), by rw [he, hk]⟩
        | none =>
          by_cases hz : s.mem working = 0
          · have hrest0 : rest = [] := by
              cases rest with
              | nil => rfl
              | cons S2 rest2 =>
                simp only [slab_chain] at hrest
                exfalso
                apply hrest.2.1
                rw [← hrest.1]
                simp [ptr, hz]
            subst hrest0
            have hpool : pool_ok s [working] := by
              apply hcond
              intro W hW
              simp only [List.mem_singleton] at hW
              subst hW
              exact hwalk
            cases f with
            | zero =>
              obtain ⟨s1, g1, _⟩ := global_request_page_ok s [working] hpool
              rw [bucket_get_loop_succ, if_neg hw] at h
              simp only [MEM_PAGE_HEADER_SIZE, hwalk] at h
              rw [if_pos hz] at h
              simp [g1, bucket_get_loop] at h
            | succ f' =>
              obtain ⟨s'', r1⟩ := bucket_get_loop_request t ht ht' s working hw hwalk hz hpool f'
              rw [r1] at h
              simp only [Option.some.injEq, Prod.mk.injEq] at h
              exact ⟨next_slab s, 0, Or.inr rfl, by rw [← h.1]; omega⟩
          · rw [bucket_get_loop_succ, if_neg hw] at h
            simp only [MEM_PAGE_HEADER_SIZE, hwalk] at h
            rw [if_neg hz] at h
            cases rest with
            | nil =>
              simp only [slab_chain] at hrest
              exfalso
              apply hz
              unfold ptr at hrest
              omega
            | cons S2 rest2 =>
              have hS2 : ptr s.mem working = S2 := by
                simp only [slab_chain] at hrest; exact hrest.1
              have hS2' : S2 ≠ 0 := by
                simp only [slab_chain] at hrest; exact hrest.2.1
              obtain ⟨W, k, hW, hk⟩ := ih (ptr s.mem working) (by rw [hS2]; exact hS2') hrest
                (by
                  intro hall
                  have hfull := hcond (by
                    intro W hW
                    rcases List.mem_cons.1 hW with rfl | hW'
                    · exact hwalk
                    · exact hall W hW')
                  rcases hfull with ⟨q1, q2, q3⟩ | ⟨q1, q2, q3⟩
                  · exact Or.inl ⟨q1, q2, fun W hW => q3 W (List.mem_cons_of_mem _ hW)⟩
                  · exact Or.inr ⟨q1, q2, fun W hW => q3 W (List.mem_cons_of_mem _ hW)⟩)
                f e s' h
              rcases hW with hW | hW
              · exact ⟨W, k, Or.inl (List.mem_cons_of_mem _ hW), hk⟩
              · exact ⟨W, k, Or.inr hW, hk⟩

/-- Where `bucket_get(t)` can return, for any list of slabs. -/
theorem bucket_get_mod (s : State) (slabs : List Nat) (t : Nat) (ht : 2 ≤ t) (ht' : t ≤ 14)
    (hc : slab_chain s.mem (s.buckets s.preferred_bucket.toNat) slabs)
    (hp : (∀ S ∈ slabs, walk_slab s.mem t (2 ^ t) (S + 16 + 2 ^ 14 - 2 ^ t) (2 ^ 14 + 1)
        (S + 16) = some none) → pool_ok s slabs)
    (fuel e : Nat) (s' : State) (h : bucket_get fuel t s = some (e, s')) :
    ∃ S k, (S ∈ slabs ∨ S = next_slab s) ∧ e = S + 16 + k * 2 ^ t := by
  unfold bucket_get at h
  cases hidx : bucket_idx s.preferred_bucket with
  | none => rw [hidx] at h; simp at h
  | some pb =>
    have hpb : pb = s.preferred_bucket.toNat := by
      unfold bucket_idx at hidx
      by_cases hr : 0 ≤ s.preferred_bucket ∧ s.preferred_bucket < (NUM_BUCKETS : Int)
      · rw [if_pos hr] at hidx
        simp only [Option.some.injEq] at hidx
        exact hidx.symm
      · rw [if_neg hr] at hidx; simp at hidx
    subst hpb
    rw [hidx] at h
    simp only [MEM_PAGE_TREE_DEF_SIZE, PAGE_BSIZE] at h
    rw [if_pos (by omega)] at h
    by_cases hz : s.buckets s.preferred_bucket.toNat = 0
    · have hnil : slabs = [] := by
        cases slabs with
        | nil => rfl
        | cons S rest =>
          simp only [slab_chain] at hc
          exact absurd (hc.1.symm.trans hz) hc.2.1
      subst hnil
      have hpool : pool_ok (s.log (Event.bucket_get (t : Int))) [] :=
        hp (by intro S hS; simp at hS)
      obtain ⟨s1, g1, g0, g2, g3, g4, g5, g6, g7⟩ :=
        global_request_page_ok (s.log (Event.bucket_get (t : Int))) [] hpool
      have hns : next_slab (s.log (Event.bucket_get (t : Int))) = next_slab s := rfl
      rw [hns] at g1 g0 g2 g3
      simp only [State.log] at g1
      generalize next_slab s = P at g1 g0 g2 g3 ⊢
      simp only [State.log, hz, if_true, g1, Int.toNat_ofNat] at h
      cases fuel with
      | zero => simp [bucket_get_loop] at h
      | succ f' =>
        obtain ⟨s'', r1, _⟩ := bucket_get_loop_fresh t ht ht'
          { s1 with mem := wr s1.mem (P + 17) s1.preferred_bucket,
                    buckets := fun i => if i = s.preferred_bucket.toNat then P else s1.buckets i }
          P f' g0
          (by simp only []; rw [wr_other _ _ _ _ (by omega), g2])
          (by simp only []; rw [wr_other _ _ _ _ (by omega), g3])
        rw [r1] at h
        simp only [Option.some.injEq, Prod.mk.injEq] at h
        exact ⟨P, 0, Or.inr rfl, by rw [← h.1]; omega⟩
    · simp only [State.log, hz, if_false, Int.toNat_ofNat] at h
      exact bucket_get_loop_mod t ht ht' (s.log (Event.bucket_get (t : Int))) slabs _ hz hc hp
        fuel e s' h

/-- The search of `global_request_pages` returns null or a region of the
list. -/
theorem search_free_list_r_mem (m : Mem) (pages : Nat) :
    ∀ (fuel head : Nat) (regions : List Nat) (found : Nat),
      search_free_list_r fuel m head pages = some found → slab_chain m head regions →
      found = 0 ∨ found ∈ regions := by
  intro fuel
  induction fuel with
  | zero => intro head regions found h; simp [search_free_list_r] at h
  | succ f ih =>
    intro head regions found h hc
    unfold search_free_list_r at h
    by_cases h0 : head = 0
    · rw [if_pos h0] at h
      simp only [Option.some.injEq] at h
      exact Or.inl h.symm
    · rw [if_neg h0] at h
      cases regions with
      | nil => simp only [slab_chain] at hc; exact absurd hc h0
      | cons R rest =>
        simp only [slab_chain] at hc
        obtain ⟨rfl, _, _, hrest⟩ := hc
        by_cases hp : to_size_t (m (head + 16)) ≥ pages
        · rw [if_pos hp] at h
          simp only [Option.some.injEq] at h
          exact Or.inr (by rw [← h]; exact List.mem_cons_self _ _)
        · rw [if_neg hp] at h
          rcases ih _ rest found h hrest with r | r
          · exact Or.inl r
          · exact Or.inr (List.mem_cons_of_mem _ r)

/-- The region `global_request_pages` returns, when it is not null, is a
region of the list of the pool or the fresh mapping at `brk`. -/
theorem global_request_pages_mem (fuel pages : Nat) (s : State) (regions : List Nat)
    (hf : slab_chain s.mem s.free_pages.head regions) (page : Nat) (s1 : State)
    (h : global_request_pages fuel pages s = some (page, s1)) (hne : page ≠ 0) :
    page ∈ regions ∨ page = s.brk := by
  unfold global_request_pages at h
  simp only [State.log] at h
  by_cases h0 : s.free_pages.head = 0
  · simp only [h0, ne_eq, not_true_eq_false, if_false, Option.some.injEq, Prod.mk.injEq] at h
    exact absurd h.1.symm hne
  · have hmem : s.free_pages.head ∈ regions := by
      cases regions with
      | nil => simp only [slab_chain] at hf; exact absurd hf h0
      | cons R rest =>
        simp only [slab_chain] at hf
        rw [hf.1]
        exact List.mem_cons_self _ _
    simp only [h0, ne_eq, not_false_eq_true, if_true] at h
    by_cases hp : to_size_t (s.mem (s.free_pages.head + 16)) ≥ pages
    · rw [if_pos hp] at h
      simp only [Option.some.injEq, Prod.mk.injEq] at h
      left
      rw [← h.1]
      split <;> exact hmem
    · rw [if_neg hp] at h
      cases hs : search_free_list_r fuel s.mem s.free_pages.head pages with
      | none => rw [hs] at h; simp at h
      | some found =>
        rw [hs] at h
        simp only [] at h
        by_cases hfz : found = 0
        · rw [if_pos hfz] at h
          unfold map_pages at h
          by_cases hb : s.brk = 0
          · simp [hb] at h
          · simp only [hb, if_false, Option.some.injEq, Prod.mk.injEq] at h
            exact Or.inr h.1.symm
        · rw [if_neg hfz] at h
          simp only [Option.some.injEq, Prod.mk.injEq] at h
          rcases search_free_list_r_mem s.mem pages fuel _ regions found hs hf with r | r
          · exact absurd r hfz
          · left
            rw [← h.1]
            exact r

/-- Claim C12, as the code has it.  Let the list of the arena be a
null-terminated chain of page-aligned slabs, let the regions on the list of
the pool and the next mapping of the Page Source be page-aligned, and let the
pool be able to supply a slab apart from the slabs of the arena once the walk
has found nothing in any of them.  Then every pointer `p` that
`internal_malloc` returns for a request of class `t ≥ 2` lies 4 bytes
(`sizeof(mem_tree)`) past its block: on the arena path (`t ≤ 14`) it is slab
base + 16 + a multiple of the block size `2 ^ t` + 4, on the large path
region base + 4.  So `p` is 4-byte aligned, it lies 4 bytes past an 8-byte
boundary for `t ≥ 3`, and 4 bytes past a 16-byte boundary, hence not on one,
for `t ≥ 4`.  The slabs need not be tiled. -/
theorem malloc_alignment (s : State) (slabs regions : List Nat) (size t fuel p : Nat)
    (hc : slab_chain s.mem (s.buckets s.preferred_bucket.toNat) slabs)
    (hal : ∀ S ∈ slabs, S % 4096 = 0)
    (hf : slab_chain s.mem s.free_pages.head regions)
    (hral : ∀ R ∈ regions, R % 4096 = 0) (hbrk : s.brk % 4096 = 0)
    (hp : (∀ S ∈ slabs, walk_slab s.mem t (2 ^ t) (S + 16 + 2 ^ 14 - 2 ^ t) (2 ^ 14 + 1)
        (S + 16) = some none) → pool_ok s slabs)
    (hsz : tree_size size = some (t : Int)) (ht : 2 ≤ t)
    (h : (internal_malloc fuel size s).map (fun r => r.1) = some p) :
    p % 4 = 0 ∧ (3 ≤ t → p % 8 = 4) ∧ (4 ≤ t → p % 16 = 4) ∧
      (t ≤ 14 → ∃ S k, (S ∈ slabs ∨ S = next_slab s) ∧ p = S + 16 + k * 2 ^ t + 4) ∧
      (14 < t → ∃ R, (R ∈ regions ∨ R = s.brk) ∧ p = R + 4) := by
  have hnew : next_slab s % 4096 = 0 := by
    unfold next_slab
    by_cases h0 : s.free_pages.head = 0
    · rw [if_pos h0]; exact hbrk
    · rw [if_neg h0]
      cases regions with
      | nil => simp only [slab_chain] at hf; exact absurd hf h0
      | cons R rest =>
        simp only [slab_chain] at hf
        rw [hf.1]
        exact hral R (List.mem_cons_self _ _)
  unfold internal_malloc at h
  simp only [hsz, MEM_PAGE_TREE_DEF_SIZE, PAGE_BSIZE] at h
  by_cases hbig : 14 < t
  · -- the large path
    rw [if_pos (by omega)] at h
    have hR : ∃ R, (R ∈ regions ∨ R = s.brk) ∧ p = R + 4 := by
      unfold internal_malloc_large at h
      cases hpg : page_size size SIZEOF_MEM_TREE with
      | none => rw [hpg] at h; simp at h
      | some pg =>
        rw [hpg] at h
        simp only [] at h
        cases hg : global_request_pages fuel (to_size_t pg) s with
        | none => rw [hg] at h; simp at h
        | some r =>
          obtain ⟨page, s1⟩ := r
          rw [hg] at h
          simp only [] at h
          by_cases hz : page = 0
          · simp [hz] at h
          · simp only [hz, if_false, Option.map_some', Option.some.injEq, SIZEOF_MEM_TREE] at h
            exact ⟨page, global_request_pages_mem fuel _ s regions hf page s1 hg hz, h.symm⟩
    obtain ⟨R, hRm, hRp⟩ := hR
    have hR4 : R % 4096 = 0 := by
      rcases hRm with hRm | hRm
      · exact hral R hRm
      · rw [hRm]; exact hbrk
    exact ⟨by omega, fun _ => by omega, fun _ => by omega, fun h14 => by omega,
      fun _ => ⟨R, hRm, hRp⟩⟩
  · -- the arena path
    rw [if_neg (by omega)] at h
    unfold internal_malloc_arena at h
    cases hg : bucket_get fuel (t : Int) s with
    | none => rw [hg] at h; simp at h
    | some r =>
      obtain ⟨e, s1⟩ := r
      rw [hg] at h
      simp only [Option.map_some', Option.some.injEq, SIZEOF_MEM_TREE] at h
      obtain ⟨S, k, hS, hk⟩ := bucket_get_mod s slabs t ht (by omega) hc hp fuel e s1 hg
      have hS4 : S % 4096 = 0 := by
        rcases hS with hS | hS
        · exact hal S hS
        · rw [hS]; exact hnew
      have d4 : (k * 2 ^ t) % 4 = 0 :=
        Nat.mod_eq_zero_of_dvd (Dvd.dvd.mul_left (pow_dvd_pow 2 (show 2 ≤ t by omega)) k)
      refine ⟨by omega, fun h3 => ?_, fun h4 => ?_, fun _ => ⟨S, k, hS, by omega⟩,
        fun h14 => absurd h14 hbig⟩
      · have d8 : (k * 2 ^ t) % 8 = 0 :=
          Nat.mod_eq_zero_of_dvd (Dvd.dvd.mul_left (pow_dvd_pow 2 (show 3 ≤ t by omega)) k)
        omega
      · have d16 : (k * 2 ^ t) % 16 = 0 :=
          Nat.mod_eq_zero_of_dvd (Dvd.dvd.mul_left (pow_dvd_pow 2 (show 4 ≤ t by omega)) k)
        omega

/-- Claim C12, witness.  Arena path: a request of 100 bytes (class 7) on the
arena after `malloc(100)`, whose slab at 65536 is page-aligned; the pool is
empty and the Page Source maps next at 86016; the pointer is 65684.  Large
path: a request of 20000 bytes (class 15, 5 pages) on a pool that holds one
page-aligned region of 7 pages at 65536; the pointer is 65540. -/
theorem malloc_alignment_witness :
    (slab_chain (state_after [Op.malloc 100]).mem
        ((state_after [Op.malloc 100]).buckets
          (state_after [Op.malloc 100]).preferred_bucket.toNat) [65536] ∧
      (∀ S ∈ [65536], S % 4096 = 0) ∧
      slab_chain (state_after [Op.malloc 100]).mem
        (state_after [Op.malloc 100]).free_pages.head [] ∧
      (∀ R ∈ ([] : List Nat), R % 4096 = 0) ∧ (state_after [Op.malloc 100]).brk % 4096 = 0 ∧
      pool_ok (state_after [Op.malloc 100]) [65536] ∧
      tree_size 100 = some ((7 : Nat) : Int) ∧ 2 ≤ 7 ∧
      (internal_malloc 2 100 (state_after [Op.malloc 100])).map (fun r => r.1) = some 65684 ∧
      65684 % 4 = 0 ∧ (3 ≤ 7 → 65684 % 8 = 4) ∧ (4 ≤ 7 → 65684 % 16 = 4) ∧
      (7 ≤ 14 → ∃ S k, (S ∈ [65536] ∨ S = next_slab (state_after [Op.malloc 100])) ∧
        65684 = S + 16 + k * 2 ^ 7 + 4) ∧
      (14 < 7 → ∃ R, (R ∈ ([] : List Nat) ∨ R = (state_after [Op.malloc 100]).brk) ∧
        65684 = R + 4)) ∧
    (slab_chain pool_7_state.mem (pool_7_state.buckets pool_7_state.preferred_bucket.toNat) [] ∧
      slab_chain pool_7_state.mem pool_7_state.free_pages.head [65536] ∧
      (∀ R ∈ [65536], R % 4096 = 0) ∧ pool_7_state.brk % 4096 = 0 ∧
      pool_ok pool_7_state [] ∧
      tree_size 20000 = some ((15 : Nat) : Int) ∧ 2 ≤ 15 ∧
      (internal_malloc 2 20000 pool_7_state).map (fun r => r.1) = some 65540 ∧
      65540 % 4 = 0 ∧ (3 ≤ 15 → 65540 % 8 = 4) ∧ (4 ≤ 15 → 65540 % 16 = 4) ∧
      (15 ≤ 14 → ∃ S k, (S ∈ ([] : List Nat) ∨ S = next_slab pool_7_state) ∧
        65540 = S + 16 + k * 2 ^ 15 + 4) ∧
      (14 < 15 → ∃ R, (R ∈ [65536] ∨ R = pool_7_state.brk) ∧ 65540 = R + 4)) :=
  ⟨⟨by decide!, by decide, by decide!, by decide, by decide!, by decide!, by decide!, by decide,
      by decide!,
      malloc_alignment (state_after [Op.malloc 100]) [65536] [] 100 7 2 65684 (by decide!)
        (by decide) (by decide!) (by decide) (by decide!) (fun _ => by decide!) (by decide!)
        (by decide) (by decide!)⟩,
    ⟨by decide!, by decide!, by decide, by decide!, by decide!, by decide!, by decide,
      by decide!,
      malloc_alignment pool_7_state [] [65536] 20000 15 2 65540 (by decide!)
        (by decide) (by decide!) (by decide) (by decide!) (fun _ => by decide!) (by decide!)
        (by decide) (by decide!)⟩⟩

/-- Claim C12 as stated fails: the first `tree_malloc(16)` from the initial
state, whose Page Source maps at the page-aligned address 65536, returns
65556 = 65536 + 16 + 0 + 4, which is 4 bytes past a 16-byte boundary. -/
theorem first_pointer_misaligned :
    (run [Op.malloc 16] (init_state 65536, [])).map (fun r => r.2) = some [65556] ∧
      65536 % 4096 = 0 ∧ 65556 % 16 = 4 := by
  decide!
/-! ## Lock ordering (C18) -/

theorem lock_trace_cons (st : LockState) (e : Event) (older : List Event) :
    lock_trace st (e :: older) =
      match lock_trace st older with
      | none => none
      | some st1 => lock_step st1 e := rfl

/-- Replaying a trace made of the segment `a` on top of the older events
`b`. -/
theorem lock_trace_append (st : LockState) (a b : List Event) :
    lock_trace st (a ++ b) =
      match lock_trace st b with
      | none => none
      | some st1 => lock_trace st1 a := by
  induction a with
  | nil =>
    rw [List.nil_append]
    cases lock_trace st b <;> rfl
  | cons e a ih =>
    rw [List.cons_append, lock_trace_cons, ih]
    cases lock_trace st b <;> rfl

theorem pool_neutral_nil : pool_neutral [] := fun _ => rfl

theorem pool_neutral_append (a b : List Event) (ha : pool_neutral a) (hb : pool_neutral b) :
    pool_neutral (a ++ b) := by
  intro x
  rw [lock_trace_append, hb x]
  exact ha x

/-- The events of `global_request_page`: the pool mutex is taken and released,
the arena of the thread stays the same, an empty pool stays empty. -/
theorem global_request_page_locks (s : State) (p : Nat) (s1 : State)
    (h : global_request_page s = some (p, s1)) :
    s1.preferred_bucket = s.preferred_bucket ∧
      (s.free_pages.head = 0 → s1.free_pages.head = 0) ∧
      ∃ seg, s1.trace = seg ++ s.trace ∧ pool_neutral seg := by
  by_cases h0 : s.free_pages.head = 0
  · obtain ⟨_, _, g3, _, g5⟩ := global_request_page_empty s h0 p s1 h
    refine ⟨?_, fun _ => g3, [Event.pool_unlock, Event.map_pages MEM_PAGE_PAGES,
      Event.pool_lock, Event.global_request_page], g5, fun b => rfl⟩
    unfold global_request_page at h
    simp only [State.log, h0, ne_eq, not_true_eq_false, if_false, map_pages] at h
    by_cases hb : s.brk = 0
    · simp [hb] at h
    · simp only [hb, if_false, Option.some.injEq, Prod.mk.injEq] at h
      rw [← h.2]
  · unfold global_request_page at h
    simp only [State.log, h0, ne_eq, not_false_eq_true, if_true, ge_iff_le] at h
    by_cases h5 : (5 : Int) ≤ s.mem (s.free_pages.head + 16)
    · have h5' : (MEM_PAGE_PAGES : Int) ≤ s.mem (s.free_pages.head + 16) := h5
      simp only [h5', if_true, Option.some.injEq, Prod.mk.injEq] at h
      obtain ⟨_, h2⟩ := h
      subst h2
      refine ⟨?_, fun h => absurd h h0, [Event.pool_unlock, Event.pool_lock,
        Event.global_request_page], ?_, fun b => rfl⟩
      · simp only [remove_free_page, State.setMem]
        split <;> split <;> split <;> rfl
      · simp only [remove_free_page, State.setMem]
        split <;> split <;> split <;> rfl
    · simp [h5] at h
/-- The events of the slab loop of `bucket_get`: the pool mutex is taken and
released (by `global_request_page`), nothing else. -/
theorem bucket_get_loop_locks (bsize : Int) (size : Nat) :
    ∀ (fuel working : Nat) (s : State) (e : Nat) (s' : State),
      bucket_get_loop bsize size fuel working s = some (e, s') →
      s'.preferred_bucket = s.preferred_bucket ∧
        (s.free_pages.head = 0 → s'.free_pages.head = 0) ∧
        ∃ seg, s'.trace = seg ++ s.trace ∧ pool_neutral seg := by
  intro fuel
  induction fuel with
  | zero => intro working s e s' h; simp [bucket_get_loop] at h
  | succ f ih =>
    intro working s e s' h
    rw [bucket_get_loop_succ] at h
    by_cases hw : working = 0
    · simp [hw] at h
    · rw [if_neg hw] at h
      simp only [] at h
      cases hwalk : walk_slab s.mem bsize size (working + MEM_PAGE_HEADER_SIZE + 2 ^ 14 - size)
          (2 ^ 14 + 1) (working + MEM_PAGE_HEADER_SIZE) with
      | none => rw [hwalk] at h; simp at h
      | some r =>
        rw [hwalk] at h
        cases r with
        | some wt =>
          simp only [] at h
          cases hsp : split_tree_r wt (s.mem wt - bsize).toNat s.mem with
          | none => rw [hsp] at h; simp at h
          | some m1 =>
            rw [hsp] at h
            simp only [] at h
            by_cases hb : m1 wt = bsize
            · rw [if_pos hb] at h
              simp only [Option.some.injEq, Prod.mk.injEq] at h
              rw [← h.2]
              exact ⟨rfl, fun h0 => h0, [], rfl, pool_neutral_nil⟩
            · rw [if_neg hb] at h; simp at h
        | none =>
          simp only [] at h
          by_cases hz : s.mem working = 0
          · rw [if_pos hz] at h
            cases hg : global_request_page s with
            | none => rw [hg] at h; simp at h
            | some r =>
              obtain ⟨page, s1⟩ := r
              rw [hg] at h
              simp only [] at h
              obtain ⟨g1, g2, seg1, g3, g4⟩ := global_request_page_locks s page s1 hg
              obtain ⟨i1, i2, seg2, i3, i4⟩ := ih _ _ e s' h
              refine ⟨i1.trans g1, fun h0 => i2 (g2 h0), seg2 ++ seg1, ?_,
                pool_neutral_append _ _ i4 g4⟩
              rw [i3, List.append_assoc, ← g3]
              rfl
          · rw [if_neg hz] at h
            exact ih _ _ e s' h

/-- The events of `bucket_get`. -/
theorem bucket_get_locks (fuel : Nat) (bsize : Int) (s : State) (e : Nat) (s' : State)
    (h : bucket_get fuel bsize s = some (e, s')) :
    s'.preferred_bucket = s.preferred_bucket ∧
      (s.free_pages.head = 0 → s'.free_pages.head = 0) ∧
      ∃ seg, s'.trace = seg ++ s.trace ∧ pool_neutral seg := by
  unfold bucket_get at h
  cases hidx : bucket_idx s.preferred_bucket with
  | none => rw [hidx] at h; simp at h
  | some pb =>
    rw [hidx] at h
    simp only [] at h
    by_cases hr : 0 ≤ bsize ∧ bsize ≤ MEM_PAGE_TREE_DEF_SIZE
    · rw [if_pos hr] at h
      by_cases hz : (s.log (Event.bucket_get bsize)).buckets pb = 0
      · rw [if_pos hz] at h
        cases hg : global_request_page (s.log (Event.bucket_get bsize)) with
        | none => rw [hg] at h; simp at h
        | some r =>
          obtain ⟨page, s1⟩ := r
          rw [hg] at h
          simp only [] at h
          obtain ⟨g1, g2, seg1, g3, g4⟩ := global_request_page_locks _ page s1 hg
          obtain ⟨i1, i2, seg2, i3, i4⟩ := bucket_get_loop_locks _ _ _ _ _ e s' h
          refine ⟨i1.trans g1, fun h0 => i2 (g2 h0), seg2 ++ (seg1 ++ [Event.bucket_get bsize]),
            ?_, pool_neutral_append _ _ i4 (pool_neutral_append _ _ g4 (fun b => rfl))⟩
          rw [i3]
          show seg2 ++ s1.trace = _
          rw [g3]
          simp [State.log]
      · rw [if_neg hz] at h
        simp only [] at h
        obtain ⟨i1, i2, seg2, i3, i4⟩ := bucket_get_loop_locks _ _ _ _ _ e s' h
        refine ⟨i1, i2, seg2 ++ [Event.bucket_get bsize], ?_,
          pool_neutral_append _ _ i4 (fun b => rfl)⟩
        rw [i3]
        simp [State.log]
    · rw [if_neg hr] at h; simp at h

/-- The events of `global_return_page`: the pool mutex is taken and released;
an empty pool stays empty and only the three cells of the `free_page` record
are written. -/
theorem global_return_page_locks (element pages : Nat) (s : State) :
    (global_return_page element pages s).preferred_bucket = s.preferred_bucket ∧
      (s.free_pages.head = 0 → (global_return_page element pages s).free_pages.head = 0 ∧
        ∀ x, x ≠ element → x ≠ element + 8 → x ≠ element + 16 →
          (global_return_page element pages s).mem x = s.mem x) ∧
      ∃ seg, (global_return_page element pages s).trace = seg ++ s.trace ∧ pool_neutral seg := by
  refine ⟨rfl, fun h0 => ⟨?_, ?_⟩, [Event.pool_unlock, Event.pool_lock,
    Event.global_return_page element pages], rfl, fun b => rfl⟩
  · exact (global_return_page_head element pages s (Or.inl h0)).trans h0
  · intro x h1 h2 h3
    simp only [global_return_page, State.log, h0, ne_eq, not_true_eq_false, if_false]
    rw [wr_other _ _ _ _ h2, wr_other _ _ _ _ h1, wr_other _ _ _ _ h3]
/-- The events of `bucket_return` on an empty pool: the pool mutex is taken
and released (by `global_return_page`), nothing else; and a cell `B` above
the header address is left with its value.  The recursion only moves to lower
addresses, and the one write that can reach `B` from below, `used = false` of
a block 2 bytes lower, happens only where `B` holds 0 already. -/
theorem bucket_return_r_locks (B : Nat) :
    ∀ (fuel elt : Nat) (s s' : State), bucket_return_r fuel elt s = some s' →
      s.free_pages.head = 0 → elt < B → (elt + 2 = B → s.mem B = 0) →
      s'.mem B = s.mem B ∧ s'.free_pages.head = 0 ∧
        s'.preferred_bucket = s.preferred_bucket ∧
        ∃ seg, s'.trace = seg ++ s.trace ∧ pool_neutral seg := by
  intro fuel
  induction fuel with
  | zero => intro elt s s' h; simp [bucket_return_r] at h
  | succ f ih =>
    intro elt s s' h h0 hlt hB
    rw [bucket_return_r_succ] at h
    have hmB : (wr s.mem (elt + 2) 0) B = s.mem B := by
      by_cases h2 : elt + 2 = B
      · rw [← h2, wr_same]; rw [h2]; exact (hB h2).symm
      · rw [wr_other _ _ _ _ (fun hx => h2 hx.symm)]
    have hseg : pool_neutral [Event.bucket_return elt] := fun b => rfl
    simp only [State.log, State.setMem] at h
    by_cases h14 : (wr s.mem (elt + 2) 0) elt ≥ MEM_PAGE_TREE_DEF_SIZE
    · rw [if_pos h14] at h
      by_cases h16 : elt < MEM_PAGE_HEADER_SIZE
      · rw [if_pos h16] at h; simp at h
      · rw [if_neg h16] at h
        simp only [Option.some.injEq] at h
        simp only [MEM_PAGE_HEADER_SIZE] at h h16
        obtain ⟨g1, g2, seg, g3, g4⟩ := global_return_page_locks (elt - 16) MEM_PAGE_PAGES
          { mem := wr s.mem (elt + 2) 0, buckets := s.buckets, free_pages := s.free_pages,
            preferred_bucket := s.preferred_bucket, brk := s.brk,
            trace := Event.bucket_return elt :: s.trace }
        rw [h] at g1 g2 g3
        obtain ⟨g5, g6⟩ := g2 h0
        refine ⟨?_, g5, g1, seg ++ [Event.bucket_return elt], ?_,
          pool_neutral_append _ _ g4 hseg⟩
        · rw [g6 B (by omega) (by omega) (by omega)]
          exact hmB
        · rw [g3]; simp
    · rw [if_neg h14] at h
      cases hsh : shl1 ((wr s.mem (elt + 2) 0) elt) with
      | none => rw [hsh] at h; simp at h
      | some off =>
        rw [hsh] at h
        simp only [] at h
        by_cases hl : (wr s.mem (elt + 2) 0) (elt + 3) ≠ 0
        · rw [if_pos hl] at h
          split at h
          · obtain ⟨i1, i2, i3, seg, i4, i5⟩ := ih elt _ s' h h0 hlt
              (by
                intro h2
                show wr _ _ _ B = 0
                rw [wr_other _ _ _ _ (by omega), hmB]
                exact hB h2)
            refine ⟨?_, i2, i3, seg ++ [Event.bucket_return elt], ?_,
              pool_neutral_append _ _ i5 hseg⟩
            · rw [i1]
              show wr _ _ _ B = _
              rw [wr_other _ _ _ _ (by omega), hmB]
            · rw [i4]; simp
          · simp only [Option.some.injEq] at h
            rw [← h]
            exact ⟨hmB, h0, rfl, [Event.bucket_return elt], rfl, hseg⟩
        · rw [if_neg hl] at h
          by_cases hoff : elt < off
          · rw [if_pos hoff] at h; simp at h
          · rw [if_neg hoff] at h
            split at h
            · split at h
              · rename_i hu
                obtain ⟨i1, i2, i3, seg, i4, i5⟩ := ih (elt - off) _ s' h h0 (by omega)
                  (by
                    intro h2
                    rw [← h2]
                    exact hu)
                refine ⟨?_, i2, i3, seg ++ [Event.bucket_return elt], ?_,
                  pool_neutral_append _ _ i5 hseg⟩
                · rw [i1]
                  show wr _ _ _ B = _
                  rw [wr_other _ _ _ _ (by omega), hmB]
                · rw [i4]; simp
              · simp only [Option.some.injEq] at h
                rw [← h]
                refine ⟨?_, h0, rfl, [Event.bucket_return elt], rfl, hseg⟩
                show wr _ _ _ B = _
                rw [wr_other _ _ _ _ (by omega), hmB]
            · simp only [Option.some.injEq] at h
              rw [← h]
              exact ⟨hmB, h0, rfl, [Event.bucket_return elt], rfl, hseg⟩
theorem bucket_idx_some (i : Int) (n : Nat) (h : bucket_idx i = some n) :
    0 ≤ i ∧ i < 64 ∧ to_char i = i := by
  unfold bucket_idx at h
  by_cases hr : 0 ≤ i ∧ i < (NUM_BUCKETS : Int)
  · have h1 : i < 64 := hr.2
    exact ⟨hr.1, h1, to_char_id i (by omega) (by omega)⟩
  · rw [if_neg hr] at h; simp at h

/-- The events of the probing loop of `bucket_lock`, started with no mutex
held: failed trylocks, then the one acquisition of the arena mutex whose index
is stored in `preferred_bucket`. -/
theorem bucket_lock_loop_locks (tl : Int → Bool) (stop : Int) :
    ∀ (fuel : Nat) (i : Int) (s s1 : State), bucket_lock_loop tl stop fuel i s = some s1 →
      s1.free_pages = s.free_pages ∧
        ∃ seg, s1.trace = seg ++ s.trace ∧
          lock_trace no_locks seg = some { pool := false, bucket := some s1.preferred_bucket } := by
  intro fuel
  induction fuel with
  | zero => intro i s s1 h; simp [bucket_lock_loop] at h
  | succ f ih =>
    intro i s s1 h
    rw [bucket_lock_loop_succ] at h
    by_cases hi : i ≠ stop
    · rw [if_pos hi] at h
      cases hidx : bucket_idx i with
      | none => rw [hidx] at h; simp at h
      | some n =>
        rw [hidx] at h
        simp only [] at h
        obtain ⟨_, _, hc⟩ := bucket_idx_some i n hidx
        by_cases ht : tl i = true
        · rw [if_pos ht] at h
          simp only [Option.some.injEq] at h
          rw [← h]
          refine ⟨rfl, [Event.bucket_trylock i true], rfl, ?_⟩
          simp only [hc]
          rfl
        · rw [if_neg ht] at h
          obtain ⟨i1, seg, i2, i3⟩ := ih _ _ s1 h
          refine ⟨i1, seg ++ [Event.bucket_trylock i false], ?_, ?_⟩
          · rw [i2]; simp [State.log]
          · rw [lock_trace_append]
            exact i3
    · rw [if_neg hi] at h
      cases hidx : bucket_idx stop with
      | none => rw [hidx] at h; simp at h
      | some n =>
        rw [hidx] at h
        simp only [Option.some.injEq] at h
        obtain ⟨_, _, hc⟩ := bucket_idx_some stop n hidx
        rw [← h]
        refine ⟨rfl, [Event.bucket_lock stop], rfl, ?_⟩
        simp only [hc]
        rfl

/-- The lock events of one `tree_malloc` call on an empty pool, started with no
mutex held: the discipline is kept, no mutex is held at the end, and the pool
is still empty. -/
theorem tree_malloc_locks (rnd : Nat) (tl : Int → Bool) (fuel size : Nat) (s : State) (p : Nat)
    (s' : State) (h : tree_malloc rnd tl fuel size s = some (p, s'))
    (h0 : s.free_pages.head = 0) :
    s'.free_pages.head = 0 ∧
      ∃ seg, s'.trace = seg ++ s.trace ∧ lock_trace no_locks seg = some no_locks := by
  unfold tree_malloc at h
  cases hl : bucket_lock rnd tl s with
  | none => rw [hl] at h; simp at h
  | some s1 =>
    rw [hl] at h
    simp only [] at h
    cases hm : internal_malloc fuel size s1 with
    | none => rw [hm] at h; simp at h
    | some r =>
      obtain ⟨ret, s2⟩ := r
      rw [hm] at h
      simp only [] at h
      cases hu : bucket_unlock s2 with
      | none => rw [hu] at h; simp at h
      | some s3 =>
        rw [hu] at h
        simp only [Option.some.injEq, Prod.mk.injEq] at h
        obtain ⟨_, rfl⟩ := h
        -- the lock
        unfold bucket_lock at hl
        simp only [] at hl
        obtain ⟨l1, seg1, l2, l3⟩ := bucket_lock_loop_locks _ _ _ _ _ s1 hl
        have l1' : s1.free_pages.head = 0 := by
          rw [l1]; split <;> exact h0
        have l2' : s1.trace = seg1 ++ s.trace := by
          rw [l2]; split <;> rfl
        -- the allocation
        have hmid : s2.preferred_bucket = s1.preferred_bucket ∧ s2.free_pages.head = 0 ∧
            ∃ seg, s2.trace = seg ++ s1.trace ∧ pool_neutral seg := by
          unfold internal_malloc at hm
          cases hts : tree_size size with
          | none => rw [hts] at hm; simp at hm
          | some tsize =>
            rw [hts] at hm
            simp only [] at hm
            by_cases hbig : tsize > MEM_PAGE_TREE_DEF_SIZE
            · rw [if_pos hbig] at hm
              exfalso
              unfold internal_malloc_large at hm
              cases hpg : page_size size SIZEOF_MEM_TREE with
              | none => rw [hpg] at hm; simp at hm
              | some pg =>
                rw [hpg] at hm
                obtain ⟨sx, g1, _⟩ := global_request_pages_null fuel (to_size_t pg) s1 l1'
                simp [g1] at hm
            · rw [if_neg hbig] at hm
              unfold internal_malloc_arena at hm
              cases hg : bucket_get fuel tsize s1 with
              | none => rw [hg] at hm; simp at hm
              | some r =>
                obtain ⟨e, sg⟩ := r
                rw [hg] at hm
                simp only [Option.some.injEq, Prod.mk.injEq] at hm
                obtain ⟨_, rfl⟩ := hm
                obtain ⟨b1, b2, b3⟩ := bucket_get_locks fuel tsize s1 e sg hg
                exact ⟨b1, b2 l1', b3⟩
        obtain ⟨m1, m2, seg2, m3, m4⟩ := hmid
        -- the unlock
        unfold bucket_unlock at hu
        cases hidx : bucket_idx s2.preferred_bucket with
        | none => rw [hidx] at hu; simp at hu
        | some n =>
          rw [hidx] at hu
          simp only [Option.some.injEq] at hu
          rw [← hu]
          refine ⟨m2, Event.bucket_unlock s2.preferred_bucket :: (seg2 ++ seg1), ?_, ?_⟩
          · simp [State.log, m3, l2']
          · rw [lock_trace_cons, lock_trace_append, l3]
            simp only []
            rw [m4, m1]
            simp [lock_step, no_locks]

/-- The lock events of one `tree_free` call on an empty pool, started with no
mutex held: the discipline is kept, the arena mutex that is released is the
one that was taken, no mutex is held at the end, and the pool is still
empty. -/
theorem tree_free_locks (p : Nat) (s s' : State) (h : tree_free p s = some s')
    (h0 : s.free_pages.head = 0) :
    s'.free_pages.head = 0 ∧
      ∃ seg, s'.trace = seg ++ s.trace ∧ lock_trace no_locks seg = some no_locks := by
  unfold tree_free at h
  by_cases hp : p = 0
  · rw [if_pos hp] at h; simp at h
  · rw [if_neg hp] at h
    unfold internal_free at h
    by_cases h4 : p < SIZEOF_MEM_TREE
    · rw [if_pos h4] at h; simp at h
    · rw [if_neg h4] at h
      simp only [] at h
      by_cases hbig : s.mem (p - SIZEOF_MEM_TREE) > MEM_PAGE_TREE_DEF_SIZE
      · rw [if_pos hbig] at h
        by_cases h16 : p - SIZEOF_MEM_TREE < MEM_PAGE_HEADER_SIZE
        · rw [if_pos h16] at h; simp at h
        · rw [if_neg h16] at h
          simp only [Option.some.injEq] at h
          obtain ⟨_, g2, seg, g3, g4⟩ := global_return_page_locks
            (p - SIZEOF_MEM_TREE - MEM_PAGE_HEADER_SIZE)
            (to_size_t (- s.mem (p - SIZEOF_MEM_TREE))) s
          rw [h] at g2 g3
          exact ⟨(g2 h0).1, seg, g3, g4 none⟩
      · rw [if_neg hbig] at h
        cases hidx : bucket_idx (s.mem (p - SIZEOF_MEM_TREE + 1)) with
        | none => rw [hidx] at h; simp at h
        | some n =>
          rw [hidx] at h
          simp only [] at h
          cases hr : bucket_return (p - SIZEOF_MEM_TREE)
              (s.log (Event.bucket_lock (s.mem (p - SIZEOF_MEM_TREE + 1)))) with
          | none => rw [hr] at h; simp at h
          | some s1 =>
            rw [hr] at h
            simp only [] at h
            cases hidx2 : bucket_idx (s1.mem (p - SIZEOF_MEM_TREE + 1)) with
            | none => rw [hidx2] at h; simp at h
            | some n2 =>
              rw [hidx2] at h
              simp only [Option.some.injEq] at h
              unfold bucket_return at hr
              obtain ⟨r1, r2, _, seg, r3, r4⟩ := bucket_return_r_locks (p - SIZEOF_MEM_TREE + 1)
                15 (p - SIZEOF_MEM_TREE) _ s1 hr h0 (by omega) (by omega)
              rw [← h]
              simp only [State.log] at r1 r3
              refine ⟨r2, Event.bucket_unlock (s1.mem (p - SIZEOF_MEM_TREE + 1)) ::
                (seg ++ [Event.bucket_lock (s.mem (p - SIZEOF_MEM_TREE + 1))]), ?_, ?_⟩
              · simp [State.log, r3]
              · rw [lock_trace_cons, lock_trace_append, r1]
                have e1 : lock_trace no_locks
                    [Event.bucket_lock (s.mem (p - SIZEOF_MEM_TREE + 1))] =
                    some { pool := false,
                           bucket := some (s.mem (p - SIZEOF_MEM_TREE + 1)) } := rfl
                rw [e1]
                simp only []
                rw [r4]
                simp [lock_step, no_locks]
/-- A run of calls from a state with an empty pool and a trace that keeps the
lock discipline and ends with no mutex held: the same holds after every call
of the run. -/
theorem run_calls_locks :
    ∀ (calls : List Call) (s : State), s.free_pages.head = 0 →
      lock_trace no_locks s.trace = some no_locks →
      (run_calls calls s).isSome = true →
      ∀ k, ∃ sk, run_calls (calls.take k) s = some sk ∧
        lock_trace no_locks sk.trace = some no_locks := by
  intro calls
  induction calls with
  | nil =>
    intro s _ ht _ k
    exact ⟨s, by simp [run_calls], ht⟩
  | cons c cs ih =>
    intro s h0 ht hr k
    cases k with
    | zero => exact ⟨s, by simp [run_calls], ht⟩
    | succ k =>
      rw [List.take_succ_cons]
      cases c with
      | malloc rnd tl fuel size =>
        simp only [run_calls] at hr ⊢
        cases hm : tree_malloc rnd tl fuel size s with
        | none => rw [hm] at hr; simp at hr
        | some r =>
          obtain ⟨p, s1⟩ := r
          rw [hm] at hr
          simp only [] at hr ⊢
          obtain ⟨g1, seg, g2, g3⟩ := tree_malloc_locks rnd tl fuel size s p s1 hm h0
          exact ih s1 g1 (by rw [g2, lock_trace_append, ht]; exact g3) hr k
      | free p =>
        simp only [run_calls] at hr ⊢
        cases hm : tree_free p s with
        | none => rw [hm] at hr; simp at hr
        | some s1 =>
          rw [hm] at hr
          simp only [] at hr ⊢
          obtain ⟨g1, seg, g2, g3⟩ := tree_free_locks p s s1 hm h0
          exact ih s1 g1 (by rw [g2, lock_trace_append, ht]; exact g3) hr k

/-- Claim C18: take any sequential execution of `tree_malloc` and `tree_free`
calls from the initial state in which every call returns (whatever `rand()`
gives, whichever trylocks succeed).  After every call of the execution, the
lock and unlock events so far replay without breaking the discipline of
`lock_step`: no arena mutex is tried or taken while the pool mutex or another
arena mutex is held, no mutex is taken twice, every release is of a mutex
that is held; and no mutex is held when the call has returned. -/
theorem lock_order (calls : List Call) (base : Nat)
    (h : (run_calls calls (init_state base)).isSome = true) :
    ∀ k, ∃ sk, run_calls (calls.take k) (init_state base) = some sk ∧
      lock_trace no_locks sk.trace = some no_locks :=
  run_calls_locks calls (init_state base) rfl rfl h

/-- Claim C18, witness: three allocations, the second after two failed
trylocks (arenas 0 and 1 are busy, arena 2 is taken), the third through the
blocking `bucket_lock` (no trylock succeeds), and the release of the first
block. -/
theorem lock_order_witness :
    (run_calls [Call.malloc 0 (fun _ => true) 16 100,
        Call.malloc 0 (fun i => decide (i = 2)) 16 60,
        Call.malloc 0 (fun _ => false) 16 24,
        Call.free 65556] (init_state 65536)).isSome = true ∧
    ∀ k, ∃ sk, run_calls ([Call.malloc 0 (fun _ => true) 16 100,
        Call.malloc 0 (fun i => decide (i = 2)) 16 60,
        Call.malloc 0 (fun _ => false) 16 24,
        Call.free 65556].take k) (init_state 65536) = some sk ∧
      lock_trace no_locks sk.trace = some no_locks :=
  ⟨by decide!, lock_order _ _ (by decide!)⟩

/-- The trace of the witness of C18, oldest event first.  The last call frees
the only block of the slab at 65536: the coalescing reaches class 14 and the
slab goes to the pool while the mutex of arena 0 is held. -/
theorem lock_order_trace :
    (run_calls [Call.malloc 0 (fun _ => true) 16 100,
        Call.malloc 0 (fun i => decide (i = 2)) 16 60,
        Call.malloc 0 (fun _ => false) 16 24,
        Call.free 65556] (init_state 65536)).map (fun s => s.trace.reverse) =
      some [Event.bucket_trylock 0 true, Event.bucket_get 7, Event.global_request_page,
        Event.pool_lock, Event.map_pages 5, Event.pool_unlock, Event.bucket_unlock 0,
        Event.bucket_trylock 0 false, Event.bucket_trylock 1 false,
        Event.bucket_trylock 2 true, Event.bucket_get 6, Event.global_request_page,
        Event.pool_lock, Event.map_pages 5, Event.pool_unlock, Event.bucket_unlock 2,
        Event.bucket_trylock 2 false, Event.bucket_trylock 3 false,
        Event.bucket_trylock 4 false, Event.bucket_lock 5, Event.bucket_get 5,
        Event.global_request_page, Event.pool_lock, Event.map_pages 5, Event.pool_unlock,
        Event.bucket_unlock 5, Event.bucket_lock 0, Event.bucket_return 65552,
        Event.bucket_return 65552, Event.bucket_return 65552, Event.bucket_return 65552,
        Event.bucket_return 65552, Event.bucket_return 65552, Event.bucket_return 65552,
        Event.bucket_return 65552, Event.global_return_page 65536 5, Event.pool_lock,
        Event.pool_unlock, Event.bucket_unlock 0] := by
  decide!

end TreeMalloc
